import Mathlib

/-!
Verification development for the syncthing per-repository file set
(`files/set.go`), the node identifier (`protocol` NodeID file) and the
directory walker (`scanner/walk.go`).

The Go code is shallowly embedded: Go maps become association lists
(`ffind` is indexing — returning the zero value where Go does — `fput`
is assignment, `fdel` is `delete`), the fixed `[64]` arrays become
functions out of `Fin 64`, and the process-wide lamport clock is passed
as explicit state.  Small helpers of the repository that are not part of
the provided sources (`files/key.go`, the `lamport` and `cid` packages,
the protocol flag helpers) are modelled from the specification; each such
definition carries a doc comment saying so.
-/

set_option maxRecDepth 100000
set_option maxHeartbeats 1000000

namespace Syncthing

/-- Association-list map mirroring a Go `map` value.  `ffind m x` is the
`v, ok := m[x]` lookup. -/
def ffind {α β : Type} [DecidableEq α] : List (α × β) → α → Option β
  | [], _ => none
  | (a, b) :: t, x => if a = x then some b else ffind t x

/-- `fput m x y` is the Go assignment `m[x] = y`: the binding for `x` is
replaced in place, or appended when absent. -/
def fput {α β : Type} [DecidableEq α] : List (α × β) → α → β → List (α × β)
  | [], x, y => [(x, y)]
  | (a, b) :: t, x, y => if a = x then (x, y) :: t else (a, b) :: fput t x y

/-- `fdel m x` is the Go `delete(m, x)`. -/
def fdel {α β : Type} [DecidableEq α] : List (α × β) → α → List (α × β)
  | [], _ => []
  | (a, b) :: t, x => if a = x then fdel t x else (a, b) :: fdel t x

/-- A content block as produced by the hasher: offset, size, hash. -/
structure Block where
  offset : Int
  size : Nat
  hash : List Nat

deriving DecidableEq, Repr

/-- `scanner.File`: the value object for one scanned file. -/
structure File where
  name : String
  flags : Nat
  modified : Int
  version : Nat
  size : Int
  blocks : List Block
  suppressed : Bool

deriving DecidableEq, Repr

/-- The Go zero value of `scanner.File`. -/
def zeroFile : File := ⟨"", 0, 0, 0, 0, [], false⟩

/-- Modelled from the spec (§4.3; `files/key.go` is not among the provided
sources): the comparable identity of a file is the pair (name, version). -/
structure Key where
  name : String
  version : Nat

deriving DecidableEq, Repr

/-- The Go zero value of `key`. -/
def zeroKey : Key := ⟨"", 0⟩

/-- Modelled from the spec (§4.3): `keyFor(f) = (f.Name, f.Version)`. -/
def keyFor (f : File) : Key := ⟨f.name, f.version⟩

/-- Modelled from the spec (§4.3): `a.newerThan(b)` iff `a.Version > b.Version`. -/
def Key.newerThan (a b : Key) : Bool := b.version < a.version

/-- Modelled from the spec (§6, file flag bits; the protocol constants file
is not among the provided sources): the Deleted flag bit. -/
def FlagDeleted : Nat := 4096

/-- Modelled from the spec: `protocol.IsDeleted(flags)` tests the Deleted bit. -/
def IsDeleted (flags : Nat) : Bool := flags &&& FlagDeleted ≠ 0

/-- `fileRecord` from `files/set.go`: a unique file record with its
reference count and global marker. -/
structure FileRecord where
  file : File
  usage : Nat
  global : Bool

deriving DecidableEq, Repr

/-- The Go zero value of `fileRecord` (returned by map indexing on a miss). -/
def zeroRecord : FileRecord := ⟨zeroFile, 0, false⟩

/-- Modelled from the spec (§3; the `cid` package is not among the provided
sources): the reserved local connection id, integer 0. -/
def LocalID : Fin 64 := 0

/-- Modelled from the spec (§4.1; the `lamport` package is not among the
provided sources): the process-wide logical clock. -/
structure Clock where
  v : Nat

deriving DecidableEq, Repr

/-- Modelled from the spec (§4.1): `Tick(observed)` returns
`max(v, observed) + 1` and stores it. -/
def Clock.tick (c : Clock) (observed : Nat) : Nat × Clock :=
  (max c.v observed + 1, ⟨max c.v observed + 1⟩)

/-- The in-memory part of `files.Set`.  The bolt persistence (`db`, `repo`)
is out of scope of the claims settled here; the `[64]` arrays become
functions of `Fin 64`, which also encodes the `id > 63` panic guard. -/
structure FSet where
  files : List (Key × FileRecord)
  remoteKey : Fin 64 → Option (List (String × Key))
  changes : Fin 64 → Nat
  globalAvailability : List (String × Nat)
  globalKey : List (String × Key)
  globalVersion : List (String × Nat)

/-- `NewSet`: all maps empty; the 64 per-peer maps are nil. -/
def NewSet : FSet :=
  { files := []
    remoteKey := fun _ => none
    changes := fun _ => 0
    globalAvailability := []
    globalKey := []
    globalVersion := [] }

/-- One iteration of the loop body of `Set.update` (set.go:363-404) for a
single file `f`, on behalf of peer `cid` (whose per-peer map is non-nil). -/
def updateOne (cid : Fin 64) (m : FSet) (f : File) : FSet :=
  let n := f.name
  let fk := keyFor f
  let rem := (m.remoteKey cid).getD []
  -- "The remote already has exactly this file, skip it"
  if ffind rem n = some fk then m
  else
    let rem' := fput rem n fk
    -- Keep the block list or increment the usage
    let files' :=
      match ffind m.files fk with
      | none => fput m.files fk { file := f, usage := 1, global := false }
      | some br => fput m.files fk { br with usage := br.usage + 1 }
    let m1 : FSet :=
      { m with
        remoteKey := Function.update m.remoteKey cid (some rem')
        files := files' }
    -- Update global view
    match ffind m1.globalKey n with
    | some gk =>
      if fk = gk then
        { m1 with
          globalAvailability :=
            fput m1.globalAvailability n
              ((ffind m1.globalAvailability n).getD 0 ||| (1 <<< (cid : Nat))) }
      else if fk.newerThan gk then
        let files2 := fput m1.files gk
          { (ffind m1.files gk).getD zeroRecord with global := false }
        let files3 := fput files2 fk
          { (ffind files2 fk).getD zeroRecord with global := true }
        { m1 with
          files := files3
          globalKey := fput m1.globalKey n fk
          globalAvailability := fput m1.globalAvailability n (1 <<< (cid : Nat)) }
      else m1
    | none =>
      -- `gk` is the zero key here (Go zero value on a map miss)
      if fk.newerThan zeroKey then
        let files3 := fput m1.files fk
          { (ffind m1.files fk).getD zeroRecord with global := true }
        { m1 with
          files := files3
          globalKey := fput m1.globalKey n fk
          globalAvailability := fput m1.globalAvailability n (1 <<< (cid : Nat)) }
      else m1

/-- `Set.update` (set.go:358-405): fatal (`none`) when the peer's map is
nil, i.e. before an initial replace; otherwise fold the loop body. -/
def updateInternal (cid : Fin 64) (m : FSet) (fs : List File) : Option FSet :=
  match m.remoteKey cid with
  | none => none
  | some _ => some (fs.foldl (updateOne cid) m)

/-- The loop body of step 1 of `Set.replace` (set.go:410-419): for one
entry of the replaced peer's map, decrement the usage of the referenced
record, deleting it when the usage was 1 (the `ok && Usage == 1` /
`ok && Usage > 1` switch). -/
def decrementOne (acc : List (Key × FileRecord)) (p : String × Key) :
    List (Key × FileRecord) :=
  match ffind acc p.2 with
  | some br =>
    if br.usage = 1 then fdel acc p.2
    else if 1 < br.usage then fput acc p.2 { br with usage := br.usage - 1 }
    else acc
  | none => acc

/-- Step 1 of `Set.replace` (set.go:410-419): decrement the usage of every
file the replaced peer referenced, deleting records whose usage reaches
zero. -/
def decrementUsage (files : List (Key × FileRecord)) (rem : List (String × Key)) :
    List (Key × FileRecord) :=
  rem.foldl decrementOne files

/-- One iteration of the inner scan of step 3 of `Set.replace`
(set.go:429-439) for peer `i`: `if rk, ok := rem[n]; ok { switch ... }`
(indexing a nil map yields `ok == false`). -/
def newestStep (m : FSet) (n : String) (p : Key × Nat) (i : Fin 64) : Key × Nat :=
  match m.remoteKey i with
  | some rem =>
    match ffind rem n with
    | some rk =>
      if rk = p.1 then (p.1, p.2 ||| (1 <<< (i : Nat)))
      else if rk.newerThan p.1 then (rk, 1 <<< (i : Nat))
      else p
    | none => p
  | none => p

/-- The inner scan of step 3 of `Set.replace` (set.go:429-439): over the 64
peer maps find the newest key for name `n` and the availability bits of
the peers holding it. -/
def newestFor (m : FSet) (n : String) : Key × Nat :=
  (List.finRange 64).foldl (newestStep m n) (zeroKey, 0)

/-- Step 3 of `Set.replace` for one name of `globalKey` (set.go:425-453). -/
def recomputeName (m : FSet) (n : String) : FSet :=
  let p := newestFor m n
  if p.2 ≠ 0 then
    -- Someone had the file
    { m with
      files := fput m.files p.1 { (ffind m.files p.1).getD zeroRecord with global := true }
      globalKey := fput m.globalKey n p.1
      globalAvailability := fput m.globalAvailability n p.2 }
  else
    -- Noone had the file
    { m with
      globalKey := fdel m.globalKey n
      globalAvailability := fdel m.globalAvailability n }

/-- Steps 1-3 of `Set.replace` (set.go:410-453): decrement the old
references, clear the peer's map (step 2 installs an empty non-nil map),
recompute the global view for every name it knew. -/
def replacePrep (cid : Fin 64) (m : FSet) : FSet :=
  let m1 : FSet := { m with files := decrementUsage m.files ((m.remoteKey cid).getD []) }
  let m2 : FSet := { m1 with remoteKey := Function.update m1.remoteKey cid (some []) }
  (m2.globalKey.map Prod.fst).foldl recomputeName m2

/-- `Set.replace` (set.go:407-457): steps 1-3, then fold in the new list
through `update`.  The `update` call cannot hit the nil-map fatal because
step 2 just installed an empty non-nil map. -/
def replaceInternal (cid : Fin 64) (m : FSet) (fs : List File) : FSet :=
  fs.foldl (updateOne cid) (replacePrep cid m)

/-- `Set.equals` (set.go:339-356): the peer's current non-Deleted view,
name for name, against the new list. -/
def equalsGo (m : FSet) (id : Fin 64) (fs : List File) : Bool :=
  let cur := ((m.remoteKey id).getD []).foldl
    (fun acc (p : String × Key) =>
      let f := ((ffind m.files p.2).getD zeroRecord).file
      if ¬ IsDeleted f.flags then fput acc f.name p.2 else acc)
    ([] : List (String × Key))
  if cur.length ≠ fs.length then false
  else fs.all fun f => (ffind cur f.name).getD zeroKey = keyFor f

/-- `Set.Replace` (set.go:110-126), in-memory phase.  The `id > 63` panic
guard is encoded by `Fin 64`; the bolt write does not touch the in-memory
state and is omitted. -/
def Replace (id : Fin 64) (m : FSet) (fs : List File) : FSet :=
  if fs.length = 0 ∨ ¬ equalsGo m id fs then
    let m1 : FSet := { m with changes := Function.update m.changes id (m.changes id + 1) }
    replaceInternal id m1 fs
  else m

/-- The body of the tombstone-synthesis loop of `Set.ReplaceWithDelete`
(set.go:191-205): for one entry of the local peer's map whose name is not
among `nf`, append the record's file, tombstoned (deleted flag, no
blocks, zero size, ticked version) unless it already was deleted. -/
def tombstoneStep (m : FSet) (nf : List String) (acc : List File × Clock)
    (p : String × Key) : List File × Clock :=
  if p.2.name ∈ nf then acc
  else
    let cf := ((ffind m.files p.2).getD zeroRecord).file
    if ¬ IsDeleted cf.flags then
      let t := acc.2.tick cf.version
      (acc.1 ++ [{ cf with
                    flags := cf.flags ||| FlagDeleted
                    blocks := []
                    size := 0
                    version := t.1 }], t.2)
    else (acc.1 ++ [cf], acc.2)

/-- The tombstone-synthesis loop of `Set.ReplaceWithDelete`
(set.go:191-205) over all entries of the local peer's map. -/
def tombstoneFold (m : FSet) (nf : List String) (entries : List (String × Key))
    (fs : List File) (c : Clock) : List File × Clock :=
  entries.foldl (tombstoneStep m nf) (fs, c)

/-- `Set.ReplaceWithDelete` (set.go:128-210), in-memory phase, with the
lamport clock threaded explicitly. -/
def ReplaceWithDelete (id : Fin 64) (m : FSet) (fs : List File) (c : Clock) :
    FSet × Clock :=
  if fs.length = 0 ∨ ¬ equalsGo m id fs then
    let m1 : FSet := { m with changes := Function.update m.changes id (m.changes id + 1) }
    let nf := fs.map File.name
    let t := tombstoneFold m1 nf ((m1.remoteKey LocalID).getD []) fs c
    (replaceInternal id m1 t.1, t.2)
  else (m, c)

/-- `Set.Update` (set.go:212-223), in-memory phase: internal update, then
unconditionally bump the peer's change counter.  `none` is the fatal
"update before replace". -/
def Update (id : Fin 64) (m : FSet) (fs : List File) : Option FSet :=
  match updateInternal id m fs with
  | none => none
  | some m' => some { m' with changes := Function.update m'.changes id (m'.changes id + 1) }

/-- `Set.Need` (set.go:225-248): scan the unique records for global,
unsuppressed files newer than what the peer holds, skipping deletes the
peer does not need. -/
def Need (m : FSet) (id : Fin 64) : List File :=
  let rkID := (m.remoteKey id).getD []
  m.files.foldl
    (fun fs p =>
      let gk := p.1
      let gf := p.2
      if ¬ gf.global ∨ gf.file.suppressed then fs
      else
        let rkOpt := ffind rkID gk.name
        let rk := rkOpt.getD zeroKey
        if gk.newerThan rk then
          if IsDeleted gf.file.flags ∧
              (rkOpt = none ∨ IsDeleted ((ffind m.files rk).getD zeroRecord).file.flags)
          then fs
          else fs ++ [gf.file]
        else fs)
    []

/-- `Set.Changes` (set.go:330-337). -/
def Changes (m : FSet) (id : Fin 64) : Nat := m.changes id

/-- `Set.Availability` (set.go:320-328). -/
def Availability (m : FSet) (name : String) : Nat :=
  (ffind m.globalAvailability name).getD 0

/-- The key peer `i` currently reports for `name` (none when the peer map
is nil or has no entry). -/
def heldBy (m : FSet) (i : Fin 64) (n : String) : Option Key :=
  ffind ((m.remoteKey i).getD []) n

/-- Peer `i`'s map binds `k.name` to `k`. -/
def refsAt (m : FSet) (i : Fin 64) (k : Key) : Prop :=
  heldBy m i k.name = some k

instance (m : FSet) (i : Fin 64) (k : Key) : Decidable (refsAt m i k) := by
  unfold refsAt; infer_instance

/-- Number of peers whose map binds `k.name` to `k`. -/
def refCount (m : FSet) (k : Key) : Nat :=
  ∑ i : Fin 64, if refsAt m i k then 1 else 0

/-- Peer `i`'s map contains `k` as a value (under any name) — the wording
of invariant I1/P1. -/
def peerHasVal (m : FSet) (i : Fin 64) (k : Key) : Prop :=
  ∃ p ∈ (m.remoteKey i).getD [], p.2 = k

instance (m : FSet) (i : Fin 64) (k : Key) : Decidable (peerHasVal m i k) := by
  unfold peerHasVal; infer_instance

/-- Number of peer indices whose map contains `k` as a value. -/
def valCount (m : FSet) (k : Key) : Nat :=
  ∑ i : Fin 64, if peerHasVal m i k then 1 else 0

/-- Claim C1, as stated: every unique record's usage equals the number of
peer indices containing its key as a value (hence no orphans), and every
peer-referenced key has a record (no dangling references). -/
def UsageClaim (m : FSet) : Prop :=
  (∀ p ∈ m.files, p.2.usage = valCount m p.1) ∧
  (∀ i : Fin 64, ∀ p ∈ (m.remoteKey i).getD [], (ffind m.files p.2).isSome = true)

/-- The global key `gk` recorded for `n` is held by some peer, has the
maximum version over all peers' entries for `n`, and the availability word
has exactly the bits of the peers holding it. -/
def globalOKKey (m : FSet) (n : String) (gk : Key) : Prop :=
  (∃ i : Fin 64, heldBy m i n = some gk) ∧
  (∀ i : Fin 64, ((heldBy m i n).getD zeroKey).version ≤ gk.version) ∧
  (∀ i : Fin 64, (Availability m n).testBit (i : Nat) = true ↔ heldBy m i n = some gk)

instance (m : FSet) (n : String) (gk : Key) : Decidable (globalOKKey m n gk) := by
  unfold globalOKKey; infer_instance

/-- Claim C2, as stated, for one name: a global key is recorded for `n`
and is correct per `globalOKKey`. -/
def GlobalOKAt (m : FSet) (n : String) : Prop :=
  match ffind m.globalKey n with
  | some gk => globalOKKey m n gk
  | none => False

instance (m : FSet) (n : String) : Decidable (GlobalOKAt m n) := by
  unfold GlobalOKAt
  split
  · infer_instance
  · exact isFalse fun h => h

/-- Claim C2, as stated: the global view is correct for every name some
peer reports. -/
def GlobalClaim (m : FSet) : Prop :=
  ∀ i : Fin 64, ∀ p ∈ (m.remoteKey i).getD [], GlobalOKAt m p.1

/-- Claim C3, as stated: `globalVersion` lists every global name with the
version of its global key. -/
def GlobalVersionClaim (m : FSet) : Prop :=
  ∀ p ∈ m.globalKey, ffind m.globalVersion p.1 = some p.2.version

instance (m : FSet) : Decidable (UsageClaim m) := by
  unfold UsageClaim; infer_instance

instance (m : FSet) : Decidable (GlobalClaim m) := by
  unfold GlobalClaim; infer_instance

instance (m : FSet) : Decidable (GlobalVersionClaim m) := by
  unfold GlobalVersionClaim; infer_instance

/-- The effect of `decrementOne` on the record of the processed key:
decremented, deleted at usage 1, untouched at usage 0 or absent. -/
def decStep (files : List (Key × FileRecord)) (k : Key) : Option FileRecord :=
  match ffind files k with
  | some br =>
    if br.usage = 1 then none
    else if 1 < br.usage then some { br with usage := br.usage - 1 }
    else some br
  | none => none

/-- Invariant of the inner scan of step 3 of `replace`, after the peers in
`seen` have been examined: either nothing was found yet, or the
accumulator holds the newest key among the seen holders of `n` together
with exactly their availability bits. -/
def newestGood (m : FSet) (n : String) (seen : List (Fin 64)) (p : Key × Nat) : Prop :=
  (p.1 = zeroKey ∧ p.2 = 0 ∧ ∀ i ∈ seen, heldBy m i n = none) ∨
  (p.1.name = n ∧ 1 ≤ p.1.version ∧ (∃ i ∈ seen, heldBy m i n = some p.1) ∧
   (∀ i ∈ seen, ((heldBy m i n).getD zeroKey).version ≤ p.1.version) ∧
   (∀ i : Fin 64, p.2.testBit (i : Nat) = true ↔ (i ∈ seen ∧ heldBy m i n = some p.1)))

/-- What `recomputeName` leaves at one processed name, phrased against the
base state `m2` (whose peer maps the whole recompute phase reads). -/
def recomputedAt (m2 s : FSet) (n : String) : Prop :=
  (((newestFor m2 n).2 ≠ 0 ∧
      ffind s.globalKey n = some (newestFor m2 n).1 ∧
      ffind s.globalAvailability n = some (newestFor m2 n).2) ∨
   ((newestFor m2 n).2 = 0 ∧
      ffind s.globalKey n = none ∧
      ffind s.globalAvailability n = none))

/-- Relation between the base state `m2` of the recompute phase and the
state `s` reached after processing the names in `done`: peers, counters
and `globalVersion` untouched; records keep their file and usage (only the
`global` flag may differ); unprocessed names keep their global entries;
processed names are recomputed. -/
def recomputeRel (m2 s : FSet) (done : List String) : Prop :=
  s.remoteKey = m2.remoteKey ∧
  (∀ k : Key,
    (ffind m2.files k = none → ffind s.files k = none) ∧
    (∀ r, ffind m2.files k = some r →
      ∃ r', ffind s.files k = some r' ∧ r'.file = r.file ∧ r'.usage = r.usage)) ∧
  (∀ n, n ∉ done → ffind s.globalKey n = ffind m2.globalKey n ∧
      ffind s.globalAvailability n = ffind m2.globalAvailability n) ∧
  (∀ n ∈ done, recomputedAt m2 s n) ∧
  (s.files.map Prod.fst).Nodup ∧
  (s.globalKey.map Prod.fst).Nodup ∧
  (s.globalAvailability.map Prod.fst).Nodup

/-- Well-formedness of a file set state, as maintained by the mutations of
`files/set.go` that run through the internal `replace`: map keys are
unique, every per-peer binding maps a name to a key of that name with a
positive version, records are stored under the key of their own file,
usage equals the reference count, no reference dangles, and the derived
global maps are correct. -/
structure Inv (m : FSet) : Prop where
  nodupRem : ∀ i : Fin 64, (((m.remoteKey i).getD []).map Prod.fst).Nodup
  entryName : ∀ i : Fin 64, ∀ p ∈ (m.remoteKey i).getD [], p.2.name = p.1 ∧ 1 ≤ p.2.version
  nodupFiles : (m.files.map Prod.fst).Nodup
  nodupGK : (m.globalKey.map Prod.fst).Nodup
  nodupAv : (m.globalAvailability.map Prod.fst).Nodup
  recKey : ∀ p ∈ m.files, keyFor p.2.file = p.1 ∧ 1 ≤ p.1.version
  usageEq : ∀ p ∈ m.files, p.2.usage = refCount m p.1
  noDangling : ∀ i : Fin 64, ∀ p ∈ (m.remoteKey i).getD [], (ffind m.files p.2).isSome = true
  gkComplete : ∀ i : Fin 64, ∀ p ∈ (m.remoteKey i).getD [], (ffind m.globalKey p.1).isSome = true
  gkOK : ∀ p ∈ m.globalKey, globalOKKey m p.1 p.2

instance (m : FSet) : Decidable (Inv m) :=
  decidable_of_iff
    ((∀ i : Fin 64, (((m.remoteKey i).getD []).map Prod.fst).Nodup) ∧
     (∀ i : Fin 64, ∀ p ∈ (m.remoteKey i).getD [], p.2.name = p.1 ∧ 1 ≤ p.2.version) ∧
     (m.files.map Prod.fst).Nodup ∧
     (m.globalKey.map Prod.fst).Nodup ∧
     (m.globalAvailability.map Prod.fst).Nodup ∧
     (∀ p ∈ m.files, keyFor p.2.file = p.1 ∧ 1 ≤ p.1.version) ∧
     (∀ p ∈ m.files, p.2.usage = refCount m p.1) ∧
     (∀ i : Fin 64, ∀ p ∈ (m.remoteKey i).getD [], (ffind m.files p.2).isSome = true) ∧
     (∀ i : Fin 64, ∀ p ∈ (m.remoteKey i).getD [], (ffind m.globalKey p.1).isSome = true) ∧
     (∀ p ∈ m.globalKey, globalOKKey m p.1 p.2))
    (by
      constructor
      · rintro ⟨a, b, c, d, e, f, g, h, i, j⟩
        exact ⟨a, b, c, d, e, f, g, h, i, j⟩
      · rintro ⟨a, b, c, d, e, f, g, h, i, j⟩
        exact ⟨a, b, c, d, e, f, g, h, i, j⟩)

/-- The state after steps 1-2 of `replace`: usages decremented, the peer's
map reset to empty. -/
def clearedState (cid : Fin 64) (m : FSet) : FSet :=
  { m with
    files := decrementUsage m.files ((m.remoteKey cid).getD [])
    remoteKey := Function.update m.remoteKey cid (some []) }

/-- The common shape of the state produced by one non-skipped iteration of
`update`: the peer's map extended with `f`, one of several file tables and
global maps. -/
def updState (m : FSet) (cid : Fin 64) (rem : List (String × Key)) (f : File)
    (fls : List (Key × FileRecord)) (gkm : List (String × Key))
    (av : List (String × Nat)) : FSet :=
  { files := fls
    remoteKey := Function.update m.remoteKey cid (some (fput rem f.name (keyFor f)))
    changes := m.changes
    globalAvailability := av
    globalKey := gkm
    globalVersion := m.globalVersion }

/-- Fixture: the file "a" at version 5 (no flags, no blocks). -/
def fileA5 : File := { zeroFile with name := "a", version := 5 }

/-- Fixture: the file "a" at version 3. -/
def fileA3 : File := { zeroFile with name := "a", version := 3 }

/-- Fixture: the state after `Replace(0, [a@5])` on a fresh set. -/
def stA5 : FSet := Replace 0 NewSet [fileA5]

/-- Fixture: the state after `Replace(0, [a@5])` then `Update(0, [a@3])`. -/
def stA5A3 : FSet := (Update 0 stA5 [fileA3]).getD NewSet

/-- Fixture: the file "b" at version 3. -/
def fileB3 : File := { zeroFile with name := "b", version := 3 }

/-- Fixture: the state after `Replace(0, [b@3])` on a fresh set. -/
def stB3 : FSet := Replace 0 NewSet [fileB3]

/-- The condition under which the `Need` loop appends a record's file:
global, not suppressed, newer than the peer's key for the name, and not
an unneeded delete. -/
def needCond (m : FSet) (id : Fin 64) (p : Key × FileRecord) : Prop :=
  ¬ (¬ p.2.global ∨ p.2.file.suppressed) ∧
  p.1.newerThan ((ffind ((m.remoteKey id).getD []) p.1.name).getD zeroKey) = true ∧
  ¬ (IsDeleted p.2.file.flags ∧
      (ffind ((m.remoteKey id).getD []) p.1.name = none ∨
       IsDeleted ((ffind m.files
         ((ffind ((m.remoteKey id).getD []) p.1.name).getD zeroKey)).getD
         zeroRecord).file.flags))

/-- Claim C5's wording for membership in `Need(peer)`: the file of a
record marked global and not suppressed, strictly newer than the key the
peer holds for that name (absence counting as older), excluding Deleted
globals when the peer has no entry or its entry's record is also
Deleted. -/
def NeedSpec (m : FSet) (id : Fin 64) (f : File) : Prop :=
  ∃ p ∈ m.files, p.2.file = f ∧ p.2.global = true ∧ ¬ p.2.file.suppressed = true ∧
    (match ffind ((m.remoteKey id).getD []) p.1.name with
     | none => True
     | some rk => rk.version < p.1.version) ∧
    ¬ (IsDeleted p.2.file.flags = true ∧
       (ffind ((m.remoteKey id).getD []) p.1.name = none ∨
        IsDeleted ((ffind m.files
          ((ffind ((m.remoteKey id).getD []) p.1.name).getD zeroKey)).getD
          zeroRecord).file.flags = true))

/-- Go's `append` as observed through the caller's backing array: when
the slice has free capacity the appended bytes land in the array,
otherwise a new array is allocated and the original array is untouched
(Go specification, appending to slices). `arr` is the backing array,
`l`/`c` the slice's length and capacity. -/
def appendEffect (arr : List Nat) (l c : Nat) (xs : List Nat) : List Nat :=
  if l + xs.length ≤ c then arr.take l ++ xs ++ arr.drop (l + xs.length)
  else arr

/-- `NewNodeID` (src/unnamed/part_001:17-23): `var n NodeID` zeroes the
32-byte array, `hf.Sum(n[:])` appends the SHA-256 digest to the full
slice `n[:]` (length 32, capacity 32) discarding the returned slice, and
`n` is returned.  `digest` stands for the SHA-256 digest of the
certificate (crypto/sha256 is not among the sources; only the 32-byte
output length matters). -/
def NewNodeID (digest : List Nat) : List Nat :=
  appendEffect (List.replicate 32 0) 32 32 digest

/-- The RFC 4648 base32 alphabet used by `encoding/base32.StdEncoding`. -/
def b32Alphabet : List Char :=
  ['A', 'B', 'C', 'D', 'E', 'F', 'G', 'H', 'I', 'J', 'K', 'L', 'M',
   'N', 'O', 'P', 'Q', 'R', 'S', 'T', 'U', 'V', 'W', 'X', 'Y', 'Z',
   '2', '3', '4', '5', '6', '7']

/-- The alphabet symbol for a five-bit value. -/
def b32char (v : Nat) : Char := b32Alphabet.getD v 'A'

/-- The eight five-bit groups of a five-byte block (RFC 4648 §6). -/
def quintets (b0 b1 b2 b3 b4 : Nat) : List Nat :=
  [b0 >>> 3, ((b0 % 8) <<< 2) + (b1 >>> 6), (b1 >>> 1) % 32,
   ((b1 % 2) <<< 4) + (b2 >>> 4), ((b2 % 16) <<< 1) + (b3 >>> 7),
   (b3 >>> 2) % 32, ((b3 % 4) <<< 3) + (b4 >>> 5), b4 % 32]

/-- `base32.StdEncoding.EncodeToString`: five-byte blocks become eight
symbols; a final partial block is zero-extended and padded with `=` to a
multiple of eight symbols. -/
def b32Encode : List Nat → List Char
  | b0 :: b1 :: b2 :: b3 :: b4 :: rest =>
    (quintets b0 b1 b2 b3 b4).map b32char ++ b32Encode rest
  | [] => []
  | [b0] => ((quintets b0 0 0 0 0).map b32char).take 2 ++ ['=', '=', '=', '=', '=', '=']
  | [b0, b1] => ((quintets b0 b1 0 0 0).map b32char).take 4 ++ ['=', '=', '=', '=']
  | [b0, b1, b2] => ((quintets b0 b1 b2 0 0).map b32char).take 5 ++ ['=', '=', '=']
  | [b0, b1, b2, b3] => ((quintets b0 b1 b2 b3 0).map b32char).take 7 ++ ['=']

/-- `strings.Trim`: remove the characters of the cutset from both ends. -/
def goTrim (cutset : List Char) (s : List Char) : List Char :=
  ((s.dropWhile (· ∈ cutset)).reverse.dropWhile (· ∈ cutset)).reverse

/-- `strings.ToUpper`. -/
def goToUpper (s : List Char) : List Char := s.map Char.toUpper

/-- `strings.Replace(s, c, "", -1)`: remove every occurrence of `c`. -/
def removeChar (c : Char) (s : List Char) : List Char := s.filter (· ≠ c)

/-- `regexp.MustCompile("(.{9})").ReplaceAllString(id, "$1-")`: append a
hyphen after every full group of nine characters. -/
def hyphenate (s : List Char) : List Char :=
  if h : 9 ≤ s.length then s.take 9 ++ '-' :: hyphenate (s.drop 9) else s
termination_by s.length
decreasing_by
  simp only [List.length_drop]
  omega

/-- `NodeID.String` (src/unnamed/part_001:25-43): encode, strim the
padding, uppercase, drop separators, discard pre-existing check digits,
insert the two Luhn check characters, hyphenate.  `gen` stands for
`luhn.Base32Trimmed.Generate` (the luhn package is not among the
sources). -/
def NodeIDString (gen : List Char → Char) (n : List Nat) : List Char :=
  let id := b32Encode n
  let id := goTrim ['='] id
  let id := goToUpper id
  let id := removeChar '-' id
  let id := removeChar ' ' id
  let id := if id.length = 54 then id.take 26 ++ (id.drop 27).take 26 else id
  let p0 := id.take 26
  let c0 := gen p0
  let p1 := id.drop 26
  let c1 := gen p1
  goTrim ['-'] (hyphenate (p0 ++ c0 :: p1 ++ [c1]))

/-- The five-bit value of an alphabet symbol («corrupt input» otherwise). -/
def b32val (ch : Char) : Option Nat :=
  if ch ∈ b32Alphabet then some (b32Alphabet.indexOf ch) else none

/-- The five bytes of a full eight-symbol block. -/
def b32bytes (vs : List Nat) : List Nat :=
  [((vs.getD 0 0) <<< 3 + (vs.getD 1 0) >>> 2) % 256,
   ((vs.getD 1 0) <<< 6 + (vs.getD 2 0) <<< 1 + (vs.getD 3 0) >>> 4) % 256,
   ((vs.getD 3 0) <<< 4 + (vs.getD 4 0) >>> 1) % 256,
   ((vs.getD 4 0) <<< 7 + (vs.getD 5 0) <<< 2 + (vs.getD 6 0) >>> 3) % 256,
   ((vs.getD 6 0) <<< 5 + (vs.getD 7 0)) % 256]

/-- `base32.StdEncoding.DecodeString` on padding-free input (the callers
below strip `=` from the ends first): the input is consumed in groups of
eight symbols; running out of input inside a group, like meeting a symbol
outside the alphabet, is a corrupt-input error. -/
def b32DecodeGroups : List Char → Option (List Nat)
  | [] => some []
  | c0 :: c1 :: c2 :: c3 :: c4 :: c5 :: c6 :: c7 :: rest =>
    match [c0, c1, c2, c3, c4, c5, c6, c7].mapM b32val with
    | none => none
    | some vs =>
      match b32DecodeGroups rest with
      | none => none
      | some bs => some (b32bytes vs ++ bs)
  | _ => none

/-- `NodeID.UnmarshalText` (src/unnamed/part_001:53-84): strip `=` from
the ends, uppercase, drop separators, base32-decode (an error aborts),
copy into the id, then accept length 52 outright and length 54 when the
check characters recompute; `none` is a non-nil error return. -/
def UnmarshalTextGo (gen : List Char → Char) (bs : List Char) : Option (List Nat) :=
  let id := goTrim ['='] bs
  let id := goToUpper id
  let id := removeChar '-' id
  let id := removeChar ' ' id
  match b32DecodeGroups id with
  | none => none
  | some dec =>
    let n := (dec ++ List.replicate 32 0).take 32
    if id.length = 52 then some n
    else if id.length = 54 then
      let p0 := id.take 26
      let c0 := gen p0
      let p1 := (id.drop 27).take 26
      let c1 := gen p1
      if p0 ++ c0 :: p1 ++ [c1] = id then some n else none
    else none

/-- The `os.Lstat` view of the base directory at one instant.  The
filesystem is external state, so the two `checkDir` calls of `Walk` and
the traversal between them each get their own observation. -/
structure DirInfo where
  isDir : Bool

deriving DecidableEq, Repr

/-- `checkDir` (scanner/walk.go:300-309): an `Lstat` failure or a
non-directory is an error. -/
def checkDir (info : Option DirInfo) : Option String :=
  match info with
  | none => some "lstat error"
  | some i => if ¬ i.isDir then some "not a directory" else none

/-- `Walker.Walk` (scanner/walk.go:63-89) control flow: the named returns
start as `files = nil, err = nil`; the base directory is checked and an
error aborts; the two `filepath.Walk` passes append `walked` to `files`;
the base directory is re-checked and the named values are returned.
`pre` and `post` are the `Lstat` views at the two checks; `walked` is
what the passes collect. -/
def Walk (pre : Option DirInfo) (walked : List File) (post : Option DirInfo) :
    List File × Option String :=
  match checkDir pre with
  | some e => ([], some e)
  | none =>
    let files := walked
    match checkDir post with
    | some e => (files, some e)
    | none => (files, none)

theorem ffind_fput {α β : Type} [DecidableEq α] (m : List (α × β)) (a x : α) (b : β) :
    ffind (fput m a b) x = if a = x then some b else ffind m x := by
  induction m with
  | nil => simp [ffind, fput]
  | cons hd t ih =>
    obtain ⟨a', b'⟩ := hd
    by_cases h : a' = a
    · subst h
      by_cases h' : a' = x
      · subst h'
        simp [fput, ffind]
      · simp [fput, ffind, h']
    · by_cases h' : a' = x
      · subst h'
        have hax : ¬ a = a' := fun hc => h hc.symm
        simp [fput, ffind, h, hax]
      · simp [fput, ffind, h, h', ih]

theorem ffind_fdel {α β : Type} [DecidableEq α] (m : List (α × β)) (a x : α) :
    ffind (fdel m a) x = if a = x then none else ffind m x := by
  induction m with
  | nil => simp [ffind, fdel]
  | cons hd t ih =>
    obtain ⟨a', b'⟩ := hd
    by_cases h : a' = a
    · subst h
      by_cases h' : a' = x
      · subst h'
        simpa [fdel] using ih
      · simpa [fdel, ffind, h'] using ih
    · by_cases h' : a' = x
      · subst h'
        have hax : ¬ a = a' := fun hc => h hc.symm
        simp [fdel, ffind, h, hax]
      · simp [fdel, ffind, h, h', ih]

theorem ffind_cons_self {α β : Type} [DecidableEq α] (t : List (α × β)) (a : α) (b : β) :
    ffind ((a, b) :: t) a = some b := by simp [ffind]

theorem ffind_cons_ne {α β : Type} [DecidableEq α] (t : List (α × β)) {a' a : α} (b' : β)
    (h : a' ≠ a) : ffind ((a', b') :: t) a = ffind t a := by simp [ffind, h]

theorem fput_cons_self {α β : Type} [DecidableEq α] (t : List (α × β)) (a : α) (b' b : β) :
    fput ((a, b') :: t) a b = (a, b) :: t := by simp [fput]

theorem fput_cons_ne {α β : Type} [DecidableEq α] (t : List (α × β)) {a' a : α} (b' : β)
    (b : β) (h : a' ≠ a) : fput ((a', b') :: t) a b = (a', b') :: fput t a b := by
  simp [fput, h]

theorem fdel_cons_self {α β : Type} [DecidableEq α] (t : List (α × β)) (a : α) (b' : β) :
    fdel ((a, b') :: t) a = fdel t a := by simp [fdel]

theorem fdel_cons_ne {α β : Type} [DecidableEq α] (t : List (α × β)) {a' a : α} (b' : β)
    (h : a' ≠ a) : fdel ((a', b') :: t) a = (a', b') :: fdel t a := by simp [fdel, h]

theorem ffind_mem {α β : Type} [DecidableEq α] {m : List (α × β)} {a : α} {b : β}
    (h : ffind m a = some b) : (a, b) ∈ m := by
  induction m with
  | nil => simp [ffind] at h
  | cons hd t ih =>
    obtain ⟨a', b'⟩ := hd
    by_cases h' : a' = a
    · subst h'
      rw [ffind_cons_self] at h
      cases h
      exact List.mem_cons_self _ _
    · rw [ffind_cons_ne _ _ h'] at h
      exact List.mem_cons_of_mem _ (ih h)

theorem ffind_of_mem_nodup {α β : Type} [DecidableEq α] {m : List (α × β)}
    (hn : (m.map Prod.fst).Nodup) {p : α × β} (hp : p ∈ m) : ffind m p.1 = some p.2 := by
  induction m with
  | nil => simp at hp
  | cons hd t ih =>
    obtain ⟨a', b'⟩ := hd
    simp only [List.map_cons, List.nodup_cons] at hn
    rcases List.mem_cons.mp hp with h | h
    · subst h
      simp [ffind]
    · have hne : a' ≠ p.1 := by
        intro hc
        exact hn.1 (hc ▸ List.mem_map.mpr ⟨p, h, rfl⟩)
      simp only [ffind, if_neg hne]
      exact ih hn.2 h

theorem mem_fput_elim {α β : Type} [DecidableEq α] {m : List (α × β)} {a : α} {b : β}
    {q : α × β} (h : q ∈ fput m a b) : q = (a, b) ∨ q ∈ m := by
  induction m with
  | nil => simpa [fput] using h
  | cons hd t ih =>
    obtain ⟨a', b'⟩ := hd
    by_cases h' : a' = a
    · subst h'
      rw [fput_cons_self] at h
      rcases List.mem_cons.mp h with h | h
      · exact Or.inl h
      · exact Or.inr (List.mem_cons_of_mem _ h)
    · rw [fput_cons_ne _ _ _ h'] at h
      rcases List.mem_cons.mp h with h | h
      · exact Or.inr (h ▸ List.mem_cons_self _ _)
      · rcases ih h with h | h
        · exact Or.inl h
        · exact Or.inr (List.mem_cons_of_mem _ h)

theorem mem_fput_of_mem {α β : Type} [DecidableEq α] {m : List (α × β)} {a : α} {b : β}
    {q : α × β} (hq : q ∈ m) (hne : q.1 ≠ a) : q ∈ fput m a b := by
  induction m with
  | nil => simp at hq
  | cons hd t ih =>
    obtain ⟨a', b'⟩ := hd
    rcases List.mem_cons.mp hq with h | h
    · subst h
      have h' : a' ≠ a := hne
      rw [fput_cons_ne _ _ _ h']
      exact List.mem_cons_self _ _
    · by_cases h' : a' = a
      · subst h'
        rw [fput_cons_self]
        exact List.mem_cons_of_mem _ h
      · rw [fput_cons_ne _ _ _ h']
        exact List.mem_cons_of_mem _ (ih h)

theorem mem_fput_self {α β : Type} [DecidableEq α] (m : List (α × β)) (a : α) (b : β) :
    (a, b) ∈ fput m a b := by
  induction m with
  | nil => simp [fput]
  | cons hd t ih =>
    obtain ⟨a', b'⟩ := hd
    by_cases h' : a' = a
    · subst h'
      simp [fput]
    · rw [fput_cons_ne _ _ _ h']
      exact List.mem_cons_of_mem _ ih

theorem mem_fdel {α β : Type} [DecidableEq α] {m : List (α × β)} {a : α} {q : α × β} :
    q ∈ fdel m a ↔ q ∈ m ∧ q.1 ≠ a := by
  induction m with
  | nil => simp [fdel]
  | cons hd t ih =>
    obtain ⟨a', b'⟩ := hd
    by_cases h' : a' = a
    · subst h'
      rw [fdel_cons_self, ih, List.mem_cons]
      constructor
      · rintro ⟨hq, hne⟩
        exact ⟨Or.inr hq, hne⟩
      · rintro ⟨hq | hq, hne⟩
        · exact absurd (congrArg Prod.fst hq) hne
        · exact ⟨hq, hne⟩
    · rw [fdel_cons_ne _ _ h', List.mem_cons, ih, List.mem_cons]
      constructor
      · rintro (hq | ⟨hq, hne⟩)
        · subst hq
          exact ⟨Or.inl rfl, h'⟩
        · exact ⟨Or.inr hq, hne⟩
      · rintro ⟨hq | hq, hne⟩
        · exact Or.inl hq
        · exact Or.inr ⟨hq, hne⟩

theorem nodup_fput {α β : Type} [DecidableEq α] {m : List (α × β)} (a : α) (b : β)
    (hn : (m.map Prod.fst).Nodup) : ((fput m a b).map Prod.fst).Nodup := by
  induction m with
  | nil => simp [fput]
  | cons hd t ih =>
    obtain ⟨a', b'⟩ := hd
    simp only [List.map_cons, List.nodup_cons] at hn
    by_cases h' : a' = a
    · subst h'
      rw [fput_cons_self, List.map_cons, List.nodup_cons]
      exact hn
    · rw [fput_cons_ne _ _ _ h', List.map_cons, List.nodup_cons]
      refine ⟨?_, ih hn.2⟩
      intro hc
      rcases List.mem_map.mp hc with ⟨q, hq, hq1⟩
      rcases mem_fput_elim hq with h | h
      · subst h
        exact h' hq1.symm
      · exact hn.1 (List.mem_map.mpr ⟨q, h, hq1⟩)

theorem nodup_fdel {α β : Type} [DecidableEq α] {m : List (α × β)} (a : α)
    (hn : (m.map Prod.fst).Nodup) : ((fdel m a).map Prod.fst).Nodup := by
  induction m with
  | nil => simp [fdel]
  | cons hd t ih =>
    obtain ⟨a', b'⟩ := hd
    simp only [List.map_cons, List.nodup_cons] at hn
    by_cases h' : a' = a
    · subst h'
      rw [fdel_cons_self]
      exact ih hn.2
    · rw [fdel_cons_ne _ _ h', List.map_cons, List.nodup_cons]
      refine ⟨?_, ih hn.2⟩
      intro hc
      rcases List.mem_map.mp hc with ⟨q, hq, hq1⟩
      exact hn.1 (List.mem_map.mpr ⟨q, (mem_fdel.mp hq).1, hq1⟩)

theorem ffind_eq_none_iff {α β : Type} [DecidableEq α] {m : List (α × β)} {a : α} :
    ffind m a = none ↔ a ∉ m.map Prod.fst := by
  induction m with
  | nil => simp [ffind]
  | cons hd t ih =>
    obtain ⟨a', b'⟩ := hd
    by_cases h' : a' = a
    · subst h'
      rw [ffind_cons_self]
      simp
    · rw [ffind_cons_ne _ _ h', ih]
      have hne : ¬ a = a' := fun hc => h' hc.symm
      simp only [List.map_cons, List.mem_cons, not_or]
      exact ⟨fun hn => ⟨hne, hn⟩, fun hn => hn.2⟩

theorem fput_eq_of_ffind {α β : Type} [DecidableEq α] {m : List (α × β)} {a : α} {b : β}
    (h : ffind m a = some b) : fput m a b = m := by
  induction m with
  | nil => simp [ffind] at h
  | cons hd t ih =>
    obtain ⟨a', b'⟩ := hd
    by_cases h' : a' = a
    · subst h'
      rw [ffind_cons_self] at h
      cases h
      rw [fput_cons_self]
    · rw [ffind_cons_ne _ _ h'] at h
      rw [fput_cons_ne _ _ _ h', ih h]

theorem fput_append_of_not_mem {α β : Type} [DecidableEq α] {m : List (α × β)} {a : α}
    (b : β) (h : a ∉ m.map Prod.fst) : fput m a b = m ++ [(a, b)] := by
  induction m with
  | nil => simp [fput]
  | cons hd t ih =>
    obtain ⟨a', b'⟩ := hd
    simp only [List.map_cons, List.mem_cons, not_or] at h
    have h' : a' ≠ a := fun hc => h.1 hc.symm
    rw [fput_cons_ne _ _ _ h', ih h.2, List.cons_append]

theorem testBit_one_shiftLeft (c j : Nat) :
    (1 <<< c).testBit j = decide (c = j) := by
  rw [Nat.shiftLeft_eq, one_mul]
  rcases eq_or_ne c j with h | h
  · simp [h, Nat.testBit_two_pow_self]
  · simp [Nat.testBit_two_pow_of_ne h, h]

theorem foldl_pres {α σ γ : Type} (proj : σ → γ) (step : σ → α → σ)
    (h : ∀ s a, proj (step s a) = proj s) (l : List α) (s : σ) :
    proj (l.foldl step s) = proj s := by
  induction l generalizing s with
  | nil => rfl
  | cons x t ih => rw [List.foldl_cons, ih, h]

theorem updateOne_globalVersion (cid : Fin 64) (m : FSet) (f : File) :
    (updateOne cid m f).globalVersion = m.globalVersion := by
  unfold updateOne
  dsimp only
  split
  · rfl
  · split
    · split
      · rfl
      · split
        · rfl
        · rfl
    · split
      · rfl
      · rfl

theorem updateOne_changes (cid : Fin 64) (m : FSet) (f : File) :
    (updateOne cid m f).changes = m.changes := by
  unfold updateOne
  dsimp only
  split
  · rfl
  · split
    · split
      · rfl
      · split
        · rfl
        · rfl
    · split
      · rfl
      · rfl

theorem updateOne_remoteKey_ne (cid j : Fin 64) (h : j ≠ cid) (m : FSet) (f : File) :
    (updateOne cid m f).remoteKey j = m.remoteKey j := by
  unfold updateOne
  dsimp only
  split
  · rfl
  · have hu : Function.update m.remoteKey cid
        (some (fput ((m.remoteKey cid).getD []) f.name (keyFor f))) j = m.remoteKey j :=
      Function.update_noteq h _ _
    split
    · split
      · exact hu
      · split
        · exact hu
        · exact hu
    · split
      · exact hu
      · exact hu

theorem recomputeName_globalVersion (m : FSet) (n : String) :
    (recomputeName m n).globalVersion = m.globalVersion := by
  unfold recomputeName
  dsimp only
  split
  · rfl
  · rfl

theorem recomputeName_changes (m : FSet) (n : String) :
    (recomputeName m n).changes = m.changes := by
  unfold recomputeName
  dsimp only
  split
  · rfl
  · rfl

theorem recomputeName_remoteKey (m : FSet) (n : String) :
    (recomputeName m n).remoteKey = m.remoteKey := by
  unfold recomputeName
  dsimp only
  split
  · rfl
  · rfl

theorem replaceInternal_globalVersion (cid : Fin 64) (m : FSet) (fs : List File) :
    (replaceInternal cid m fs).globalVersion = m.globalVersion := by
  unfold replaceInternal replacePrep
  dsimp only
  refine (foldl_pres (fun s => s.globalVersion) (updateOne cid)
    (updateOne_globalVersion cid) fs _).trans ?_
  exact foldl_pres (fun s => s.globalVersion) recomputeName recomputeName_globalVersion _ _

theorem replaceInternal_changes (cid : Fin 64) (m : FSet) (fs : List File) :
    (replaceInternal cid m fs).changes = m.changes := by
  unfold replaceInternal replacePrep
  dsimp only
  refine (foldl_pres (fun s => s.changes) (updateOne cid)
    (updateOne_changes cid) fs _).trans ?_
  exact foldl_pres (fun s => s.changes) recomputeName recomputeName_changes _ _

theorem replaceInternal_remoteKey_ne (cid j : Fin 64) (h : j ≠ cid) (m : FSet)
    (fs : List File) : (replaceInternal cid m fs).remoteKey j = m.remoteKey j := by
  have h2 : ∀ (s : FSet) (n : String), (recomputeName s n).remoteKey j = s.remoteKey j := by
    intro s n
    rw [recomputeName_remoteKey]
  unfold replaceInternal replacePrep
  dsimp only
  refine (foldl_pres (fun s => s.remoteKey j) (updateOne cid)
    (updateOne_remoteKey_ne cid j h) fs _).trans ?_
  refine (foldl_pres (fun s => s.remoteKey j) recomputeName h2 _ _).trans ?_
  exact Function.update_noteq h _ _

theorem refCount_point (m m' : FSet) (k : Key) (cid : Fin 64)
    (h : ∀ i : Fin 64, i ≠ cid → heldBy m' i k.name = heldBy m i k.name) :
    refCount m' k + (if refsAt m cid k then 1 else 0)
      = refCount m k + (if refsAt m' cid k then 1 else 0) := by
  unfold refCount
  rw [← Finset.sum_erase_add Finset.univ _ (Finset.mem_univ cid),
      ← Finset.sum_erase_add Finset.univ
        (fun i => if refsAt m i k then 1 else 0) (Finset.mem_univ cid)]
  have hcongr : (∑ i ∈ Finset.univ.erase cid, if refsAt m' i k then 1 else 0)
      = ∑ i ∈ Finset.univ.erase cid, if refsAt m i k then 1 else 0 := by
    refine Finset.sum_congr rfl ?_
    intro i hi
    have hne : i ≠ cid := (Finset.mem_erase.mp hi).1
    unfold refsAt
    simp only [h i hne]
  rw [hcongr]
  omega

theorem refCount_congr (m m' : FSet) (k : Key)
    (h : ∀ i : Fin 64, heldBy m' i k.name = heldBy m i k.name) :
    refCount m' k = refCount m k := by
  unfold refCount
  refine Finset.sum_congr rfl ?_
  intro i _
  unfold refsAt
  simp only [h i]

theorem decrementOne_find_ne (acc : List (Key × FileRecord)) (p : String × Key) (k : Key)
    (h : p.2 ≠ k) : ffind (decrementOne acc p) k = ffind acc k := by
  unfold decrementOne
  rcases hf : ffind acc p.2 with _ | br
  · rfl
  · dsimp only
    by_cases h1 : br.usage = 1
    · rw [if_pos h1, ffind_fdel, if_neg h]
    · rw [if_neg h1]
      by_cases h2 : 1 < br.usage
      · rw [if_pos h2, ffind_fput, if_neg h]
      · rw [if_neg h2]

theorem decrementOne_find_self (acc : List (Key × FileRecord)) (p : String × Key) :
    ffind (decrementOne acc p) p.2 = decStep acc p.2 := by
  unfold decrementOne decStep
  rcases hf : ffind acc p.2 with _ | br
  · rw [hf]
  · dsimp only
    by_cases h1 : br.usage = 1
    · rw [if_pos h1, if_pos h1, ffind_fdel, if_pos rfl]
    · rw [if_neg h1, if_neg h1]
      by_cases h2 : 1 < br.usage
      · rw [if_pos h2, if_pos h2, ffind_fput, if_pos rfl]
      · rw [if_neg h2, if_neg h2, hf]

theorem mem_decrementOne {acc : List (Key × FileRecord)} {p : String × Key}
    {q : Key × FileRecord} (h : q ∈ decrementOne acc p) :
    ∃ q0 ∈ acc, q.1 = q0.1 ∧ q.2.file = q0.2.file ∧ q.2.global = q0.2.global := by
  unfold decrementOne at h
  rcases hf : ffind acc p.2 with _ | br
  · rw [hf] at h
    exact ⟨q, h, rfl, rfl, rfl⟩
  · rw [hf] at h
    dsimp only at h
    by_cases h1 : br.usage = 1
    · rw [if_pos h1] at h
      exact ⟨q, (mem_fdel.mp h).1, rfl, rfl, rfl⟩
    · rw [if_neg h1] at h
      by_cases h2 : 1 < br.usage
      · rw [if_pos h2] at h
        rcases mem_fput_elim h with h | h
        · subst h
          exact ⟨(p.2, br), ffind_mem hf, rfl, rfl, rfl⟩
        · exact ⟨q, h, rfl, rfl, rfl⟩
      · rw [if_neg h2] at h
        exact ⟨q, h, rfl, rfl, rfl⟩

theorem nodup_decrementOne {acc : List (Key × FileRecord)} (p : String × Key)
    (hn : (acc.map Prod.fst).Nodup) : ((decrementOne acc p).map Prod.fst).Nodup := by
  unfold decrementOne
  rcases hf : ffind acc p.2 with _ | br
  · exact hn
  · dsimp only
    by_cases h1 : br.usage = 1
    · rw [if_pos h1]
      exact nodup_fdel _ hn
    · rw [if_neg h1]
      by_cases h2 : 1 < br.usage
      · rw [if_pos h2]
        exact nodup_fput _ _ hn
      · rw [if_neg h2]
        exact hn

theorem decStep_congr {files files' : List (Key × FileRecord)} {k : Key}
    (h : ffind files' k = ffind files k) : decStep files' k = decStep files k := by
  unfold decStep
  rw [h]

theorem decrementUsage_find (rem : List (String × Key)) :
    ∀ (files : List (Key × FileRecord)), (rem.map Prod.fst).Nodup →
      (∀ p ∈ rem, p.2.name = p.1) → ∀ k : Key,
      ffind (decrementUsage files rem) k =
        if ffind rem k.name = some k then decStep files k else ffind files k := by
  induction rem with
  | nil =>
    intro files _ _ k
    simp [decrementUsage, ffind]
  | cons hd t ih =>
    intro files hnd hen k
    obtain ⟨n1, k1⟩ := hd
    have hk1 : k1.name = n1 := hen (n1, k1) (List.mem_cons_self _ _)
    simp only [List.map_cons, List.nodup_cons] at hnd
    have step : decrementUsage files ((n1, k1) :: t)
        = decrementUsage (decrementOne files (n1, k1)) t := rfl
    rw [step]
    have ihk := ih (decrementOne files (n1, k1)) hnd.2
      (fun p hp => hen p (List.mem_cons_of_mem _ hp)) k
    by_cases hname : k.name = n1
    · have hfr : ffind ((n1, k1) :: t) k.name = some k1 := by
        rw [hname]
        exact ffind_cons_self _ _ _
      have htail : ffind t k.name = none := by
        rw [ffind_eq_none_iff, hname]
        exact hnd.1
      rw [ihk, htail, hfr]
      by_cases hkk : k1 = k
      · subst hkk
        rw [if_neg (fun hc : (none : Option Key) = some k1 => Option.noConfusion hc),
            if_pos rfl]
        exact decrementOne_find_self files (n1, k1)
      · rw [if_neg (fun hc : (none : Option Key) = some k => Option.noConfusion hc),
            if_neg (fun hc : some k1 = some k => hkk (Option.some.inj hc))]
        exact decrementOne_find_ne files (n1, k1) k hkk
    · have hk1k : k1 ≠ k := by
        intro hc
        apply hname
        rw [← hc]
        exact hk1
      have hfr2 : ffind ((n1, k1) :: t) k.name = ffind t k.name :=
        ffind_cons_ne _ _ (fun hc => hname hc.symm)
      rw [ihk, hfr2]
      by_cases hc2 : ffind t k.name = some k
      · rw [if_pos hc2, if_pos hc2]
        exact decStep_congr (decrementOne_find_ne files (n1, k1) k hk1k)
      · rw [if_neg hc2, if_neg hc2]
        exact decrementOne_find_ne files (n1, k1) k hk1k

theorem mem_decrementUsage {rem : List (String × Key)} :
    ∀ {files : List (Key × FileRecord)} {q : Key × FileRecord},
      q ∈ decrementUsage files rem →
      ∃ q0 ∈ files, q.1 = q0.1 ∧ q.2.file = q0.2.file ∧ q.2.global = q0.2.global := by
  induction rem with
  | nil => exact fun h => ⟨_, h, rfl, rfl, rfl⟩
  | cons hd t ih =>
    intro files q h
    have step : decrementUsage files (hd :: t)
        = decrementUsage (decrementOne files hd) t := rfl
    rw [step] at h
    rcases ih h with ⟨q1, hq1, he1, he2, he3⟩
    rcases mem_decrementOne hq1 with ⟨q0, hq0, hf1, hf2, hf3⟩
    exact ⟨q0, hq0, he1.trans hf1, he2.trans hf2, he3.trans hf3⟩

theorem nodup_decrementUsage {rem : List (String × Key)} :
    ∀ {files : List (Key × FileRecord)}, (files.map Prod.fst).Nodup →
      ((decrementUsage files rem).map Prod.fst).Nodup := by
  induction rem with
  | nil => exact fun h => h
  | cons hd t ih =>
    intro files h
    have step : decrementUsage files (hd :: t)
        = decrementUsage (decrementOne files hd) t := rfl
    rw [step]
    exact ih (nodup_decrementOne hd h)

theorem newerThan_iff (a b : Key) : a.newerThan b = true ↔ b.version < a.version := by
  simp [Key.newerThan]

theorem testBit_one_shiftLeft_fin (i i' : Fin 64) :
    ((1 <<< (i : Nat)).testBit (i' : Nat) = true) ↔ i' = i := by
  rw [testBit_one_shiftLeft]
  simp [Fin.ext_iff, eq_comm]

theorem newestStep_eq (m : FSet) (n : String) (p : Key × Nat) (i : Fin 64) :
    newestStep m n p i =
      match heldBy m i n with
      | some rk =>
        if rk = p.1 then (p.1, p.2 ||| (1 <<< (i : Nat)))
        else if rk.newerThan p.1 then (rk, 1 <<< (i : Nat))
        else p
      | none => p := by
  unfold newestStep heldBy
  rcases m.remoteKey i with _ | rem
  · rfl
  · rfl

theorem newestStep_good (m : FSet) (n : String) (seen : List (Fin 64)) (p : Key × Nat)
    (i : Fin 64)
    (hen : ∀ j : Fin 64, ∀ q ∈ (m.remoteKey j).getD [], q.2.name = q.1 ∧ 1 ≤ q.2.version)
    (hp : newestGood m n seen p) :
    newestGood m n (seen ++ [i]) (newestStep m n p i) := by
  have hmem : ∀ (i' : Fin 64), i' ∈ seen ++ [i] ↔ (i' ∈ seen ∨ i' = i) := by
    intro i'
    simp [List.mem_append]
  obtain ⟨p1, p2⟩ := p
  rw [newestStep_eq]
  rcases hheld : heldBy m i n with _ | rk
  · -- peer i has no entry for n: accumulator unchanged
    dsimp only
    rcases hp with ⟨h1, h2, h3⟩ | ⟨h1, h2, ⟨i0, hi0, hh0⟩, h4, h5⟩
    · refine Or.inl ⟨h1, h2, ?_⟩
      intro i' hi'
      rcases (hmem i').mp hi' with h | h
      · exact h3 i' h
      · exact h ▸ hheld
    · refine Or.inr ⟨h1, h2, ⟨i0, (hmem i0).mpr (Or.inl hi0), hh0⟩, ?_, ?_⟩
      · intro i' hi'
        rcases (hmem i').mp hi' with h | h
        · exact h4 i' h
        · subst h
          rw [hheld]
          exact Nat.zero_le _
      · intro i'
        rw [h5 i']
        constructor
        · rintro ⟨hs, hh⟩
          exact ⟨(hmem i').mpr (Or.inl hs), hh⟩
        · rintro ⟨hs, hh⟩
          rcases (hmem i').mp hs with h | h
          · exact ⟨h, hh⟩
          · subst h
            rw [hheld] at hh
            exact absurd hh (fun hc => Option.noConfusion hc)
  · -- peer i holds rk for n
    have hrkmem : (n, rk) ∈ (m.remoteKey i).getD [] := ffind_mem hheld
    have hrk := hen i (n, rk) hrkmem
    have hrkname : rk.name = n := hrk.1
    have hrkver : 1 ≤ rk.version := hrk.2
    dsimp only
    rcases hp with ⟨h1, h2, h3⟩ | ⟨h1, h2, ⟨i0, hi0, hh0⟩, h4, h5⟩
    · -- nothing seen yet: rk wins
      subst h1 h2
      have hne : rk ≠ zeroKey := by
        intro hc
        rw [hc] at hrkver
        exact absurd hrkver (by simp [zeroKey])
      rw [if_neg hne, if_pos ((newerThan_iff rk zeroKey).mpr hrkver)]
      refine Or.inr ⟨hrkname, hrkver, ⟨i, (hmem i).mpr (Or.inr rfl), hheld⟩, ?_, ?_⟩
      · intro i' hi'
        rcases (hmem i').mp hi' with h | h
        · rw [h3 i' h]
          exact Nat.zero_le _
        · subst h
          rw [hheld]
          exact Nat.le_refl _
      · intro i'
        rw [testBit_one_shiftLeft_fin]
        constructor
        · intro h
          subst h
          exact ⟨(hmem i').mpr (Or.inr rfl), hheld⟩
        · rintro ⟨hs, hh⟩
          rcases (hmem i').mp hs with h | h
          · rw [h3 i' h] at hh
            exact absurd hh (fun hc => Option.noConfusion hc)
          · exact h
    · -- a newest candidate p1 exists among seen
      by_cases hr : rk = p1
      · rw [if_pos hr]
        refine Or.inr ⟨h1, h2, ⟨i0, (hmem i0).mpr (Or.inl hi0), hh0⟩, ?_, ?_⟩
        · intro i' hi'
          rcases (hmem i').mp hi' with h | h
          · exact h4 i' h
          · subst h
            rw [hheld, hr]
            exact Nat.le_refl _
        · intro i'
          rw [Nat.testBit_lor, Bool.or_eq_true, h5 i', testBit_one_shiftLeft_fin]
          constructor
          · rintro (⟨hs, hh⟩ | heq)
            · exact ⟨(hmem i').mpr (Or.inl hs), hh⟩
            · subst heq
              exact ⟨(hmem i').mpr (Or.inr rfl), hr ▸ hheld⟩
          · rintro ⟨hs, hh⟩
            rcases (hmem i').mp hs with h | h
            · exact Or.inl ⟨h, hh⟩
            · exact Or.inr h
      · rw [if_neg hr]
        by_cases hnew : rk.newerThan p1 = true
        · rw [if_pos hnew]
          have hlt : p1.version < rk.version := (newerThan_iff _ _).mp hnew
          refine Or.inr ⟨hrkname, hrkver, ⟨i, (hmem i).mpr (Or.inr rfl), hheld⟩, ?_, ?_⟩
          · intro i' hi'
            rcases (hmem i').mp hi' with h | h
            · exact Nat.le_trans (h4 i' h) (Nat.le_of_lt hlt)
            · subst h
              rw [hheld]
              exact Nat.le_refl _
          · intro i'
            rw [testBit_one_shiftLeft_fin]
            constructor
            · intro h
              subst h
              exact ⟨(hmem i').mpr (Or.inr rfl), hheld⟩
            · rintro ⟨hs, hh⟩
              rcases (hmem i').mp hs with h | h
              · have := h4 i' h
                rw [hh] at this
                simp only [Option.getD_some] at this
                exact absurd hlt (by omega)
              · exact h
        · rw [if_neg hnew]
          have hle : rk.version ≤ p1.version := by
            have := (newerThan_iff rk p1).not.mp (by simpa using hnew)
            omega
          refine Or.inr ⟨h1, h2, ⟨i0, (hmem i0).mpr (Or.inl hi0), hh0⟩, ?_, ?_⟩
          · intro i' hi'
            rcases (hmem i').mp hi' with h | h
            · exact h4 i' h
            · subst h
              rw [hheld]
              exact hle
          · intro i'
            rw [h5 i']
            constructor
            · rintro ⟨hs, hh⟩
              exact ⟨(hmem i').mpr (Or.inl hs), hh⟩
            · rintro ⟨hs, hh⟩
              rcases (hmem i').mp hs with h | h
              · exact ⟨h, hh⟩
              · subst h
                rw [hheld] at hh
                exact absurd (Option.some.inj hh) hr

theorem fold_newest (m : FSet) (n : String)
    (hen : ∀ j : Fin 64, ∀ q ∈ (m.remoteKey j).getD [], q.2.name = q.1 ∧ 1 ≤ q.2.version) :
    ∀ (l seen : List (Fin 64)) (p : Key × Nat), newestGood m n seen p →
      newestGood m n (seen ++ l) (l.foldl (newestStep m n) p) := by
  intro l
  induction l with
  | nil =>
    intro seen p hp
    simpa using hp
  | cons i t ih =>
    intro seen p hp
    have h1 : seen ++ i :: t = (seen ++ [i]) ++ t := by
      simp
    rw [h1, List.foldl_cons]
    exact ih (seen ++ [i]) (newestStep m n p i) (newestStep_good m n seen p i hen hp)

theorem newestFor_good (m : FSet) (n : String)
    (hen : ∀ j : Fin 64, ∀ q ∈ (m.remoteKey j).getD [], q.2.name = q.1 ∧ 1 ≤ q.2.version) :
    newestGood m n (List.finRange 64) (newestFor m n) := by
  have := fold_newest m n hen (List.finRange 64) [] (zeroKey, 0)
    (Or.inl ⟨rfl, rfl, fun i hi => absurd hi (List.not_mem_nil i)⟩)
  simpa using this

theorem mem_fput_nodup {α β : Type} [DecidableEq α] {m : List (α × β)} {a : α} {b : β}
    {q : α × β} (hn : (m.map Prod.fst).Nodup) (h : q ∈ fput m a b) :
    q = (a, b) ∨ (q ∈ m ∧ q.1 ≠ a) := by
  by_cases hq1 : q.1 = a
  · left
    have h1 : ffind (fput m a b) q.1 = some q.2 := ffind_of_mem_nodup (nodup_fput a b hn) h
    rw [hq1, ffind_fput, if_pos rfl] at h1
    have : q.2 = b := (Option.some.inj h1).symm
    obtain ⟨x1, x2⟩ := q
    simp only at hq1 this
    rw [hq1, this]
  · rcases mem_fput_elim h with h | h
    · exact Or.inl h
    · exact Or.inr ⟨h, hq1⟩

theorem newestFor_congr {s m : FSet} (h : s.remoteKey = m.remoteKey) (n : String) :
    newestFor s n = newestFor m n := by
  unfold newestFor
  have hstep : newestStep s n = newestStep m n := by
    funext p i
    unfold newestStep
    rw [h]
  rw [hstep]

theorem recomputeName_rel (m2 : FSet)
    (hen : ∀ j : Fin 64, ∀ q ∈ (m2.remoteKey j).getD [], q.2.name = q.1 ∧ 1 ≤ q.2.version)
    (hd : ∀ j : Fin 64, ∀ q ∈ (m2.remoteKey j).getD [], (ffind m2.files q.2).isSome = true)
    (s : FSet) (done : List String) (n : String) (hrel : recomputeRel m2 s done) :
    recomputeRel m2 (recomputeName s n) (done ++ [n]) := by
  obtain ⟨hrem, hfiles, hun, hdone, hnf, hngk, hnav⟩ := hrel
  have hnewest : newestFor s n = newestFor m2 n := newestFor_congr hrem n
  unfold recomputeName
  dsimp only
  rw [hnewest]
  by_cases hna : (newestFor m2 n).2 ≠ 0
  · rw [if_pos hna]
    -- the winner is present in s.files
    have hgood := newestFor_good m2 n hen
    rcases hgood with ⟨_, h0, _⟩ | ⟨hname, hver, ⟨i0, _, hh0⟩, _, _⟩
    · exact absurd h0 hna
    · have hwmem : (n, (newestFor m2 n).1) ∈ (m2.remoteKey i0).getD [] := by
        have := ffind_mem hh0
        have he := (hen i0 _ this).1
        unfold heldBy at hh0
        exact ffind_mem hh0
      have hw2 : (ffind m2.files (newestFor m2 n).1).isSome = true := hd i0 _ hwmem
      rcases hr2 : ffind m2.files (newestFor m2 n).1 with _ | r2
      · rw [hr2] at hw2
        exact absurd hw2 (by simp)
      · rcases (hfiles (newestFor m2 n).1).2 r2 hr2 with ⟨r', hr', hrf, hru⟩
        rw [hr']
        simp only [Option.getD_some]
        refine ⟨hrem, ?_, ?_, ?_, nodup_fput _ _ hnf, nodup_fput _ _ hngk,
          nodup_fput _ _ hnav⟩
        · intro k
          constructor
          · intro hk
            have hkne : (newestFor m2 n).1 ≠ k := by
              intro hc
              rw [hc] at hr2
              rw [hr2] at hk
              exact Option.noConfusion hk
            rw [ffind_fput, if_neg hkne]
            exact (hfiles k).1 hk
          · intro r hk
            by_cases hkk : (newestFor m2 n).1 = k
            · subst hkk
              rw [hr2] at hk
              cases hk
              refine ⟨_, by rw [ffind_fput, if_pos rfl], ?_, ?_⟩
              · exact hrf
              · exact hru
            · rw [ffind_fput, if_neg hkk]
              exact (hfiles k).2 r hk
        · intro n' hn'
          have hne : n ≠ n' := by
            intro hc
            exact hn' (hc ▸ List.mem_append_right done (List.mem_singleton.mpr rfl))
          have hn'd : n' ∉ done := fun hc => hn' (List.mem_append_left _ hc)
          rw [ffind_fput, if_neg hne, ffind_fput, if_neg hne]
          exact hun n' hn'd
        · intro n' hn'
          rcases List.mem_append.mp hn' with hn'd | hn'd
          · by_cases hne : n' = n
            · subst hne
              refine Or.inl ⟨hna, ?_, ?_⟩
              · rw [ffind_fput, if_pos rfl]
              · rw [ffind_fput, if_pos rfl]
            · have hnne : n ≠ n' := fun hc => hne hc.symm
              rcases hdone n' hn'd with ⟨ha, hb, hc⟩ | ⟨ha, hb, hc⟩
              · refine Or.inl ⟨ha, ?_, ?_⟩
                · rw [ffind_fput, if_neg hnne]
                  exact hb
                · rw [ffind_fput, if_neg hnne]
                  exact hc
              · refine Or.inr ⟨ha, ?_, ?_⟩
                · rw [ffind_fput, if_neg hnne]
                  exact hb
                · rw [ffind_fput, if_neg hnne]
                  exact hc
          · have hne : n' = n := List.mem_singleton.mp hn'd
            subst hne
            refine Or.inl ⟨hna, ?_, ?_⟩
            · rw [ffind_fput, if_pos rfl]
            · rw [ffind_fput, if_pos rfl]
  · rw [if_neg hna]
    push_neg at hna
    refine ⟨hrem, hfiles, ?_, ?_, hnf, nodup_fdel _ hngk, nodup_fdel _ hnav⟩
    · intro n' hn'
      have hne : n ≠ n' := by
        intro hc
        exact hn' (hc ▸ List.mem_append_right done (List.mem_singleton.mpr rfl))
      have hn'd : n' ∉ done := fun hc => hn' (List.mem_append_left _ hc)
      rw [ffind_fdel, if_neg hne, ffind_fdel, if_neg hne]
      exact hun n' hn'd
    · intro n' hn'
      rcases List.mem_append.mp hn' with hn'd | hn'd
      · by_cases hne : n' = n
        · subst hne
          refine Or.inr ⟨hna, ?_, ?_⟩
          · rw [ffind_fdel, if_pos rfl]
          · rw [ffind_fdel, if_pos rfl]
        · have hnne : n ≠ n' := fun hc => hne hc.symm
          rcases hdone n' hn'd with ⟨ha, hb, hc⟩ | ⟨ha, hb, hc⟩
          · refine Or.inl ⟨ha, ?_, ?_⟩
            · rw [ffind_fdel, if_neg hnne]
              exact hb
            · rw [ffind_fdel, if_neg hnne]
              exact hc
          · refine Or.inr ⟨ha, ?_, ?_⟩
            · rw [ffind_fdel, if_neg hnne]
              exact hb
            · rw [ffind_fdel, if_neg hnne]
              exact hc
      · have hne : n' = n := List.mem_singleton.mp hn'd
        subst hne
        refine Or.inr ⟨hna, ?_, ?_⟩
        · rw [ffind_fdel, if_pos rfl]
        · rw [ffind_fdel, if_pos rfl]

theorem recompute_fold (m2 : FSet)
    (hen : ∀ j : Fin 64, ∀ q ∈ (m2.remoteKey j).getD [], q.2.name = q.1 ∧ 1 ≤ q.2.version)
    (hd : ∀ j : Fin 64, ∀ q ∈ (m2.remoteKey j).getD [], (ffind m2.files q.2).isSome = true) :
    ∀ (ns done : List String) (s : FSet), recomputeRel m2 s done →
      recomputeRel m2 (ns.foldl recomputeName s) (done ++ ns) := by
  intro ns
  induction ns with
  | nil =>
    intro done s h
    simpa using h
  | cons n t ih =>
    intro done s h
    have h1 : done ++ n :: t = (done ++ [n]) ++ t := by
      simp
    rw [h1, List.foldl_cons]
    exact ih (done ++ [n]) (recomputeName s n) (recomputeName_rel m2 hen hd s done n h)

theorem heldBy_congr {s m : FSet} (h : s.remoteKey = m.remoteKey) (i : Fin 64)
    (x : String) : heldBy s i x = heldBy m i x := by
  unfold heldBy
  rw [h]

theorem heldBy_of_entry {m : FSet} (hInv : Inv m) (j : Fin 64) {q : String × Key}
    (hq : q ∈ (m.remoteKey j).getD []) : heldBy m j q.2.name = some q.2 := by
  unfold heldBy
  rw [(hInv.entryName j q hq).1]
  exact ffind_of_mem_nodup (hInv.nodupRem j) hq

theorem two_le_refCount {m : FSet} {k : Key} {i j : Fin 64} (hne : j ≠ i)
    (h1 : refsAt m i k) (h2 : refsAt m j k) : 2 ≤ refCount m k := by
  unfold refCount
  have hsub : ({j, i} : Finset (Fin 64)) ⊆ Finset.univ := Finset.subset_univ _
  have hle : (∑ i' ∈ ({j, i} : Finset (Fin 64)), if refsAt m i' k then 1 else 0)
      ≤ ∑ i' ∈ Finset.univ, if refsAt m i' k then 1 else 0 :=
    Finset.sum_le_sum_of_subset hsub
  refine le_trans ?_ hle
  rw [Finset.sum_insert (by simp [hne]), Finset.sum_singleton, if_pos h1, if_pos h2]

theorem replacePrep_eq (cid : Fin 64) (m : FSet) :
    replacePrep cid m
      = (m.globalKey.map Prod.fst).foldl recomputeName (clearedState cid m) := rfl

theorem heldBy_cleared_ne {cid : Fin 64} {m : FSet} {i : Fin 64} (h : i ≠ cid)
    (x : String) : heldBy (clearedState cid m) i x = heldBy m i x := by
  unfold heldBy clearedState
  dsimp only
  rw [Function.update_noteq h]

theorem heldBy_cleared_self (cid : Fin 64) (m : FSet) (x : String) :
    heldBy (clearedState cid m) cid x = none := by
  unfold heldBy clearedState
  dsimp only
  rw [Function.update_same]
  rfl

theorem refCount_cleared (cid : Fin 64) (m : FSet) (k : Key) :
    refCount (clearedState cid m) k + (if refsAt m cid k then 1 else 0) = refCount m k := by
  have h := refCount_point m (clearedState cid m) k cid
    (fun i hi => heldBy_cleared_ne hi k.name)
  have h2 : ¬ refsAt (clearedState cid m) cid k := by
    unfold refsAt
    rw [heldBy_cleared_self]
    exact fun hc => Option.noConfusion hc
  rw [if_neg h2] at h
  omega

theorem one_le_refCount {m : FSet} {k : Key} {i : Fin 64} (h : refsAt m i k) :
    1 ≤ refCount m k := by
  unfold refCount
  have hle : (∑ i' ∈ ({i} : Finset (Fin 64)), if refsAt m i' k then 1 else 0)
      ≤ ∑ i' ∈ Finset.univ, if refsAt m i' k then 1 else 0 :=
    Finset.sum_le_sum_of_subset (Finset.subset_univ {i})
  refine le_trans ?_ hle
  rw [Finset.sum_singleton, if_pos h]

theorem cleared_find (cid : Fin 64) (m : FSet) (hInv : Inv m) (k : Key) :
    ffind (clearedState cid m).files k =
      if ffind ((m.remoteKey cid).getD []) k.name = some k then decStep m.files k
      else ffind m.files k :=
  decrementUsage_find _ m.files (hInv.nodupRem cid)
    (fun p hp => (hInv.entryName cid p hp).1) k

theorem refsAt_iff_find (m : FSet) (cid : Fin 64) (k : Key) :
    refsAt m cid k ↔ ffind ((m.remoteKey cid).getD []) k.name = some k := Iff.rfl

theorem replacePrep_inv (cid : Fin 64) (m : FSet) (hInv : Inv m) :
    Inv (replacePrep cid m) ∧
    (replacePrep cid m).remoteKey cid = some [] ∧
    (∀ k r, ffind (replacePrep cid m).files k = some r →
        ∃ r0, ffind m.files k = some r0 ∧ r.file = r0.file) := by
  have hen₂ : ∀ j : Fin 64, ∀ q ∈ ((clearedState cid m).remoteKey j).getD [],
      q.2.name = q.1 ∧ 1 ≤ q.2.version := by
    intro j q hq
    by_cases hj : j = cid
    · subst hj
      unfold clearedState at hq
      dsimp only at hq
      rw [Function.update_same] at hq
      simp at hq
    · unfold clearedState at hq
      dsimp only at hq
      rw [Function.update_noteq hj] at hq
      exact hInv.entryName j q hq
  -- every record surviving step 1 keeps its file, its key discipline,
  -- and carries the usage expected in the cleared state
  have hrec₂ : ∀ (k : Key) (r : FileRecord), ffind (clearedState cid m).files k = some r →
      keyFor r.file = k ∧ 1 ≤ k.version ∧
      ∃ r0, ffind m.files k = some r0 ∧ r.file = r0.file := by
    intro k r hk
    have hmem := ffind_mem hk
    rcases mem_decrementUsage hmem with ⟨q0, hq0, he1, he2, _⟩
    have hrk := hInv.recKey q0 hq0
    have hff : ffind m.files q0.1 = some q0.2 := ffind_of_mem_nodup hInv.nodupFiles hq0
    dsimp only at he1 he2
    subst he1
    refine ⟨?_, hrk.2, q0.2, hff, he2⟩
    rw [he2]
    exact hrk.1
  have husage₂ : ∀ (k : Key) (r : FileRecord),
      ffind (clearedState cid m).files k = some r →
      r.usage = refCount (clearedState cid m) k := by
    intro k r hk
    rw [cleared_find cid m hInv] at hk
    have hclr := refCount_cleared cid m k
    by_cases hc : ffind ((m.remoteKey cid).getD []) k.name = some k
    · rw [if_pos hc] at hk
      have hrefs : refsAt m cid k := (refsAt_iff_find m cid k).mpr hc
      rw [if_pos hrefs] at hclr
      unfold decStep at hk
      rcases hm : ffind m.files k with _ | br
      · rw [hm] at hk
        exact Option.noConfusion hk
      · rw [hm] at hk
        dsimp only at hk
        have hbru : br.usage = refCount m k := hInv.usageEq (k, br) (ffind_mem hm)
        have h1le : 1 ≤ refCount m k := one_le_refCount hrefs
        by_cases hu1 : br.usage = 1
        · rw [if_pos hu1] at hk
          exact Option.noConfusion hk
        · rw [if_neg hu1] at hk
          have hlt : 1 < br.usage := by omega
          rw [if_pos hlt] at hk
          cases hk
          dsimp only
          omega
    · rw [if_neg hc] at hk
      have hrefs : ¬ refsAt m cid k := fun hr => hc ((refsAt_iff_find m cid k).mp hr)
      rw [if_neg hrefs] at hclr
      have hbru : r.usage = refCount m k := hInv.usageEq (k, r) (ffind_mem hk)
      omega
  have hd₂ : ∀ j : Fin 64, ∀ q ∈ ((clearedState cid m).remoteKey j).getD [],
      (ffind (clearedState cid m).files q.2).isSome = true := by
    intro j q hq
    by_cases hj : j = cid
    · subst hj
      unfold clearedState at hq
      dsimp only at hq
      rw [Function.update_same] at hq
      simp at hq
    · have hq' : q ∈ (m.remoteKey j).getD [] := by
        unfold clearedState at hq
        dsimp only at hq
        rwa [Function.update_noteq hj] at hq
      rw [cleared_find cid m hInv]
      by_cases hc : ffind ((m.remoteKey cid).getD []) q.2.name = some q.2
      · rw [if_pos hc]
        have hrefsc : refsAt m cid q.2 := (refsAt_iff_find m cid q.2).mpr hc
        have hrefsj : refsAt m j q.2 := heldBy_of_entry hInv j hq'
        have h2 : 2 ≤ refCount m q.2 := two_le_refCount hj hrefsc hrefsj
        rcases hm : ffind m.files q.2 with _ | br
        · have := hInv.noDangling j q hq'
          rw [hm] at this
          simp at this
        · have hbru : br.usage = refCount m q.2 := hInv.usageEq (q.2, br) (ffind_mem hm)
          unfold decStep
          rw [hm]
          dsimp only
          rw [if_neg (by omega), if_pos (by omega)]
          rfl
      · rw [if_neg hc]
        exact hInv.noDangling j q hq'
  have hnf₂ : ((clearedState cid m).files.map Prod.fst).Nodup :=
    nodup_decrementUsage hInv.nodupFiles
  -- run the recompute phase
  have hbase : recomputeRel (clearedState cid m) (clearedState cid m) [] := by
    refine ⟨rfl, ?_, ?_, ?_, hnf₂, hInv.nodupGK, hInv.nodupAv⟩
    · intro k
      exact ⟨fun h => h, fun r h => ⟨r, h, rfl, rfl⟩⟩
    · intro n _
      exact ⟨rfl, rfl⟩
    · intro n hn
      simp at hn
  have hrel := recompute_fold (clearedState cid m) hen₂ hd₂
    (m.globalKey.map Prod.fst) [] (clearedState cid m) hbase
  rw [List.nil_append] at hrel
  rw [replacePrep_eq]
  set m3 := (m.globalKey.map Prod.fst).foldl recomputeName (clearedState cid m) with hm3
  obtain ⟨hrem3, hfiles3, hun3, hdone3, hnf3, hngk3, hnav3⟩ := hrel
  have hrem3' : m3.remoteKey = Function.update m.remoteKey cid (some []) := hrem3
  have hheld3 : ∀ (i : Fin 64) (x : String), heldBy m3 i x = heldBy (clearedState cid m) i x :=
    fun i x => heldBy_congr hrem3 i x
  have hrefC3 : ∀ k, refCount m3 k = refCount (clearedState cid m) k :=
    fun k => refCount_congr (clearedState cid m) m3 k (fun i => hheld3 i k.name)
  -- every record of m3 corresponds to a record of the cleared state
  have hback : ∀ (k : Key) (r : FileRecord), ffind m3.files k = some r →
      ∃ r2, ffind (clearedState cid m).files k = some r2 ∧ r.file = r2.file ∧
        r.usage = r2.usage := by
    intro k r hk
    rcases h2 : ffind (clearedState cid m).files k with _ | r2
    · have := (hfiles3 k).1 h2
      rw [this] at hk
      exact Option.noConfusion hk
    · rcases (hfiles3 k).2 r2 h2 with ⟨r', hr', hf, hu⟩
      rw [hk] at hr'
      cases hr'
      exact ⟨r2, rfl, hf, hu⟩
  -- a global entry of m3 must carry a processed name
  have hnot : ∀ p ∈ m3.globalKey, p.1 ∈ m.globalKey.map Prod.fst := by
    intro p hp
    by_contra hcon
    have h1 : ffind m3.globalKey p.1 = some p.2 := ffind_of_mem_nodup hngk3 hp
    have h2 := (hun3 p.1 hcon).1
    rw [h1] at h2
    have h3 : ffind m.globalKey p.1 = some p.2 := h2.symm
    exact hcon (List.mem_map.mpr ⟨(p.1, p.2), ffind_mem h3, rfl⟩)
  -- the winner of a held name is established: na ≠ 0
  have hna_ne : ∀ (n : String) (i : Fin 64) (k : Key),
      heldBy (clearedState cid m) i n = some k → (newestFor (clearedState cid m) n).2 ≠ 0 := by
    intro n i k hh
    rcases newestFor_good (clearedState cid m) n hen₂ with ⟨_, _, h3⟩ | ⟨_, _, _, _, h5⟩
    · rw [h3 i (List.mem_finRange i)] at hh
      exact absurd hh (fun hc => Option.noConfusion hc)
    · intro hc
      have hk : k = (newestFor (clearedState cid m) n).1 := by
        by_contra hkne
        have hb := (h5 i).mpr
        -- k is held; if it is not the winner this bit is just absent
        -- we only need some holder to force a bit; use the winner itself
        exact hkne (by
          rcases newestFor_good (clearedState cid m) n hen₂ with ⟨_, h0, h3⟩ | hg
          · rw [h3 i (List.mem_finRange i)] at hh
            exact absurd hh (fun hx => Option.noConfusion hx)
          · rcases hg.2.2.1 with ⟨i0, _, hh0⟩
            have := (h5 i0).mpr ⟨List.mem_finRange i0, hh0⟩
            rw [hc] at this
            rw [Nat.zero_testBit] at this
            exact absurd this (by simp))
      have := (h5 i).mpr ⟨List.mem_finRange i, by rw [← hk]; exact hh⟩
      rw [hc, Nat.zero_testBit] at this
      exact absurd this (by simp)
  refine ⟨?_, ?_, ?_⟩
  · refine ⟨?_, ?_, hnf3, hngk3, hnav3, ?_, ?_, ?_, ?_, ?_⟩
    · -- nodupRem
      intro i
      rw [hrem3']
      by_cases hi : i = cid
      · subst hi
        rw [Function.update_same]
        simp
      · rw [Function.update_noteq hi]
        exact hInv.nodupRem i
    · -- entryName
      intro i q hq
      rw [hrem3'] at hq
      by_cases hi : i = cid
      · subst hi
        rw [Function.update_same] at hq
        simp at hq
      · rw [Function.update_noteq hi] at hq
        exact hInv.entryName i q hq
    · -- recKey
      intro p hp
      have h1 : ffind m3.files p.1 = some p.2 := ffind_of_mem_nodup hnf3 hp
      rcases hback p.1 p.2 h1 with ⟨r2, h2, hf, _⟩
      rcases hrec₂ p.1 r2 h2 with ⟨hk, hv, _⟩
      rw [hf]
      exact ⟨hk, hv⟩
    · -- usageEq
      intro p hp
      have h1 : ffind m3.files p.1 = some p.2 := ffind_of_mem_nodup hnf3 hp
      rcases hback p.1 p.2 h1 with ⟨r2, h2, _, hu⟩
      rw [hu, husage₂ p.1 r2 h2, hrefC3]
    · -- noDangling
      intro i q hq
      rw [hrem3'] at hq
      by_cases hi : i = cid
      · subst hi
        rw [Function.update_same] at hq
        simp at hq
      · rw [Function.update_noteq hi] at hq
        have hq2 : q ∈ ((clearedState cid m).remoteKey i).getD [] := by
          unfold clearedState
          dsimp only
          rwa [Function.update_noteq hi]
        have h2 := hd₂ i q hq2
        rcases h3 : ffind (clearedState cid m).files q.2 with _ | r2
        · rw [h3] at h2
          simp at h2
        · rcases (hfiles3 q.2).2 r2 h3 with ⟨r', hr', _, _⟩
          rw [hr']
          rfl
    · -- gkComplete
      intro i q hq
      rw [hrem3'] at hq
      by_cases hi : i = cid
      · subst hi
        rw [Function.update_same] at hq
        simp at hq
      · rw [Function.update_noteq hi] at hq
        have hq2 : heldBy (clearedState cid m) i q.1 = some q.2 := by
          rw [heldBy_cleared_ne hi]
          have := heldBy_of_entry hInv i hq
          rwa [(hInv.entryName i q hq).1] at this
        have hnn : q.1 ∈ m.globalKey.map Prod.fst := by
          have h1 := hInv.gkComplete i q hq
          rcases h2 : ffind m.globalKey q.1 with _ | gk
          · rw [h2] at h1
            simp at h1
          · exact List.mem_map.mpr ⟨(q.1, gk), ffind_mem h2, rfl⟩
        rcases hdone3 q.1 hnn with ⟨_, hb, _⟩ | ⟨ha, _, _⟩
        · rw [hb]
          rfl
        · exact absurd ha (by simpa using hna_ne q.1 i q.2 hq2)
    · -- gkOK
      intro p hp
      have hnn := hnot p hp
      have h1 : ffind m3.globalKey p.1 = some p.2 := ffind_of_mem_nodup hngk3 hp
      rcases hdone3 p.1 hnn with ⟨hna, hb, hc⟩ | ⟨_, hb, _⟩
      · rw [h1] at hb
        have hp2 : p.2 = (newestFor (clearedState cid m) p.1).1 := Option.some.inj hb
        rcases newestFor_good (clearedState cid m) p.1 hen₂ with ⟨_, h0, _⟩ |
          ⟨hname, hver, ⟨i0, _, hh0⟩, h4, h5⟩
        · exact absurd h0 hna
        · refine ⟨⟨i0, ?_⟩, ?_, ?_⟩
          · rw [hheld3, hp2]
            exact hh0
          · intro i
            rw [hheld3, hp2]
            exact h4 i (List.mem_finRange i)
          · intro i
            have hav : Availability m3 p.1 = (newestFor (clearedState cid m) p.1).2 := by
              unfold Availability
              rw [hc]
              rfl
            rw [hav, hheld3, hp2]
            rw [h5 i]
            simp [List.mem_finRange]
      · rw [h1] at hb
        exact Option.noConfusion hb
  · rw [hrem3']
    exact Function.update_same _ _ _
  · intro k r hk
    rcases hback k r hk with ⟨r2, h2, hf, _⟩
    rcases hrec₂ k r2 h2 with ⟨_, _, r0, h0, hf0⟩
    exact ⟨r0, h0, hf.trans hf0⟩

theorem exists_refsAt_of_pos {m : FSet} {k : Key} (h : 0 < refCount m k) :
    ∃ i : Fin 64, refsAt m i k := by
  by_contra hc
  push_neg at hc
  have : refCount m k = 0 := by
    unfold refCount
    refine Finset.sum_eq_zero ?_
    intro i _
    rw [if_neg (hc i)]
  omega

theorem globalOKKey_transfer {m s : FSet} {n' : String} {gk' : Key}
    (hok : globalOKKey m n' gk')
    (hheld : ∀ i : Fin 64, heldBy s i n' = heldBy m i n')
    (hav : Availability s n' = Availability m n') : globalOKKey s n' gk' := by
  obtain ⟨⟨i0, hh0⟩, hmax, hbits⟩ := hok
  refine ⟨⟨i0, ?_⟩, ?_, ?_⟩
  · rw [hheld i0]
    exact hh0
  · intro i
    rw [hheld i]
    exact hmax i
  · intro i
    rw [hav, hheld i]
    exact hbits i

/-- The remote-key view after the `remFiles[n] = fk` write of `update`. -/
theorem held_after_put {m : FSet} {cid : Fin 64} {rem : List (String × Key)} {f : File}
    (s : FSet) (hrem : m.remoteKey cid = some rem)
    (hs : s.remoteKey = Function.update m.remoteKey cid (some (fput rem f.name (keyFor f)))) :
    (∀ i : Fin 64, i ≠ cid → ∀ x, heldBy s i x = heldBy m i x) ∧
    (∀ x, x ≠ f.name → heldBy s cid x = heldBy m cid x) ∧
    heldBy s cid f.name = some (keyFor f) := by
  refine ⟨?_, ?_, ?_⟩
  · intro i hi x
    unfold heldBy
    rw [hs, Function.update_noteq hi]
  · intro x hx
    unfold heldBy
    rw [hs, Function.update_same, hrem]
    simp only [Option.getD_some]
    rw [ffind_fput, if_neg (fun hc => hx hc.symm)]
  · unfold heldBy
    rw [hs, Function.update_same]
    simp only [Option.getD_some]
    rw [ffind_fput, if_pos rfl]

theorem refCount_after_put {m : FSet} {cid : Fin 64} {rem : List (String × Key)} {f : File}
    (s : FSet) (hrem : m.remoteKey cid = some rem)
    (habs : ffind rem f.name = none)
    (hs : s.remoteKey = Function.update m.remoteKey cid (some (fput rem f.name (keyFor f)))) :
    ∀ k, refCount s k = refCount m k + (if k = keyFor f then 1 else 0) := by
  obtain ⟨hA, hB, hC⟩ := held_after_put s hrem hs
  intro k
  have hmcid : heldBy m cid k.name = ffind rem k.name := by
    unfold heldBy
    rw [hrem]
    rfl
  have hpoint := refCount_point m s k cid (fun i hi => hA i hi k.name)
  by_cases hk : k = keyFor f
  · have h1 : ¬ refsAt m cid k := by
      unfold refsAt
      rw [hmcid, hk]
      show ¬ ffind rem f.name = some (keyFor f)
      rw [habs]
      exact fun hc => Option.noConfusion hc
    have h2 : refsAt s cid k := by
      unfold refsAt
      rw [hk]
      show heldBy s cid f.name = some (keyFor f)
      exact hC
    rw [if_neg h1, if_pos h2] at hpoint
    rw [if_pos hk]
    omega
  · rw [if_neg hk]
    by_cases hn : k.name = f.name
    · have h1 : ¬ refsAt m cid k := by
        unfold refsAt
        rw [hmcid, hn, habs]
        exact fun hc => Option.noConfusion hc
      have h2 : ¬ refsAt s cid k := by
        unfold refsAt
        rw [hn, hC]
        intro hc
        exact hk (Option.some.inj hc).symm
      rw [if_neg h1, if_neg h2] at hpoint
      omega
    · have h2 : heldBy s cid k.name = heldBy m cid k.name := hB k.name hn
      have hiff : (if refsAt m cid k then 1 else 0) = (if refsAt s cid k then 1 else 0) := by
        unfold refsAt
        simp only [h2]
      omega

theorem fput_fput {α β : Type} [DecidableEq α] (m : List (α × β)) (a : α) (b c : β) :
    fput (fput m a b) a c = fput m a c := by
  induction m with
  | nil => simp [fput]
  | cons hd t ih =>
    obtain ⟨a', b'⟩ := hd
    by_cases h' : a' = a
    · subst h'
      rw [fput_cons_self, fput_cons_self, fput_cons_self]
    · rw [fput_cons_ne _ _ _ h', fput_cons_ne _ _ _ h', fput_cons_ne _ _ _ h', ih]

theorem updState_rem (m : FSet) (cid : Fin 64) (rem : List (String × Key)) (f : File)
    (fls : List (Key × FileRecord)) (gkm : List (String × Key)) (av : List (String × Nat))
    (hrem : m.remoteKey cid = some rem) (i : Fin 64) :
    ((updState m cid rem f fls gkm av).remoteKey i).getD []
      = if i = cid then fput rem f.name (keyFor f) else (m.remoteKey i).getD [] := by
  by_cases hi : i = cid
  · subst hi
    rw [if_pos rfl]
    unfold updState
    dsimp only
    rw [Function.update_same]
    rfl
  · rw [if_neg hi]
    unfold updState
    dsimp only
    rw [Function.update_noteq hi]

theorem updState_core (m : FSet) (cid : Fin 64) (rem : List (String × Key)) (f : File)
    (fls : List (Key × FileRecord)) (gkm : List (String × Key)) (av : List (String × Nat))
    (hrem : m.remoteKey cid = some rem) (hInv : Inv m) (hv : 1 ≤ f.version)
    (habs : ffind rem f.name = none)
    (H1 : ∀ k r0, ffind m.files k = some r0 → ∃ r', ffind fls k = some r' ∧ r'.file = r0.file)
    (H2 : ∀ k r, ffind fls k = some r →
        r.usage = refCount m k + (if k = keyFor f then 1 else 0))
    (H3 : ∀ k r, ffind fls k = some r → keyFor r.file = k ∧ 1 ≤ k.version)
    (H4 : (ffind fls (keyFor f)).isSome = true)
    (H5 : (fls.map Prod.fst).Nodup) :
    (∀ i : Fin 64,
      ((((updState m cid rem f fls gkm av).remoteKey i).getD []).map Prod.fst).Nodup) ∧
    (∀ i : Fin 64, ∀ p ∈ ((updState m cid rem f fls gkm av).remoteKey i).getD [],
      p.2.name = p.1 ∧ 1 ≤ p.2.version) ∧
    (∀ p ∈ fls, keyFor p.2.file = p.1 ∧ 1 ≤ p.1.version) ∧
    (∀ p ∈ fls, p.2.usage = refCount (updState m cid rem f fls gkm av) p.1) ∧
    (∀ i : Fin 64, ∀ p ∈ ((updState m cid rem f fls gkm av).remoteKey i).getD [],
      (ffind fls p.2).isSome = true) := by
  have hremd : (m.remoteKey cid).getD [] = rem := by
    rw [hrem]
    rfl
  have hrc := refCount_after_put (updState m cid rem f fls gkm av) hrem habs rfl
  refine ⟨?_, ?_, ?_, ?_, ?_⟩
  · intro i
    rw [updState_rem m cid rem f fls gkm av hrem i]
    by_cases hi : i = cid
    · rw [if_pos hi]
      refine nodup_fput _ _ ?_
      rw [← hremd]
      exact hInv.nodupRem cid
    · rw [if_neg hi]
      exact hInv.nodupRem i
  · intro i p hp
    rw [updState_rem m cid rem f fls gkm av hrem i] at hp
    by_cases hi : i = cid
    · rw [if_pos hi] at hp
      rcases mem_fput_elim hp with h | h
      · subst h
        exact ⟨rfl, hv⟩
      · refine hInv.entryName cid p ?_
        rw [hremd]
        exact h
    · rw [if_neg hi] at hp
      exact hInv.entryName i p hp
  · intro p hp
    exact H3 p.1 p.2 (ffind_of_mem_nodup H5 hp)
  · intro p hp
    rw [hrc p.1]
    exact H2 p.1 p.2 (ffind_of_mem_nodup H5 hp)
  · intro i p hp
    rw [updState_rem m cid rem f fls gkm av hrem i] at hp
    by_cases hi : i = cid
    · rw [if_pos hi] at hp
      rcases mem_fput_elim hp with h | h
      · subst h
        exact H4
      · have hd := hInv.noDangling cid p (by rw [hremd]; exact h)
        rcases hm : ffind m.files p.2 with _ | r0
        · rw [hm] at hd
          simp at hd
        · rcases H1 p.2 r0 hm with ⟨r', hr', _⟩
          rw [hr']
          rfl
    · rw [if_neg hi] at hp
      have hd := hInv.noDangling i p hp
      rcases hm : ffind m.files p.2 with _ | r0
      · rw [hm] at hd
        simp at hd
      · rcases H1 p.2 r0 hm with ⟨r', hr', _⟩
        rw [hr']
        rfl

/-- File-table facts after `update` stores (or bumps) the record for `f`. -/
theorem filesShape1 (m : FSet) (f : File) (R : FileRecord) (hInv : Inv m)
    (hv : 1 ≤ f.version)
    (hRu : R.usage = refCount m (keyFor f) + 1)
    (hRk : keyFor R.file = keyFor f)
    (hRf0 : ∀ r0, ffind m.files (keyFor f) = some r0 → R.file = r0.file)
    (hRfn : ffind m.files (keyFor f) = none → R.file = f) :
    (∀ k r0, ffind m.files k = some r0 →
        ∃ r', ffind (fput m.files (keyFor f) R) k = some r' ∧ r'.file = r0.file) ∧
    (∀ k r, ffind (fput m.files (keyFor f) R) k = some r →
        r.usage = refCount m k + (if k = keyFor f then 1 else 0)) ∧
    (∀ k r, ffind (fput m.files (keyFor f) R) k = some r →
        keyFor r.file = k ∧ 1 ≤ k.version) ∧
    (ffind (fput m.files (keyFor f) R) (keyFor f)).isSome = true ∧
    ((fput m.files (keyFor f) R).map Prod.fst).Nodup ∧
    (∃ r, ffind (fput m.files (keyFor f) R) (keyFor f) = some r ∧
        (r.file = f ∨ ∃ r0, ffind m.files (keyFor f) = some r0 ∧ r.file = r0.file)) ∧
    (∀ k, keyFor f ≠ k → ffind (fput m.files (keyFor f) R) k = ffind m.files k) := by
  have hfind : ∀ k, ffind (fput m.files (keyFor f) R) k
      = if keyFor f = k then some R else ffind m.files k := fun k => ffind_fput _ _ _ _
  refine ⟨?_, ?_, ?_, ?_, nodup_fput _ _ hInv.nodupFiles, ?_, ?_⟩
  · intro k r0 h0
    rw [hfind k]
    by_cases hk : keyFor f = k
    · subst hk
      exact ⟨R, by rw [if_pos rfl], hRf0 r0 h0⟩
    · rw [if_neg hk]
      exact ⟨r0, h0, rfl⟩
  · intro k r hr
    rw [hfind k] at hr
    by_cases hk : keyFor f = k
    · subst hk
      rw [if_pos rfl] at hr
      cases hr
      rw [if_pos rfl]
      exact hRu
    · rw [if_neg hk] at hr
      have hk' : ¬ (k = keyFor f) := fun hc => hk hc.symm
      rw [if_neg hk', Nat.add_zero]
      exact hInv.usageEq (k, r) (ffind_mem hr)
  · intro k r hr
    rw [hfind k] at hr
    by_cases hk : keyFor f = k
    · subst hk
      rw [if_pos rfl] at hr
      cases hr
      refine ⟨hRk, ?_⟩
      show 1 ≤ f.version
      exact hv
    · rw [if_neg hk] at hr
      exact hInv.recKey (k, r) (ffind_mem hr)
  · rw [hfind (keyFor f), if_pos rfl]
    rfl
  · refine ⟨R, by rw [hfind (keyFor f), if_pos rfl], ?_⟩
    rcases h0 : ffind m.files (keyFor f) with _ | r0
    · exact Or.inl (hRfn h0)
    · exact Or.inr ⟨r0, rfl, hRf0 r0 h0⟩
  · intro k hk
    rw [hfind k, if_neg hk]

/-- File-table facts after `update` additionally demotes the old global
record at `gk` and promotes the new one. -/
theorem filesShape2 (m : FSet) (f : File) (R1 R2 DEM : FileRecord) (gk : Key)
    (rgk : FileRecord)
    (hInv : Inv m) (hv : 1 ≤ f.version)
    (hne : gk ≠ keyFor f)
    (hgk : ffind m.files gk = some rgk)
    (hDf : DEM.file = rgk.file) (hDu : DEM.usage = rgk.usage)
    (hRu : R2.usage = refCount m (keyFor f) + 1)
    (hRk : keyFor R2.file = keyFor f)
    (hRf0 : ∀ r0, ffind m.files (keyFor f) = some r0 → R2.file = r0.file)
    (hRfn : ffind m.files (keyFor f) = none → R2.file = f)
    (FLS : List (Key × FileRecord))
    (hFLS : FLS = fput (fput (fput m.files (keyFor f) R1) gk DEM) (keyFor f) R2) :
    (∀ k r0, ffind m.files k = some r0 → ∃ r', ffind FLS k = some r' ∧ r'.file = r0.file) ∧
    (∀ k r, ffind FLS k = some r →
        r.usage = refCount m k + (if k = keyFor f then 1 else 0)) ∧
    (∀ k r, ffind FLS k = some r → keyFor r.file = k ∧ 1 ≤ k.version) ∧
    (ffind FLS (keyFor f)).isSome = true ∧
    (FLS.map Prod.fst).Nodup ∧
    (∃ r, ffind FLS (keyFor f) = some r ∧
        (r.file = f ∨ ∃ r0, ffind m.files (keyFor f) = some r0 ∧ r.file = r0.file)) ∧
    (∀ k, keyFor f ≠ k → gk ≠ k → ffind FLS k = ffind m.files k) := by
  have hfind : ∀ k, ffind FLS k =
      if keyFor f = k then some R2 else if gk = k then some DEM else ffind m.files k := by
    intro k
    rw [hFLS, ffind_fput]
    by_cases hk : keyFor f = k
    · rw [if_pos hk, if_pos hk]
    · rw [if_neg hk, if_neg hk, ffind_fput]
      by_cases hk2 : gk = k
      · rw [if_pos hk2, if_pos hk2]
      · rw [if_neg hk2, if_neg hk2, ffind_fput, if_neg hk]
  refine ⟨?_, ?_, ?_, ?_, ?_, ?_, ?_⟩
  · intro k r0 h0
    rw [hfind k]
    by_cases hk : keyFor f = k
    · subst hk
      exact ⟨R2, by rw [if_pos rfl], hRf0 r0 h0⟩
    · rw [if_neg hk]
      by_cases hk2 : gk = k
      · subst hk2
        rw [hgk] at h0
        cases h0
        exact ⟨DEM, by rw [if_pos rfl], hDf⟩
      · rw [if_neg hk2]
        exact ⟨r0, h0, rfl⟩
  · intro k r hr
    rw [hfind k] at hr
    by_cases hk : keyFor f = k
    · subst hk
      rw [if_pos rfl] at hr
      cases hr
      rw [if_pos rfl]
      exact hRu
    · rw [if_neg hk] at hr
      have hk' : ¬ (k = keyFor f) := fun hc => hk hc.symm
      rw [if_neg hk']
      by_cases hk2 : gk = k
      · subst hk2
        rw [if_pos rfl] at hr
        cases hr
        rw [hDu, Nat.add_zero]
        exact hInv.usageEq (gk, rgk) (ffind_mem hgk)
      · rw [if_neg hk2] at hr
        rw [Nat.add_zero]
        exact hInv.usageEq (k, r) (ffind_mem hr)
  · intro k r hr
    rw [hfind k] at hr
    by_cases hk : keyFor f = k
    · subst hk
      rw [if_pos rfl] at hr
      cases hr
      refine ⟨hRk, ?_⟩
      show 1 ≤ f.version
      exact hv
    · rw [if_neg hk] at hr
      by_cases hk2 : gk = k
      · subst hk2
        rw [if_pos rfl] at hr
        cases hr
        rw [hDf]
        exact hInv.recKey (gk, rgk) (ffind_mem hgk)
      · rw [if_neg hk2] at hr
        exact hInv.recKey (k, r) (ffind_mem hr)
  · rw [hfind (keyFor f), if_pos rfl]
    rfl
  · rw [hFLS]
    exact nodup_fput _ _ (nodup_fput _ _ (nodup_fput _ _ hInv.nodupFiles))
  · refine ⟨R2, by rw [hfind (keyFor f), if_pos rfl], ?_⟩
    rcases h0 : ffind m.files (keyFor f) with _ | r0
    · exact Or.inl (hRfn h0)
    · exact Or.inr ⟨r0, rfl, hRf0 r0 h0⟩
  · intro k hk hk2
    rw [hfind k, if_neg hk, if_neg hk2]

/-- The `ok && fk == gk` branch of the global-view switch of `update`:
or the peer's bit into the availability word. -/
theorem updateOne_caseEq (m : FSet) (cid : Fin 64) (rem : List (String × Key)) (f : File)
    (R : FileRecord) (gk : Key)
    (hrem : m.remoteKey cid = some rem) (hInv : Inv m) (hv : 1 ≤ f.version)
    (habs : ffind rem f.name = none)
    (hRu : R.usage = refCount m (keyFor f) + 1)
    (hRk : keyFor R.file = keyFor f)
    (hRf0 : ∀ r0, ffind m.files (keyFor f) = some r0 → R.file = r0.file)
    (hRfn : ffind m.files (keyFor f) = none → R.file = f)
    (hg : ffind m.globalKey f.name = some gk)
    (heq : keyFor f = gk) :
    Inv (updState m cid rem f (fput m.files (keyFor f) R) m.globalKey
      (fput m.globalAvailability f.name
        ((ffind m.globalAvailability f.name).getD 0 ||| (1 <<< (cid : Nat))))) := by
  obtain ⟨S1, S2, S3, S4, S5, _⟩ := filesShape1 m f R hInv hv hRu hRk hRf0 hRfn
  set AV := fput m.globalAvailability f.name
    ((ffind m.globalAvailability f.name).getD 0 ||| (1 <<< (cid : Nat))) with hAV
  obtain ⟨C1, C2, C3, C4, C5⟩ := updState_core m cid rem f (fput m.files (keyFor f) R)
    m.globalKey AV hrem hInv hv habs S1 S2 S3 S4 S5
  obtain ⟨hA, hB, hC⟩ := held_after_put
    (updState m cid rem f (fput m.files (keyFor f) R) m.globalKey AV) hrem rfl
  have havS : ∀ x, Availability (updState m cid rem f (fput m.files (keyFor f) R)
      m.globalKey AV) x = (ffind AV x).getD 0 := fun x => rfl
  refine ⟨C1, C2, S5, hInv.nodupGK, nodup_fput _ _ hInv.nodupAv, C3, C4, C5, ?_, ?_⟩
  · -- gkComplete: the global map is unchanged and already covers everything
    intro i p hp
    rw [updState_rem m cid rem f _ m.globalKey AV hrem i] at hp
    by_cases hi : i = cid
    · rw [if_pos hi] at hp
      rcases mem_fput_elim hp with h | h
      · subst h
        show (ffind m.globalKey f.name).isSome = true
        rw [hg]
        rfl
      · refine hInv.gkComplete cid p ?_
        rw [hrem]
        exact h
    · rw [if_neg hi] at hp
      exact hInv.gkComplete i p hp
  · -- gkOK
    intro p hp
    by_cases hpn : p.1 = f.name
    · have hfind : ffind m.globalKey p.1 = some p.2 := ffind_of_mem_nodup hInv.nodupGK hp
      rw [hpn, hg] at hfind
      have hp2 : p.2 = gk := (Option.some.inj hfind).symm
      obtain ⟨⟨i0, hh0⟩, hmax, hbits⟩ := hInv.gkOK p hp
      rw [hpn, hp2] at hh0 hmax hbits ⊢
      refine ⟨⟨cid, ?_⟩, ?_, ?_⟩
      · rw [hC, heq]
      · intro i
        by_cases hi : i = cid
        · subst hi
          rw [hC]
          simp only [Option.getD_some]
          rw [← heq]
        · rw [hA i hi]
          exact hmax i
      · intro i
        have havx : Availability (updState m cid rem f (fput m.files (keyFor f) R)
            m.globalKey AV) f.name
            = Availability m f.name ||| (1 <<< (cid : Nat)) := by
          rw [havS, hAV, ffind_fput, if_pos rfl]
          rfl
        rw [havx, Nat.testBit_lor, Bool.or_eq_true, testBit_one_shiftLeft_fin]
        by_cases hi : i = cid
        · subst hi
          constructor
          · intro _
            rw [hC, heq]
          · intro _
            exact Or.inr rfl
        · constructor
          · rintro (h | h)
            · rw [hA i hi]
              exact (hbits i).mp h
            · exact absurd h hi
          · intro h
            rw [hA i hi] at h
            exact Or.inl ((hbits i).mpr h)
    · have hne : f.name ≠ p.1 := fun hc => hpn hc.symm
      refine globalOKKey_transfer (hInv.gkOK p hp) ?_ ?_
      · intro i
        by_cases hi : i = cid
        · subst hi
          exact hB p.1 hpn
        · exact hA i hi p.1
      · rw [havS, hAV, ffind_fput, if_neg hne]
        rfl

/-- The fall-through of the global-view switch for an existing, strictly
newer global key (`fk` older than `gk`): no change to the global view. -/
theorem updateOne_caseOld (m : FSet) (cid : Fin 64) (rem : List (String × Key)) (f : File)
    (R : FileRecord) (gk : Key)
    (hrem : m.remoteKey cid = some rem) (hInv : Inv m) (hv : 1 ≤ f.version)
    (habs : ffind rem f.name = none)
    (hRu : R.usage = refCount m (keyFor f) + 1)
    (hRk : keyFor R.file = keyFor f)
    (hRf0 : ∀ r0, ffind m.files (keyFor f) = some r0 → R.file = r0.file)
    (hRfn : ffind m.files (keyFor f) = none → R.file = f)
    (hg : ffind m.globalKey f.name = some gk)
    (hneq : keyFor f ≠ gk)
    (hold : f.version ≤ gk.version) :
    Inv (updState m cid rem f (fput m.files (keyFor f) R) m.globalKey
      m.globalAvailability) := by
  obtain ⟨S1, S2, S3, S4, S5, _⟩ := filesShape1 m f R hInv hv hRu hRk hRf0 hRfn
  obtain ⟨C1, C2, C3, C4, C5⟩ := updState_core m cid rem f (fput m.files (keyFor f) R)
    m.globalKey m.globalAvailability hrem hInv hv habs S1 S2 S3 S4 S5
  obtain ⟨hA, hB, hC⟩ := held_after_put
    (updState m cid rem f (fput m.files (keyFor f) R) m.globalKey m.globalAvailability)
    hrem rfl
  have hmcid : heldBy m cid f.name = none := by
    unfold heldBy
    rw [hrem]
    exact habs
  refine ⟨C1, C2, S5, hInv.nodupGK, hInv.nodupAv, C3, C4, C5, ?_, ?_⟩
  · intro i p hp
    rw [updState_rem m cid rem f _ m.globalKey m.globalAvailability hrem i] at hp
    by_cases hi : i = cid
    · rw [if_pos hi] at hp
      rcases mem_fput_elim hp with h | h
      · subst h
        show (ffind m.globalKey f.name).isSome = true
        rw [hg]
        rfl
      · refine hInv.gkComplete cid p ?_
        rw [hrem]
        exact h
    · rw [if_neg hi] at hp
      exact hInv.gkComplete i p hp
  · intro p hp
    by_cases hpn : p.1 = f.name
    · have hfind : ffind m.globalKey p.1 = some p.2 := ffind_of_mem_nodup hInv.nodupGK hp
      rw [hpn, hg] at hfind
      have hp2 : p.2 = gk := (Option.some.inj hfind).symm
      obtain ⟨⟨i0, hh0⟩, hmax, hbits⟩ := hInv.gkOK p hp
      rw [hpn, hp2] at hh0 hmax hbits ⊢
      have hi0 : i0 ≠ cid := by
        intro hc
        rw [hc, hmcid] at hh0
        exact Option.noConfusion hh0
      refine ⟨⟨i0, ?_⟩, ?_, ?_⟩
      · rw [hA i0 hi0]
        exact hh0
      · intro i
        by_cases hi : i = cid
        · subst hi
          rw [hC]
          simp only [Option.getD_some]
          exact hold
        · rw [hA i hi]
          exact hmax i
      · intro i
        have havx : Availability (updState m cid rem f (fput m.files (keyFor f) R)
            m.globalKey m.globalAvailability) f.name = Availability m f.name := rfl
        rw [havx]
        by_cases hi : i = cid
        · subst hi
          rw [hC]
          constructor
          · intro h
            have := (hbits i).mp h
            rw [hmcid] at this
            exact absurd this (fun hc => Option.noConfusion hc)
          · intro h
            exact absurd (Option.some.inj h) hneq
        · rw [hA i hi]
          exact hbits i
    · refine globalOKKey_transfer (hInv.gkOK p hp) ?_ rfl
      intro i
      by_cases hi : i = cid
      · subst hi
        exact hB p.1 hpn
      · exact hA i hi p.1

/-- The promotion branch of `update` when no global key exists for the
name yet (a version ≥ 1 always beats the zero key). -/
theorem updateOne_caseNew (m : FSet) (cid : Fin 64) (rem : List (String × Key)) (f : File)
    (R : FileRecord)
    (hrem : m.remoteKey cid = some rem) (hInv : Inv m) (hv : 1 ≤ f.version)
    (habs : ffind rem f.name = none)
    (hRu : R.usage = refCount m (keyFor f) + 1)
    (hRk : keyFor R.file = keyFor f)
    (hRf0 : ∀ r0, ffind m.files (keyFor f) = some r0 → R.file = r0.file)
    (hRfn : ffind m.files (keyFor f) = none → R.file = f)
    (hg : ffind m.globalKey f.name = none) :
    Inv (updState m cid rem f (fput m.files (keyFor f) R)
      (fput m.globalKey f.name (keyFor f))
      (fput m.globalAvailability f.name (1 <<< (cid : Nat)))) := by
  obtain ⟨S1, S2, S3, S4, S5, _⟩ := filesShape1 m f R hInv hv hRu hRk hRf0 hRfn
  obtain ⟨C1, C2, C3, C4, C5⟩ := updState_core m cid rem f (fput m.files (keyFor f) R)
    (fput m.globalKey f.name (keyFor f))
    (fput m.globalAvailability f.name (1 <<< (cid : Nat))) hrem hInv hv habs S1 S2 S3 S4 S5
  obtain ⟨hA, hB, hC⟩ := held_after_put
    (updState m cid rem f (fput m.files (keyFor f) R) (fput m.globalKey f.name (keyFor f))
      (fput m.globalAvailability f.name (1 <<< (cid : Nat)))) hrem rfl
  have hnone : ∀ i : Fin 64, heldBy m i f.name = none := by
    intro i
    rcases h : heldBy m i f.name with _ | k'
    · rfl
    · unfold heldBy at h
      have hmem := ffind_mem h
      have := hInv.gkComplete i (f.name, k') hmem
      rw [hg] at this
      simp at this
  refine ⟨C1, C2, S5, nodup_fput _ _ hInv.nodupGK, nodup_fput _ _ hInv.nodupAv,
    C3, C4, C5, ?_, ?_⟩
  · intro i p hp
    rw [updState_rem m cid rem f _ _ _ hrem i] at hp
    have hsome : ∀ x, (ffind m.globalKey x).isSome = true →
        (ffind (fput m.globalKey f.name (keyFor f)) x).isSome = true := by
      intro x hx
      rw [ffind_fput]
      by_cases hfx : f.name = x
      · rw [if_pos hfx]
        rfl
      · rw [if_neg hfx]
        exact hx
    by_cases hi : i = cid
    · rw [if_pos hi] at hp
      rcases mem_fput_elim hp with h | h
      · subst h
        show (ffind (fput m.globalKey f.name (keyFor f)) f.name).isSome = true
        rw [ffind_fput, if_pos rfl]
        rfl
      · refine hsome p.1 (hInv.gkComplete cid p ?_)
        rw [hrem]
        exact h
    · rw [if_neg hi] at hp
      exact hsome p.1 (hInv.gkComplete i p hp)
  · intro p hp
    rcases mem_fput_nodup hInv.nodupGK hp with h | ⟨h, hpn⟩
    · subst h
      refine ⟨⟨cid, hC⟩, ?_, ?_⟩
      · intro i
        by_cases hi : i = cid
        · subst hi
          rw [hC]
          simp only [Option.getD_some]
          exact Nat.le_refl _
        · rw [hA i hi, hnone i]
          exact Nat.zero_le _
      · intro i
        have havx : Availability (updState m cid rem f (fput m.files (keyFor f) R)
            (fput m.globalKey f.name (keyFor f))
            (fput m.globalAvailability f.name (1 <<< (cid : Nat)))) f.name
            = 1 <<< (cid : Nat) := by
          show (ffind (fput m.globalAvailability f.name (1 <<< (cid : Nat))) f.name).getD 0
            = 1 <<< (cid : Nat)
          rw [ffind_fput, if_pos rfl]
          rfl
        rw [havx, testBit_one_shiftLeft_fin]
        by_cases hi : i = cid
        · subst hi
          exact ⟨fun _ => hC, fun _ => rfl⟩
        · constructor
          · intro h
            exact absurd h hi
          · intro h
            rw [hA i hi, hnone i] at h
            exact absurd h (fun hc => Option.noConfusion hc)
    · have hne : f.name ≠ p.1 := fun hc => hpn hc.symm
      refine globalOKKey_transfer (hInv.gkOK p h) ?_ ?_
      · intro i
        by_cases hi : i = cid
        · subst hi
          exact hB p.1 hpn
        · exact hA i hi p.1
      · show (ffind (fput m.globalAvailability f.name (1 <<< (cid : Nat))) p.1).getD 0
          = Availability m p.1
        rw [ffind_fput, if_neg hne]
        rfl

/-- The promotion branch of `update` for a strictly newer key: demote the
old global record, promote the new one. -/
theorem updateOne_caseNewer (m : FSet) (cid : Fin 64) (rem : List (String × Key)) (f : File)
    (R1 R2 DEM : FileRecord) (gk : Key) (rgk : FileRecord)
    (hrem : m.remoteKey cid = some rem) (hInv : Inv m) (hv : 1 ≤ f.version)
    (habs : ffind rem f.name = none)
    (hne : gk ≠ keyFor f)
    (hgk : ffind m.files gk = some rgk)
    (hDf : DEM.file = rgk.file) (hDu : DEM.usage = rgk.usage)
    (hRu : R2.usage = refCount m (keyFor f) + 1)
    (hRk : keyFor R2.file = keyFor f)
    (hRf0 : ∀ r0, ffind m.files (keyFor f) = some r0 → R2.file = r0.file)
    (hRfn : ffind m.files (keyFor f) = none → R2.file = f)
    (hg : ffind m.globalKey f.name = some gk)
    (hnew : gk.version < f.version) :
    Inv (updState m cid rem f
      (fput (fput (fput m.files (keyFor f) R1) gk DEM) (keyFor f) R2)
      (fput m.globalKey f.name (keyFor f))
      (fput m.globalAvailability f.name (1 <<< (cid : Nat)))) := by
  obtain ⟨S1, S2, S3, S4, S5, _⟩ := filesShape2 m f R1 R2 DEM gk rgk hInv hv hne hgk
    hDf hDu hRu hRk hRf0 hRfn _ rfl
  obtain ⟨C1, C2, C3, C4, C5⟩ := updState_core m cid rem f
    (fput (fput (fput m.files (keyFor f) R1) gk DEM) (keyFor f) R2)
    (fput m.globalKey f.name (keyFor f))
    (fput m.globalAvailability f.name (1 <<< (cid : Nat))) hrem hInv hv habs S1 S2 S3 S4 S5
  obtain ⟨hA, hB, hC⟩ := held_after_put
    (updState m cid rem f (fput (fput (fput m.files (keyFor f) R1) gk DEM) (keyFor f) R2)
      (fput m.globalKey f.name (keyFor f))
      (fput m.globalAvailability f.name (1 <<< (cid : Nat)))) hrem rfl
  obtain ⟨⟨i0g, hh0g⟩, hmaxg, hbitsg⟩ := hInv.gkOK (f.name, gk) (ffind_mem hg)
  refine ⟨C1, C2, S5, nodup_fput _ _ hInv.nodupGK, nodup_fput _ _ hInv.nodupAv,
    C3, C4, C5, ?_, ?_⟩
  · intro i p hp
    rw [updState_rem m cid rem f _ _ _ hrem i] at hp
    have hsome : ∀ x, (ffind m.globalKey x).isSome = true →
        (ffind (fput m.globalKey f.name (keyFor f)) x).isSome = true := by
      intro x hx
      rw [ffind_fput]
      by_cases hfx : f.name = x
      · rw [if_pos hfx]
        rfl
      · rw [if_neg hfx]
        exact hx
    by_cases hi : i = cid
    · rw [if_pos hi] at hp
      rcases mem_fput_elim hp with h | h
      · subst h
        show (ffind (fput m.globalKey f.name (keyFor f)) f.name).isSome = true
        rw [ffind_fput, if_pos rfl]
        rfl
      · refine hsome p.1 (hInv.gkComplete cid p ?_)
        rw [hrem]
        exact h
    · rw [if_neg hi] at hp
      exact hsome p.1 (hInv.gkComplete i p hp)
  · intro p hp
    rcases mem_fput_nodup hInv.nodupGK hp with h | ⟨h, hpn⟩
    · subst h
      refine ⟨⟨cid, hC⟩, ?_, ?_⟩
      · intro i
        by_cases hi : i = cid
        · subst hi
          rw [hC]
          simp only [Option.getD_some]
          exact Nat.le_refl _
        · rw [hA i hi]
          show ((heldBy m i f.name).getD zeroKey).version ≤ f.version
          exact Nat.le_trans (hmaxg i) (Nat.le_of_lt hnew)
      · intro i
        have havx : Availability (updState m cid rem f
            (fput (fput (fput m.files (keyFor f) R1) gk DEM) (keyFor f) R2)
            (fput m.globalKey f.name (keyFor f))
            (fput m.globalAvailability f.name (1 <<< (cid : Nat)))) f.name
            = 1 <<< (cid : Nat) := by
          show (ffind (fput m.globalAvailability f.name (1 <<< (cid : Nat))) f.name).getD 0
            = 1 <<< (cid : Nat)
          rw [ffind_fput, if_pos rfl]
          rfl
        rw [havx, testBit_one_shiftLeft_fin]
        by_cases hi : i = cid
        · subst hi
          exact ⟨fun _ => hC, fun _ => rfl⟩
        · constructor
          · intro h
            exact absurd h hi
          · intro h
            rw [hA i hi] at h
            have hvv := hmaxg i
            rw [h] at hvv
            simp only [Option.getD_some] at hvv
            have : f.version ≤ gk.version := hvv
            omega
    · have hnex : f.name ≠ p.1 := fun hc => hpn hc.symm
      refine globalOKKey_transfer (hInv.gkOK p h) ?_ ?_
      · intro i
        by_cases hi : i = cid
        · subst hi
          exact hB p.1 hpn
        · exact hA i hi p.1
      · show (ffind (fput m.globalAvailability f.name (1 <<< (cid : Nat))) p.1).getD 0
          = Availability m p.1
        rw [ffind_fput, if_neg hnex]
        rfl

/-- One non-skipped iteration of `update` preserves the invariant, extends
the peer's map by `f`, preserves all stored file bodies, and stores a
record for `keyFor f`. -/
theorem updateOne_step (cid : Fin 64) (m : FSet) (f : File) (rem : List (String × Key))
    (hrem : m.remoteKey cid = some rem) (hInv : Inv m) (hv : 1 ≤ f.version)
    (habs : ffind rem f.name = none) :
    Inv (updateOne cid m f) ∧
    (updateOne cid m f).remoteKey cid = some (fput rem f.name (keyFor f)) ∧
    (∀ k r0, ffind m.files k = some r0 →
        ∃ r', ffind (updateOne cid m f).files k = some r' ∧ r'.file = r0.file) ∧
    (∃ r, ffind (updateOne cid m f).files (keyFor f) = some r ∧
        (r.file = f ∨ ∃ r0, ffind m.files (keyFor f) = some r0 ∧ r.file = r0.file)) ∧
    (∀ k : Key, k.name ≠ f.name → ffind (updateOne cid m f).files k = ffind m.files k) := by
  have hknef : ∀ k : Key, k.name ≠ f.name → keyFor f ≠ k :=
    fun k hk hc => hk (hc ▸ (rfl : (keyFor f).name = f.name))
  have hcond : ¬ (ffind rem f.name = some (keyFor f)) := by
    rw [habs]
    exact fun hc => Option.noConfusion hc
  unfold updateOne
  dsimp only
  rw [hrem]
  simp only [Option.getD_some]
  rw [if_neg hcond]
  rcases hf : ffind m.files (keyFor f) with _ | br
  all_goals dsimp only
  -- the record stored at keyFor f, and its facts
  case none =>
    have h0 : refCount m (keyFor f) = 0 := by
      by_contra h
      obtain ⟨i, hri⟩ := exists_refsAt_of_pos (Nat.pos_of_ne_zero h)
      have hri' : ffind ((m.remoteKey i).getD []) f.name = some (keyFor f) := hri
      have hmem := ffind_mem hri'
      have hd := hInv.noDangling i (f.name, keyFor f) hmem
      rw [hf] at hd
      simp at hd
    have hRu : ({ file := f, usage := 1, global := false } : FileRecord).usage
        = refCount m (keyFor f) + 1 := by
      rw [h0]
    have hRk : keyFor ({ file := f, usage := 1, global := false } : FileRecord).file
        = keyFor f := rfl
    have hRf0 : ∀ r0, ffind m.files (keyFor f) = some r0 →
        ({ file := f, usage := 1, global := false } : FileRecord).file = r0.file := by
      intro r0 h0'
      rw [hf] at h0'
      exact Option.noConfusion h0'
    have hRfn : ffind m.files (keyFor f) = none →
        ({ file := f, usage := 1, global := false } : FileRecord).file = f := fun _ => rfl
    obtain ⟨S1, _, _, _, _, S6, S7⟩ := filesShape1 m f _ hInv hv hRu hRk hRf0 hRfn
    rw [hf] at S6
    rcases hg : ffind m.globalKey f.name with _ | gk
    · dsimp only
      have hnz : (keyFor f).newerThan zeroKey = true := by
        rw [newerThan_iff]
        show zeroKey.version < f.version
        have : zeroKey.version = 0 := rfl
        omega
      rw [if_pos hnz]
      have e3 : ffind (fput m.files (keyFor f)
          { file := f, usage := 1, global := false }) (keyFor f)
          = some { file := f, usage := 1, global := false } := by
        rw [ffind_fput, if_pos rfl]
      rw [e3]
      simp only [Option.getD_some]
      rw [fput_fput]
      have hRu' : ({ file := f, usage := 1, global := true } : FileRecord).usage
          = refCount m (keyFor f) + 1 := by
        rw [h0]
      obtain ⟨T1, _, _, _, _, T6, T7⟩ := filesShape1 m f
        ({ file := f, usage := 1, global := true }) hInv hv hRu' rfl
        (fun r0 h0' => by rw [hf] at h0'; exact Option.noConfusion h0') (fun _ => rfl)
      rw [hf] at T6
      exact ⟨updateOne_caseNew m cid rem f _ hrem hInv hv habs hRu' rfl
          (fun r0 h0' => by rw [hf] at h0'; exact Option.noConfusion h0') (fun _ => rfl) hg,
        Function.update_same _ _ _, T1, T6, fun k hk => T7 k (hknef k hk)⟩
    · dsimp only
      by_cases hfk : keyFor f = gk
      · rw [if_pos hfk]
        exact ⟨updateOne_caseEq m cid rem f _ gk hrem hInv hv habs hRu hRk hRf0 hRfn hg hfk,
          Function.update_same _ _ _, S1, S6, fun k hk => S7 k (hknef k hk)⟩
      · rw [if_neg hfk]
        by_cases hnew : (keyFor f).newerThan gk = true
        · rw [if_pos hnew]
          have hgkne : gk ≠ keyFor f := fun hc => hfk hc.symm
          obtain ⟨⟨i0g, hh0g⟩, _, _⟩ := hInv.gkOK (f.name, gk) (ffind_mem hg)
          have hh0g' : ffind ((m.remoteKey i0g).getD []) f.name = some gk := hh0g
          have hdg := hInv.noDangling i0g (f.name, gk) (ffind_mem hh0g')
          rcases hrgk : ffind m.files gk with _ | rgk
          · rw [hrgk] at hdg
            simp at hdg
          · have e1 : ffind (fput m.files (keyFor f)
                { file := f, usage := 1, global := false }) gk = some rgk := by
              rw [ffind_fput, if_neg hfk]
              exact hrgk
            rw [e1]
            simp only [Option.getD_some]
            have e2 : ffind (fput (fput m.files (keyFor f)
                { file := f, usage := 1, global := false }) gk
                { file := rgk.file, usage := rgk.usage, global := false }) (keyFor f)
                = some { file := f, usage := 1, global := false } := by
              rw [ffind_fput, if_neg hgkne, ffind_fput, if_pos rfl]
            rw [e2]
            simp only [Option.getD_some]
            have hnewlt : gk.version < f.version := by
              have := (newerThan_iff (keyFor f) gk).mp hnew
              exact this
            have hRu2 : ({ file := f, usage := 1, global := true } : FileRecord).usage
                = refCount m (keyFor f) + 1 := by
              rw [h0]
            obtain ⟨U1, _, _, _, _, U6, U7⟩ := filesShape2 m f
              ({ file := f, usage := 1, global := false })
              ({ file := f, usage := 1, global := true })
              ({ file := rgk.file, usage := rgk.usage, global := false }) gk rgk hInv hv
              hgkne hrgk rfl rfl hRu2 rfl
              (fun r0 h0' => by rw [hf] at h0'; exact Option.noConfusion h0')
              (fun _ => rfl) _ rfl
            rw [hf] at U6
            have hgkname : gk.name = f.name :=
              (hInv.entryName i0g (f.name, gk) (ffind_mem hh0g')).1
            exact ⟨updateOne_caseNewer m cid rem f _ _ _ gk rgk hrem hInv hv habs hgkne
                hrgk rfl rfl hRu2 rfl
                (fun r0 h0' => by rw [hf] at h0'; exact Option.noConfusion h0')
                (fun _ => rfl) hg hnewlt,
              Function.update_same _ _ _, U1, U6,
              fun k hk => U7 k (hknef k hk) (fun hc => hk (hc ▸ hgkname))⟩
        · rw [if_neg hnew]
          have hold : f.version ≤ gk.version := by
            have := (newerThan_iff (keyFor f) gk).not.mp (by simpa using hnew)
            have h2 : ¬ (gk.version < f.version) := this
            omega
          exact ⟨updateOne_caseOld m cid rem f _ gk hrem hInv hv habs hRu hRk hRf0 hRfn
              hg hfk hold,
            Function.update_same _ _ _, S1, S6, fun k hk => S7 k (hknef k hk)⟩
  case some =>
    have hbru : br.usage = refCount m (keyFor f) := hInv.usageEq (keyFor f, br) (ffind_mem hf)
    have hRu : ({ file := br.file, usage := br.usage + 1, global := br.global }
        : FileRecord).usage = refCount m (keyFor f) + 1 := by
      show br.usage + 1 = refCount m (keyFor f) + 1
      omega
    have hRk : keyFor ({ file := br.file, usage := br.usage + 1, global := br.global }
        : FileRecord).file = keyFor f := (hInv.recKey (keyFor f, br) (ffind_mem hf)).1
    have hRf0 : ∀ r0, ffind m.files (keyFor f) = some r0 →
        ({ file := br.file, usage := br.usage + 1, global := br.global }
          : FileRecord).file = r0.file := by
      intro r0 h0'
      rw [hf] at h0'
      cases h0'
      rfl
    have hRfn : ffind m.files (keyFor f) = none →
        ({ file := br.file, usage := br.usage + 1, global := br.global }
          : FileRecord).file = f := by
      intro h0'
      rw [hf] at h0'
      exact Option.noConfusion h0'
    obtain ⟨S1, _, _, _, _, S6, S7⟩ := filesShape1 m f _ hInv hv hRu hRk hRf0 hRfn
    rw [hf] at S6
    rcases hg : ffind m.globalKey f.name with _ | gk
    · dsimp only
      have hnz : (keyFor f).newerThan zeroKey = true := by
        rw [newerThan_iff]
        show zeroKey.version < f.version
        have : zeroKey.version = 0 := rfl
        omega
      rw [if_pos hnz]
      have e3 : ffind (fput m.files (keyFor f)
          { file := br.file, usage := br.usage + 1, global := br.global }) (keyFor f)
          = some { file := br.file, usage := br.usage + 1, global := br.global } := by
        rw [ffind_fput, if_pos rfl]
      rw [e3]
      simp only [Option.getD_some]
      rw [fput_fput]
      have hRu' : ({ file := br.file, usage := br.usage + 1, global := true }
          : FileRecord).usage = refCount m (keyFor f) + 1 := by
        show br.usage + 1 = refCount m (keyFor f) + 1
        omega
      have hRk' : keyFor ({ file := br.file, usage := br.usage + 1, global := true }
          : FileRecord).file = keyFor f := (hInv.recKey (keyFor f, br) (ffind_mem hf)).1
      obtain ⟨T1, _, _, _, _, T6, T7⟩ := filesShape1 m f
        ({ file := br.file, usage := br.usage + 1, global := true }) hInv hv hRu' hRk'
        (fun r0 h0' => by rw [hf] at h0'; cases h0'; rfl)
        (fun h0' => by rw [hf] at h0'; exact Option.noConfusion h0')
      rw [hf] at T6
      exact ⟨updateOne_caseNew m cid rem f _ hrem hInv hv habs hRu' hRk'
          (fun r0 h0' => by rw [hf] at h0'; cases h0'; rfl)
          (fun h0' => by rw [hf] at h0'; exact Option.noConfusion h0') hg,
        Function.update_same _ _ _, T1, T6, fun k hk => T7 k (hknef k hk)⟩
    · dsimp only
      by_cases hfk : keyFor f = gk
      · rw [if_pos hfk]
        exact ⟨updateOne_caseEq m cid rem f _ gk hrem hInv hv habs hRu hRk hRf0 hRfn hg hfk,
          Function.update_same _ _ _, S1, S6, fun k hk => S7 k (hknef k hk)⟩
      · rw [if_neg hfk]
        by_cases hnew : (keyFor f).newerThan gk = true
        · rw [if_pos hnew]
          have hgkne : gk ≠ keyFor f := fun hc => hfk hc.symm
          obtain ⟨⟨i0g, hh0g⟩, _, _⟩ := hInv.gkOK (f.name, gk) (ffind_mem hg)
          have hh0g' : ffind ((m.remoteKey i0g).getD []) f.name = some gk := hh0g
          have hdg := hInv.noDangling i0g (f.name, gk) (ffind_mem hh0g')
          rcases hrgk : ffind m.files gk with _ | rgk
          · rw [hrgk] at hdg
            simp at hdg
          · have e1 : ffind (fput m.files (keyFor f)
                { file := br.file, usage := br.usage + 1, global := br.global }) gk
                = some rgk := by
              rw [ffind_fput, if_neg hfk]
              exact hrgk
            rw [e1]
            simp only [Option.getD_some]
            have e2 : ffind (fput (fput m.files (keyFor f)
                { file := br.file, usage := br.usage + 1, global := br.global }) gk
                { file := rgk.file, usage := rgk.usage, global := false }) (keyFor f)
                = some { file := br.file, usage := br.usage + 1, global := br.global } := by
              rw [ffind_fput, if_neg hgkne, ffind_fput, if_pos rfl]
            rw [e2]
            simp only [Option.getD_some]
            have hnewlt : gk.version < f.version := (newerThan_iff (keyFor f) gk).mp hnew
            have hRu2 : ({ file := br.file, usage := br.usage + 1, global := true }
                : FileRecord).usage = refCount m (keyFor f) + 1 := by
              show br.usage + 1 = refCount m (keyFor f) + 1
              omega
            have hRk2 : keyFor ({ file := br.file, usage := br.usage + 1, global := true }
                : FileRecord).file = keyFor f := (hInv.recKey (keyFor f, br) (ffind_mem hf)).1
            obtain ⟨U1, _, _, _, _, U6, U7⟩ := filesShape2 m f
              ({ file := br.file, usage := br.usage + 1, global := br.global })
              ({ file := br.file, usage := br.usage + 1, global := true })
              ({ file := rgk.file, usage := rgk.usage, global := false }) gk rgk hInv hv
              hgkne hrgk rfl rfl hRu2 hRk2
              (fun r0 h0' => by rw [hf] at h0'; cases h0'; rfl)
              (fun h0' => by rw [hf] at h0'; exact Option.noConfusion h0') _ rfl
            rw [hf] at U6
            have hgkname : gk.name = f.name :=
              (hInv.entryName i0g (f.name, gk) (ffind_mem hh0g')).1
            exact ⟨updateOne_caseNewer m cid rem f _ _ _ gk rgk hrem hInv hv habs hgkne
                hrgk rfl rfl hRu2 hRk2
                (fun r0 h0' => by rw [hf] at h0'; cases h0'; rfl)
                (fun h0' => by rw [hf] at h0'; exact Option.noConfusion h0') hg hnewlt,
              Function.update_same _ _ _, U1, U6,
              fun k hk => U7 k (hknef k hk) (fun hc => hk (hc ▸ hgkname))⟩
        · rw [if_neg hnew]
          have hold : f.version ≤ gk.version := by
            have := (newerThan_iff (keyFor f) gk).not.mp (by simpa using hnew)
            have h2 : ¬ (gk.version < f.version) := this
            omega
          exact ⟨updateOne_caseOld m cid rem f _ gk hrem hInv hv habs hRu hRk hRf0 hRfn
              hg hfk hold,
            Function.update_same _ _ _, S1, S6, fun k hk => S7 k (hknef k hk)⟩

/-- Folding the non-skipped `update` iteration over a list of files whose
names are pairwise distinct and absent from the peer's current map
preserves the invariant, appends the corresponding keys to the peer's map
in order, keeps every stored file body, stores a record for every pushed
file, and leaves records at unrelated names untouched. -/
theorem update_fold (cid : Fin 64) :
    ∀ (fs : List File) (m : FSet) (rem : List (String × Key)),
      m.remoteKey cid = some rem → Inv m →
      (∀ f ∈ fs, 1 ≤ f.version) →
      (fs.map File.name).Nodup →
      (∀ f ∈ fs, ffind rem f.name = none) →
      Inv (fs.foldl (updateOne cid) m) ∧
      (fs.foldl (updateOne cid) m).remoteKey cid
        = some (rem ++ fs.map (fun f => (f.name, keyFor f))) ∧
      (∀ k r0, ffind m.files k = some r0 →
          ∃ r', ffind (fs.foldl (updateOne cid) m).files k = some r' ∧
            r'.file = r0.file) ∧
      (∀ f ∈ fs, ∃ r, ffind (fs.foldl (updateOne cid) m).files (keyFor f) = some r ∧
          (r.file = f ∨ ∃ r0, ffind m.files (keyFor f) = some r0 ∧ r.file = r0.file)) ∧
      (∀ k : Key, (∀ f ∈ fs, k.name ≠ f.name) →
          ffind (fs.foldl (updateOne cid) m).files k = ffind m.files k) := by
  intro fs
  induction fs with
  | nil =>
    intro m rem hrem hInv _ _ _
    refine ⟨hInv, by simpa using hrem, fun k r0 h0 => ⟨r0, h0, rfl⟩, ?_, fun k _ => rfl⟩
    intro f hf
    exact absurd hf (List.not_mem_nil f)
  | cons f t ih =>
    intro m rem hrem hInv hv hnd habs
    obtain ⟨W1, W2, W3, W4, W5⟩ := updateOne_step cid m f rem hrem hInv
      (hv f (List.mem_cons_self f t)) (habs f (List.mem_cons_self f t))
    have hfn : f.name ∉ t.map File.name := (List.nodup_cons.mp (by simpa using hnd)).1
    have hgne : ∀ g ∈ t, g.name ≠ f.name := by
      intro g hg hc
      exact hfn (hc ▸ List.mem_map_of_mem File.name hg)
    have habst : ∀ g ∈ t, ffind (fput rem f.name (keyFor f)) g.name = none := by
      intro g hg
      rw [ffind_fput, if_neg (fun hc => hgne g hg hc.symm)]
      exact habs g (List.mem_cons_of_mem f hg)
    obtain ⟨I1, I2, I3, I4, I5⟩ := ih (updateOne cid m f) (fput rem f.name (keyFor f))
      W2 W1 (fun g hg => hv g (List.mem_cons_of_mem f hg))
      (List.nodup_cons.mp (by simpa using hnd)).2 habst
    have hnotmem : f.name ∉ rem.map Prod.fst :=
      ffind_eq_none_iff.mp (habs f (List.mem_cons_self f t))
    refine ⟨I1, ?_, ?_, ?_, ?_⟩
    · show (t.foldl (updateOne cid) (updateOne cid m f)).remoteKey cid = _
      rw [I2, fput_append_of_not_mem (keyFor f) hnotmem, List.append_assoc]
      rfl
    · intro k r0 h0
      obtain ⟨r1, hr1, hr1f⟩ := W3 k r0 h0
      obtain ⟨r', hr', hr'f⟩ := I3 k r1 hr1
      exact ⟨r', hr', hr'f.trans hr1f⟩
    · intro g hg
      rcases List.mem_cons.mp hg with hgf | hgt
      · subst hgf
        obtain ⟨r, hr, hrc⟩ := W4
        obtain ⟨r', hr', hr'f⟩ := I3 (keyFor g) r hr
        refine ⟨r', hr', ?_⟩
        rcases hrc with h1 | ⟨r0, h0, h0f⟩
        · exact Or.inl (hr'f.trans h1)
        · exact Or.inr ⟨r0, h0, hr'f.trans h0f⟩
      · obtain ⟨r, hr, hrc⟩ := I4 g hgt
        refine ⟨r, hr, ?_⟩
        rcases hrc with h1 | ⟨r0, h0, h0f⟩
        · exact Or.inl h1
        · rw [W5 (keyFor g) (hgne g hgt)] at h0
          exact Or.inr ⟨r0, h0, h0f⟩
    · intro k hk
      have h1 : ffind (t.foldl (updateOne cid) (updateOne cid m f)).files k
          = ffind (updateOne cid m f).files k :=
        I5 k (fun g hg => hk g (List.mem_cons_of_mem f hg))
      exact h1.trans (W5 k (hk f (List.mem_cons_self f t)))

/-- One tombstone step on an entry whose name is in the new list is a
no-op. -/
theorem tombstoneStep_skip (m : FSet) (nf : List String) (acc : List File × Clock)
    (p : String × Key) (h : p.2.name ∈ nf) : tombstoneStep m nf acc p = acc := by
  unfold tombstoneStep
  rw [if_pos h]

/-- One tombstone step on a name absent from the new list whose record is
not yet deleted appends the tombstoned file with a ticked version. -/
theorem tombstoneStep_tomb (m : FSet) (nf : List String) (fs : List File) (c : Clock)
    (p : String × Key) (r : FileRecord) (h : p.2.name ∉ nf)
    (hr : ffind m.files p.2 = some r) (hdel : ¬ IsDeleted r.file.flags) :
    tombstoneStep m nf (fs, c) p =
      (fs ++ [{ r.file with
                 flags := r.file.flags ||| FlagDeleted
                 blocks := []
                 size := 0
                 version := max c.v r.file.version + 1 }],
       ⟨max c.v r.file.version + 1⟩) := by
  unfold tombstoneStep
  rw [if_neg h, hr]
  simp only [Option.getD_some]
  rw [if_pos hdel]
  rfl

/-- One tombstone step on a name absent from the new list whose record is
already deleted appends the stored file unchanged. -/
theorem tombstoneStep_dead (m : FSet) (nf : List String) (fs : List File) (c : Clock)
    (p : String × Key) (r : FileRecord) (h : p.2.name ∉ nf)
    (hr : ffind m.files p.2 = some r) (hdel : IsDeleted r.file.flags) :
    tombstoneStep m nf (fs, c) p = (fs ++ [r.file], c) := by
  unfold tombstoneStep
  rw [if_neg h, hr]
  simp only [Option.getD_some]
  rw [if_neg (by simpa using hdel)]

/-- Unfolding one entry of the tombstone loop. -/
theorem tombstoneFold_cons (m : FSet) (nf : List String) (p : String × Key)
    (t : List (String × Key)) (fs : List File) (c : Clock) :
    tombstoneFold m nf (p :: t) fs c
      = tombstoneFold m nf t (tombstoneStep m nf (fs, c) p).1
          (tombstoneStep m nf (fs, c) p).2 := rfl

/-- The tombstone loop, run on entries that name live records with matching
keys (as the local peer's map does under the invariant), keeps the
name-distinctness and version-positivity of the list it extends. -/
theorem tombstoneFold_facts (m : FSet) (nf : List String) :
    ∀ (entries : List (String × Key)) (fs : List File) (c : Clock),
      (entries.map Prod.fst).Nodup →
      (∀ p ∈ entries, p.2.name = p.1 ∧ 1 ≤ p.2.version ∧
        ∃ r, ffind m.files p.2 = some r ∧ keyFor r.file = p.2) →
      (fs.map File.name).Nodup →
      (∀ f ∈ fs, 1 ≤ f.version) →
      (∀ f ∈ fs, f.name ∈ nf ∨ f.name ∉ entries.map Prod.fst) →
      ((tombstoneFold m nf entries fs c).1.map File.name).Nodup ∧
      (∀ f ∈ (tombstoneFold m nf entries fs c).1, 1 ≤ f.version) := by
  intro entries
  induction entries with
  | nil => exact fun fs c _ _ h3 h4 _ => ⟨h3, h4⟩
  | cons p t ih =>
    intro fs c hnd hgood h3 h4 h5
    obtain ⟨hpn, hpv, r, hr, hrk⟩ := hgood p (List.mem_cons_self p t)
    have hcfn : r.file.name = p.1 := by
      have : (keyFor r.file).name = p.2.name := congrArg Key.name hrk
      exact this.trans hpn
    have hcfv : r.file.version = p.2.version := congrArg Key.version hrk
    have hndt : (t.map Prod.fst).Nodup := (List.nodup_cons.mp (by simpa using hnd)).2
    have hp1t : p.1 ∉ t.map Prod.fst := (List.nodup_cons.mp (by simpa using hnd)).1
    have hgoodt : ∀ q ∈ t, q.2.name = q.1 ∧ 1 ≤ q.2.version ∧
        ∃ r0, ffind m.files q.2 = some r0 ∧ keyFor r0.file = q.2 :=
      fun q hq => hgood q (List.mem_cons_of_mem p hq)
    rw [tombstoneFold_cons]
    by_cases hskip : p.2.name ∈ nf
    · rw [tombstoneStep_skip m nf (fs, c) p hskip]
      refine ih fs c hndt hgoodt h3 h4 ?_
      intro f hf
      rcases h5 f hf with h | h
      · exact Or.inl h
      · exact Or.inr fun hc => h (List.mem_cons_of_mem _ hc)
    · have hfresh : ∀ f ∈ fs, f.name ≠ p.1 := by
        intro f hf hc
        rcases h5 f hf with h | h
        · rw [hc, ← hpn] at h
          exact hskip h
        · exact h (hc ▸ List.mem_cons_self p.1 (t.map Prod.fst))
      have hnd1 : ∀ (g : File), g.name = p.1 → ((fs ++ [g]).map File.name).Nodup := by
        intro g hg
        rw [List.map_append]
        refine List.Nodup.append h3 (by simp) ?_
        intro n hn hn2
        simp only [List.map_cons, List.map_nil, List.mem_singleton] at hn2
        obtain ⟨f, hf, hfn⟩ := List.mem_map.mp hn
        exact hfresh f hf (by rw [hfn, hn2, hg])
      have h5' : ∀ (g : File), g.name = p.1 → ∀ f ∈ fs ++ [g],
          f.name ∈ nf ∨ f.name ∉ t.map Prod.fst := by
        intro g hg f hf
        rcases List.mem_append.mp hf with h | h
        · rcases h5 f h with h' | h'
          · exact Or.inl h'
          · exact Or.inr fun hc => h' (List.mem_cons_of_mem _ hc)
        · rw [List.mem_singleton.mp h, hg]
          exact Or.inr hp1t
      by_cases hdel : IsDeleted r.file.flags
      · rw [tombstoneStep_dead m nf fs c p r hskip hr hdel]
        refine ih _ _ hndt hgoodt (hnd1 r.file hcfn) ?_ (h5' r.file hcfn)
        intro f hf
        rcases List.mem_append.mp hf with h | h
        · exact h4 f h
        · rw [List.mem_singleton.mp h]
          rw [hcfv]
          exact hpv
      · rw [tombstoneStep_tomb m nf fs c p r hskip hr hdel]
        refine ih _ _ hndt hgoodt (hnd1 _ hcfn) ?_ (h5' _ hcfn)
        intro f hf
        rcases List.mem_append.mp hf with h | h
        · exact h4 f h
        · rw [List.mem_singleton.mp h]
          exact Nat.succ_le_succ (Nat.zero_le _)

/-- The invariant does not mention the change counters, so bumping one
preserves it. -/
theorem Inv_changes (m : FSet) (ch : Fin 64 → Nat) (hInv : Inv m) :
    Inv { m with changes := ch } :=
  ⟨hInv.nodupRem, hInv.entryName, hInv.nodupFiles, hInv.nodupGK, hInv.nodupAv,
   hInv.recKey, hInv.usageEq, hInv.noDangling, hInv.gkComplete, hInv.gkOK⟩

/-- The internal `replace` (steps 1-4) preserves the invariant, installs
exactly the new list as the peer's map, and stores a record for every
file of the list. -/
theorem replaceInternal_inv (cid : Fin 64) (m : FSet) (fs : List File)
    (hInv : Inv m) (hv : ∀ f ∈ fs, 1 ≤ f.version)
    (hnd : (fs.map File.name).Nodup) :
    Inv (replaceInternal cid m fs) ∧
    (replaceInternal cid m fs).remoteKey cid
      = some (fs.map (fun f => (f.name, keyFor f))) ∧
    (∀ f ∈ fs, ∃ r, ffind (replaceInternal cid m fs).files (keyFor f) = some r ∧
        (r.file = f ∨ ∃ r0, ffind m.files (keyFor f) = some r0 ∧ r.file = r0.file)) := by
  obtain ⟨P1, P2, P3⟩ := replacePrep_inv cid m hInv
  obtain ⟨F1, F2, F3, F4, _⟩ := update_fold cid fs (replacePrep cid m) [] P2 P1 hv hnd
    (fun f _ => rfl)
  refine ⟨F1, by simpa using F2, ?_⟩
  intro f hf
  obtain ⟨r, hr, hrc⟩ := F4 f hf
  refine ⟨r, hr, ?_⟩
  rcases hrc with h1 | ⟨r0, h0, h0f⟩
  · exact Or.inl h1
  · obtain ⟨r1, hr1, hr1f⟩ := P3 (keyFor f) r0 h0
    exact Or.inr ⟨r1, hr1, h0f.trans hr1f⟩

/-- `Set.Replace` preserves the invariant (for a list with pairwise
distinct names and positive versions). -/
theorem Replace_inv (id : Fin 64) (m : FSet) (fs : List File)
    (hInv : Inv m) (hv : ∀ f ∈ fs, 1 ≤ f.version)
    (hnd : (fs.map File.name).Nodup) :
    Inv (Replace id m fs) := by
  unfold Replace
  dsimp only
  split
  · exact (replaceInternal_inv id _ fs (Inv_changes m _ hInv) hv hnd).1
  · exact hInv

/-- `Set.ReplaceWithDelete` preserves the invariant (for a list with
pairwise distinct names and positive versions): the synthesised
tombstones have fresh names and ticked (hence positive) versions, so the
internal replace's preconditions hold. -/
theorem ReplaceWithDelete_inv (id : Fin 64) (m : FSet) (fs : List File) (c : Clock)
    (hInv : Inv m) (hv : ∀ f ∈ fs, 1 ≤ f.version)
    (hnd : (fs.map File.name).Nodup) :
    Inv (ReplaceWithDelete id m fs c).1 := by
  unfold ReplaceWithDelete
  dsimp only
  split
  · have hInv1 : Inv { m with changes := Function.update m.changes id (m.changes id + 1) } :=
      Inv_changes m _ hInv
    obtain ⟨T1, T2⟩ := tombstoneFold_facts
      { m with changes := Function.update m.changes id (m.changes id + 1) }
      (fs.map File.name) ((m.remoteKey LocalID).getD []) fs c
      (hInv.nodupRem LocalID)
      (by
        intro p hp
        obtain ⟨h1, h2⟩ := hInv.entryName LocalID p hp
        have hd := hInv.noDangling LocalID p hp
        rcases hrr : ffind m.files p.2 with _ | r
        · rw [hrr] at hd
          simp at hd
        · exact ⟨h1, h2, r, rfl, (hInv.recKey (p.2, r) (ffind_mem hrr)).1⟩)
      hnd hv
      (fun f hf => Or.inl (List.mem_map_of_mem File.name hf))
    exact (replaceInternal_inv id _ _ hInv1 T2 T1).1
  · exact hInv

/-- Under the invariant every peer entry's value carries its binding name,
so counting peers that hold `k` as a value equals counting peers whose
map binds `k.name` to `k`. -/
theorem valCount_eq_refCount (m : FSet) (hInv : Inv m) (k : Key) :
    valCount m k = refCount m k := by
  unfold valCount refCount
  refine Finset.sum_congr rfl ?_
  intro i _
  have hiff : peerHasVal m i k ↔ refsAt m i k := by
    constructor
    · rintro ⟨q, hq, hqk⟩
      have hqn := (hInv.entryName i q hq).1
      show ffind ((m.remoteKey i).getD []) k.name = some k
      rw [← hqk, hqn]
      exact ffind_of_mem_nodup (hInv.nodupRem i) hq
    · intro h
      have h' : ffind ((m.remoteKey i).getD []) k.name = some k := h
      exact ⟨(k.name, k), ffind_mem h', rfl⟩
  by_cases h : peerHasVal m i k
  · rw [if_pos h, if_pos (hiff.mp h)]
  · rw [if_neg h, if_neg (fun hc => h (hiff.mpr hc))]

/-- The invariant implies both the usage-counting claim (C1) and the
global-view claim (C2) as stated. -/
theorem claims_of_Inv (m : FSet) (hInv : Inv m) : UsageClaim m ∧ GlobalClaim m := by
  refine ⟨⟨?_, hInv.noDangling⟩, ?_⟩
  · intro p hp
    rw [valCount_eq_refCount m hInv]
    exact hInv.usageEq p hp
  · intro i p hp
    have hc := hInv.gkComplete i p hp
    rcases hgk : ffind m.globalKey p.1 with _ | gk
    · rw [hgk] at hc
      simp at hc
    · unfold GlobalOKAt
      rw [hgk]
      exact hInv.gkOK (p.1, gk) (ffind_mem hgk)

/-- `Set.Update` preserves the invariant when every updated name is new to
the peer's map (it is exactly an overwrite of an existing name with a
changed key that orphans the old record). -/
theorem Update_inv (id : Fin 64) (m : FSet) (fs : List File) (m' : FSet)
    (hInv : Inv m) (hv : ∀ f ∈ fs, 1 ≤ f.version)
    (hnd : (fs.map File.name).Nodup)
    (habs : ∀ f ∈ fs, ffind ((m.remoteKey id).getD []) f.name = none)
    (hup : Update id m fs = some m') : Inv m' := by
  unfold Update updateInternal at hup
  rcases hrem : m.remoteKey id with _ | rem
  · rw [hrem] at hup
    exact Option.noConfusion hup
  · rw [hrem] at hup
    simp only [Option.some.injEq] at hup
    subst hup
    have habs' : ∀ f ∈ fs, ffind rem f.name = none := by
      intro f hf
      have := habs f hf
      rw [hrem] at this
      exact this
    exact Inv_changes _ _ (update_fold id fs m rem hrem hInv hv hnd habs').1

/-- Membership in the `Need` fold: a file is collected exactly when some
scanned record passes all three checks. -/
theorem mem_need_fold (m : FSet) (id : Fin 64) :
    ∀ (l : List (Key × FileRecord)) (acc : List File) (f : File),
      f ∈ l.foldl
        (fun fs p =>
          let gk := p.1
          let gf := p.2
          if ¬ gf.global ∨ gf.file.suppressed then fs
          else
            let rkOpt := ffind ((m.remoteKey id).getD []) gk.name
            let rk := rkOpt.getD zeroKey
            if gk.newerThan rk then
              if IsDeleted gf.file.flags ∧
                  (rkOpt = none ∨ IsDeleted ((ffind m.files rk).getD zeroRecord).file.flags)
              then fs
              else fs ++ [gf.file]
            else fs) acc
      ↔ f ∈ acc ∨ ∃ p ∈ l, needCond m id p ∧ p.2.file = f := by
  intro l
  induction l with
  | nil =>
    intro acc f
    simp
  | cons p t ih =>
    intro acc f
    simp only [List.foldl_cons]
    by_cases h1 : ¬ p.2.global ∨ p.2.file.suppressed
    · rw [if_pos h1]
      rw [ih acc f]
      constructor
      · rintro (h | ⟨q, hq, hc, hf⟩)
        · exact Or.inl h
        · exact Or.inr ⟨q, List.mem_cons_of_mem p hq, hc, hf⟩
      · rintro (h | ⟨q, hq, hc, hf⟩)
        · exact Or.inl h
        · rcases List.mem_cons.mp hq with rfl | hq'
          · exact absurd h1 hc.1
          · exact Or.inr ⟨q, hq', hc, hf⟩
    · rw [if_neg h1]
      by_cases h2 : p.1.newerThan
          ((ffind ((m.remoteKey id).getD []) p.1.name).getD zeroKey) = true
      · rw [if_pos h2]
        by_cases h3 : IsDeleted p.2.file.flags ∧
            (ffind ((m.remoteKey id).getD []) p.1.name = none ∨
             IsDeleted ((ffind m.files
               ((ffind ((m.remoteKey id).getD []) p.1.name).getD zeroKey)).getD
               zeroRecord).file.flags)
        · rw [if_pos h3]
          rw [ih acc f]
          constructor
          · rintro (h | ⟨q, hq, hc, hf⟩)
            · exact Or.inl h
            · exact Or.inr ⟨q, List.mem_cons_of_mem p hq, hc, hf⟩
          · rintro (h | ⟨q, hq, hc, hf⟩)
            · exact Or.inl h
            · rcases List.mem_cons.mp hq with rfl | hq'
              · exact absurd h3 hc.2.2
              · exact Or.inr ⟨q, hq', hc, hf⟩
        · rw [if_neg h3]
          rw [ih (acc ++ [p.2.file]) f]
          constructor
          · rintro (h | ⟨q, hq, hc, hf⟩)
            · rcases List.mem_append.mp h with h' | h'
              · exact Or.inl h'
              · exact Or.inr ⟨p, List.mem_cons_self p t,
                  ⟨h1, h2, h3⟩, (List.mem_singleton.mp h').symm⟩
            · exact Or.inr ⟨q, List.mem_cons_of_mem p hq, hc, hf⟩
          · rintro (h | ⟨q, hq, hc, hf⟩)
            · exact Or.inl (List.mem_append.mpr (Or.inl h))
            · rcases List.mem_cons.mp hq with rfl | hq'
              · exact Or.inl (List.mem_append.mpr (Or.inr
                  (List.mem_singleton.mpr hf.symm)))
              · exact Or.inr ⟨q, hq', hc, hf⟩
      · rw [if_neg h2]
        rw [ih acc f]
        constructor
        · rintro (h | ⟨q, hq, hc, hf⟩)
          · exact Or.inl h
          · exact Or.inr ⟨q, List.mem_cons_of_mem p hq, hc, hf⟩
        · rintro (h | ⟨q, hq, hc, hf⟩)
          · exact Or.inl h
          · rcases List.mem_cons.mp hq with rfl | hq'
            · exact absurd hc.2.1 h2
            · exact Or.inr ⟨q, hq', hc, hf⟩

/-- Membership in `Need`. -/
theorem mem_Need (m : FSet) (id : Fin 64) (f : File) :
    f ∈ Need m id ↔ ∃ p ∈ m.files, needCond m id p ∧ p.2.file = f := by
  unfold Need
  refine (mem_need_fold m id m.files [] f).trans ?_
  simp

/-- Two entries of the unique-record table with the same key are the same
entry. -/
theorem files_entry_unique (m : FSet) (hInv : Inv m) {p q : Key × FileRecord}
    (hp : p ∈ m.files) (hq : q ∈ m.files) (h : p.1 = q.1) : p = q := by
  have h1 := ffind_of_mem_nodup hInv.nodupFiles hp
  have h2 := ffind_of_mem_nodup hInv.nodupFiles hq
  rw [h, h2] at h1
  exact Prod.ext h (Option.some.inj h1).symm

/-- The code's newer-than-the-peer check (absent entries read as the zero
key) agrees with the spec's reading (absence counts as older) for keys
with positive version. -/
theorem newer_bridge (o : Option Key) (k : Key) (hv : 1 ≤ k.version) :
    (k.newerThan (o.getD zeroKey) = true) ↔
    (match o with | none => True | some rk => rk.version < k.version) := by
  cases o with
  | none =>
    constructor
    · intro _
      exact trivial
    · intro _
      rw [newerThan_iff]
      show zeroKey.version < k.version
      have h0 : zeroKey.version = 0 := rfl
      omega
  | some rk =>
    rw [Option.getD_some, newerThan_iff]

/-- `Replace` is the identity when the list is non-empty and `equals`
accepts it. -/
theorem Replace_noop (id : Fin 64) (m : FSet) (fs : List File)
    (h : ¬ (fs.length = 0 ∨ ¬ equalsGo m id fs)) : Replace id m fs = m := by
  unfold Replace
  rw [if_neg h]

/-- When the peer's map is exactly the key list of `fs` and every
referenced record is live (matching name, not deleted), `equals` accepts
any list with the same name/key sequence. -/
theorem equalsGo_true (m2 : FSet) (id : Fin 64) (fs fs2 : List File)
    (hrem : m2.remoteKey id = some (fs.map (fun f => (f.name, keyFor f))))
    (hnd : (fs.map File.name).Nodup)
    (hrec : ∀ f ∈ fs, ∃ r, ffind m2.files (keyFor f) = some r ∧
        r.file.name = f.name ∧ ¬ IsDeleted r.file.flags)
    (hlen : fs2.length = fs.length)
    (hmem : ∀ f2 ∈ fs2, (f2.name, keyFor f2) ∈ fs.map (fun f => (f.name, keyFor f))) :
    equalsGo m2 id fs2 = true := by
  have hcur : ∀ (fsl : List File) (acc : List (String × Key)),
      (∀ f ∈ fsl, ∃ r, ffind m2.files (keyFor f) = some r ∧
          r.file.name = f.name ∧ ¬ IsDeleted r.file.flags) →
      (∀ f ∈ fsl, f.name ∉ acc.map Prod.fst) →
      (fsl.map File.name).Nodup →
      (fsl.map (fun f => (f.name, keyFor f))).foldl
        (fun acc (p : String × Key) =>
          let f := ((ffind m2.files p.2).getD zeroRecord).file
          if ¬ IsDeleted f.flags then fput acc f.name p.2 else acc) acc
      = acc ++ fsl.map (fun f => (f.name, keyFor f)) := by
    intro fsl
    induction fsl with
    | nil =>
      intro acc _ _ _
      simp
    | cons f t ihf =>
      intro acc hrec1 hfr hnd1
      obtain ⟨r, hrr, hrn, hrd⟩ := hrec1 f (List.mem_cons_self f t)
      simp only [List.map_cons, List.foldl_cons]
      have hstep : (let g := ((ffind m2.files (f.name, keyFor f).2).getD zeroRecord).file
          if ¬ IsDeleted g.flags then fput acc g.name (f.name, keyFor f).2 else acc)
          = acc ++ [(f.name, keyFor f)] := by
        show (let g := ((ffind m2.files (keyFor f)).getD zeroRecord).file
          if ¬ IsDeleted g.flags then fput acc g.name (keyFor f) else acc)
          = acc ++ [(f.name, keyFor f)]
        rw [hrr]
        simp only [Option.getD_some]
        rw [if_pos (by simpa using hrd), hrn]
        exact fput_append_of_not_mem (keyFor f) (hfr f (List.mem_cons_self f t))
      rw [hstep]
      have hfrt : ∀ g ∈ t, g.name ∉ (acc ++ [(f.name, keyFor f)]).map Prod.fst := by
        intro g hg hc
        rw [List.map_append] at hc
        rcases List.mem_append.mp hc with h | h
        · exact hfr g (List.mem_cons_of_mem f hg) h
        · simp only [List.map_cons, List.map_nil, List.mem_singleton] at h
          have hfn2 : f.name ∉ t.map File.name :=
            (List.nodup_cons.mp (by simpa using hnd1)).1
          exact hfn2 (h ▸ List.mem_map_of_mem File.name hg)
      rw [ihf (acc ++ [(f.name, keyFor f)])
        (fun g hg => hrec1 g (List.mem_cons_of_mem f hg)) hfrt
        (List.nodup_cons.mp (by simpa using hnd1)).2]
      rw [List.append_assoc]
      rfl
  unfold equalsGo
  rw [hrem]
  simp only [Option.getD_some]
  have hC : List.foldl
      (fun acc (p : String × Key) =>
        if ¬ IsDeleted ((ffind m2.files p.2).getD zeroRecord).file.flags = true then
          fput acc ((ffind m2.files p.2).getD zeroRecord).file.name p.2
        else acc)
      [] (fs.map (fun f => (f.name, keyFor f)))
      = fs.map (fun f => (f.name, keyFor f)) := by
    have h0 := hcur fs [] hrec (by simp) hnd
    exact h0.trans (List.nil_append _)
  simp only [hC]
  have hlc : ¬ ((fs.map (fun f => (f.name, keyFor f))).length ≠ fs2.length) := by
    rw [List.length_map, hlen]
    exact not_not_intro rfl
  rw [if_neg hlc]
  rw [List.all_eq_true]
  intro f2 hf2
  have hfind : ffind (fs.map (fun f => (f.name, keyFor f))) f2.name = some (keyFor f2) := by
    have hnodup : ((fs.map (fun f => (f.name, keyFor f))).map Prod.fst).Nodup := by
      rw [List.map_map]
      exact hnd
    exact ffind_of_mem_nodup hnodup (hmem f2 hf2)
  rw [decide_eq_true_eq, hfind]
  rfl

/-- `equals` only looks at the name/key sequence of its argument, so it
accepts any list with the same names and keys as an accepted one. -/
theorem equalsGo_perm (m : FSet) (id : Fin 64) (fs fs2 : List File)
    (hkeys : fs2.map (fun f => (f.name, keyFor f)) = fs.map (fun f => (f.name, keyFor f)))
    (heq : equalsGo m id fs = true) : equalsGo m id fs2 = true := by
  have hlen2 : fs2.length = fs.length := by
    have := congrArg List.length hkeys
    simpa using this
  unfold equalsGo at heq ⊢
  by_cases hl : (List.foldl
      (fun acc (p : String × Key) =>
        let f := ((ffind m.files p.2).getD zeroRecord).file
        if ¬ IsDeleted f.flags then fput acc f.name p.2 else acc)
      ([] : List (String × Key)) ((m.remoteKey id).getD [])).length = fs.length
  · rw [if_neg (fun hc => hc (hl.trans hlen2.symm))]
    rw [if_neg (not_not_intro hl)] at heq
    rw [List.all_eq_true] at heq ⊢
    intro f2 hf2
    have hp2 : (f2.name, keyFor f2) ∈ fs.map (fun f => (f.name, keyFor f)) := by
      rw [← hkeys]
      exact List.mem_map_of_mem _ hf2
    obtain ⟨f, hf, hfe⟩ := List.mem_map.mp hp2
    have hfn : f.name = f2.name := congrArg Prod.fst hfe
    have hfk : keyFor f = keyFor f2 := congrArg Prod.snd hfe
    have hv := heq f hf
    rw [decide_eq_true_eq] at hv
    rw [decide_eq_true_eq, ← hfn, ← hfk]
    exact hv
  · rw [if_pos hl] at heq
    exact absurd heq (by simp)

/-- C4, counterexample: `Replace(0, [])` on a fresh set: the list is empty
and `equals` accepts it (the current non-tombstoned view is also empty),
so the claim predicts no increment, but the counter is incremented — the
code mutates when the list is empty OR differs, not when it is non-empty
or differs. -/
theorem c4_change_counterexample :
    ([] : List File).length = 0 ∧ equalsGo NewSet 0 [] = true ∧
    Changes (Replace 0 NewSet []) 0 = Changes NewSet 0 + 1 := by
  refine ⟨rfl, by decide, by decide⟩

/-- C4, amended: `Replace(id, fs)` increments `changes[id]` by one exactly
when `fs` is empty or differs from the current non-tombstoned view per
`equals`, and leaves it unchanged otherwise; consequently a second
`Replace` with a same-keys list (non-empty, pairwise-distinct fresh
names, positive versions, no Deleted flags in the list or in the records
previously stored at its keys) leaves the counter at the first call's
value. -/
theorem c4_change_amended (id : Fin 64) (m : FSet) (fs fs2 : List File) :
    (Changes (Replace id m fs) id
      = if fs.length = 0 ∨ ¬ equalsGo m id fs then Changes m id + 1 else Changes m id) ∧
    (Inv m → (∀ f ∈ fs, 1 ≤ f.version) → (fs.map File.name).Nodup →
     fs.length ≠ 0 →
     (∀ f ∈ fs, ¬ IsDeleted f.flags ∧
        ∀ r0, ffind m.files (keyFor f) = some r0 → ¬ IsDeleted r0.file.flags) →
     fs2.map (fun f => (f.name, keyFor f)) = fs.map (fun f => (f.name, keyFor f)) →
     Changes (Replace id (Replace id m fs) fs2) id = Changes (Replace id m fs) id) := by
  constructor
  · unfold Changes Replace
    dsimp only
    by_cases hcond : fs.length = 0 ∨ ¬ equalsGo m id fs
    · rw [if_pos hcond, if_pos hcond]
      show (replaceInternal id _ fs).changes id = m.changes id + 1
      rw [replaceInternal_changes]
      exact Function.update_same id _ m.changes
    · rw [if_neg hcond, if_neg hcond]
  · intro hInv hv hnd hne hclean hkeys
    have hlen2 : fs2.length = fs.length := by
      have := congrArg List.length hkeys
      simpa using this
    have hne2 : ¬ (fs2.length = 0) := by
      rw [hlen2]
      exact hne
    have heq2 : equalsGo (Replace id m fs) id fs2 = true := by
      unfold Replace
      dsimp only
      split
      · obtain ⟨R1, R2, R3⟩ := replaceInternal_inv id
          { m with changes := Function.update m.changes id (m.changes id + 1) } fs
          (Inv_changes m _ hInv) hv hnd
        refine equalsGo_true _ id fs fs2 R2 hnd ?_ hlen2
          (fun f2 hf2 => by rw [← hkeys]; exact List.mem_map_of_mem _ hf2)
        intro f hf
        obtain ⟨r, hr, hrc⟩ := R3 f hf
        refine ⟨r, hr, ?_, ?_⟩
        · rcases hrc with h1 | ⟨r0, h0, h0f⟩
          · rw [h1]
          · rw [h0f]
            have : keyFor r0.file = keyFor f := (hInv.recKey (keyFor f, r0) (ffind_mem h0)).1
            exact congrArg Key.name this
        · rcases hrc with h1 | ⟨r0, h0, h0f⟩
          · rw [h1]
            exact (hclean f hf).1
          · rw [h0f]
            exact (hclean f hf).2 r0 h0
      · rename_i hcond
        have heq1 : equalsGo m id fs = true := by
          rcases Bool.eq_false_or_eq_true (equalsGo m id fs) with h | h
          · exact h
          · exact absurd (Or.inr (by simp [h])) hcond
        exact equalsGo_perm m id fs fs2 hkeys heq1
    have hnocond : ¬ (fs2.length = 0 ∨ ¬ equalsGo (Replace id m fs) id fs2) := by
      rw [heq2]
      simp [hne2]
    rw [Replace_noop id (Replace id m fs) fs2 hnocond]

/-- C4, witness for the amended theorem: `Replace(0, [a@5])` on a fresh
set increments the counter once, and repeating it with the same list
leaves the counter unchanged. -/
theorem c4_change_amended_witness :
    (Changes (Replace 0 NewSet [fileA5]) 0
      = if ([fileA5].length = 0 ∨ ¬ equalsGo NewSet 0 [fileA5]) then
          Changes NewSet 0 + 1 else Changes NewSet 0) ∧
    Changes (Replace 0 (Replace 0 NewSet [fileA5]) [fileA5]) 0
      = Changes (Replace 0 NewSet [fileA5]) 0 :=
  ⟨(c4_change_amended 0 NewSet [fileA5] [fileA5]).1,
   (c4_change_amended 0 NewSet [fileA5] [fileA5]).2 (by decide) (by decide)
     (by decide) (by decide) (by decide) rfl⟩

/-- C5: on an invariant state, `Need(peer)` contains exactly the files of
records marked global and not suppressed whose key is strictly newer than
the key the peer holds for that name (absence counting as older),
excluding Deleted globals the peer does not need; and when the peer's
entry for a record's name equals that record's key, the record's file is
not in `Need(peer)`. -/
theorem c5_need_semantics (m : FSet) (id : Fin 64) (hInv : Inv m) :
    (∀ f, f ∈ Need m id ↔ NeedSpec m id f) ∧
    (∀ p ∈ m.files, ffind ((m.remoteKey id).getD []) p.1.name = some p.1 →
        p.2.file ∉ Need m id) := by
  have hone : ∀ f, f ∈ Need m id ↔ NeedSpec m id f := by
    intro f
    rw [mem_Need]
    unfold NeedSpec
    constructor
    · rintro ⟨p, hp, ⟨hc1, hc2, hc3⟩, hf⟩
      have hg : p.2.global = true := by
        rcases Bool.eq_false_or_eq_true p.2.global with h | h
        · exact h
        · exact absurd (Or.inl (by simp [h])) hc1
      refine ⟨p, hp, hf, hg, fun hs => hc1 (Or.inr hs), ?_, hc3⟩
      exact (newer_bridge _ p.1 (hInv.recKey p hp).2).mp hc2
    · rintro ⟨p, hp, hf, hg, hs, hnew, hdel⟩
      refine ⟨p, hp, ⟨?_, ?_, hdel⟩, hf⟩
      · rintro (h | h)
        · exact h hg
        · exact hs h
      · exact (newer_bridge _ p.1 (hInv.recKey p hp).2).mpr hnew
  refine ⟨hone, ?_⟩
  intro p hp hheld hmem
  rw [mem_Need] at hmem
  obtain ⟨q, hq, ⟨_, hc2, _⟩, hfq⟩ := hmem
  have hq1 : q.1 = p.1 := by
    have h1 := (hInv.recKey q hq).1
    have h2 := (hInv.recKey p hp).1
    rw [← h1, ← h2, hfq]
  cases files_entry_unique m hInv hq hp hq1
  rw [hheld, Option.getD_some, newerThan_iff] at hc2
  exact absurd hc2 (lt_irrefl _)

/-- C5, witness: the characterization and the equal-key exclusion on the
state after `Replace(0, [a@5])`. -/
theorem c5_need_semantics_witness :
    (fileA5 ∈ Need stA5 1 ↔ NeedSpec stA5 1 fileA5) ∧ fileA5 ∉ Need stA5 0 :=
  ⟨(c5_need_semantics stA5 1 (by decide)).1 fileA5,
   (c5_need_semantics stA5 0 (by decide)).2
     (keyFor fileA5, { file := fileA5, usage := 1, global := true })
     (by decide) (by decide)⟩

/-- One tombstone step never removes a collected file. -/
theorem tombstoneStep_mono (m : FSet) (nf : List String) (acc : List File × Clock)
    (q : String × Key) (f : File) (h : f ∈ acc.1) :
    f ∈ (tombstoneStep m nf acc q).1 := by
  unfold tombstoneStep
  split
  · exact h
  · dsimp only
    split
    · exact List.mem_append.mpr (Or.inl h)
    · exact List.mem_append.mpr (Or.inl h)

/-- The tombstone loop never removes a collected file. -/
theorem tombstoneFold_mono (m : FSet) (nf : List String) :
    ∀ (entries : List (String × Key)) (fs : List File) (c : Clock) (f : File),
      f ∈ fs → f ∈ (tombstoneFold m nf entries fs c).1 := by
  intro entries
  induction entries with
  | nil => exact fun fs c f h => h
  | cons q t ih =>
    intro fs c f h
    rw [tombstoneFold_cons]
    exact ih _ _ f (tombstoneStep_mono m nf (fs, c) q f h)

/-- Every entry of the scanned list whose name is not in the new list
contributes to the tombstone loop's output: its record's file tombstoned
with a ticked version when not yet deleted, unchanged when already
deleted. -/
theorem tombstoneFold_mem (m : FSet) (nf : List String) :
    ∀ (entries : List (String × Key)) (fs : List File) (c : Clock)
      (p : String × Key) (r : FileRecord),
      p ∈ entries → p.2.name ∉ nf → ffind m.files p.2 = some r →
      (¬ IsDeleted r.file.flags →
        ∃ v, r.file.version < v ∧ (∃ c' : Clock, v = (c'.tick r.file.version).1) ∧
          { r.file with
             flags := r.file.flags ||| FlagDeleted
             blocks := []
             size := 0
             version := v } ∈ (tombstoneFold m nf entries fs c).1) ∧
      (IsDeleted r.file.flags → r.file ∈ (tombstoneFold m nf entries fs c).1) := by
  intro entries
  induction entries with
  | nil =>
    intro fs c p r hp
    exact absurd hp (List.not_mem_nil p)
  | cons q t ih =>
    intro fs c p r hp hnin hr
    rcases List.mem_cons.mp hp with rfl | hpt
    · constructor
      · intro hdel
        refine ⟨max c.v r.file.version + 1, by omega, ⟨c, rfl⟩, ?_⟩
        rw [tombstoneFold_cons, tombstoneStep_tomb m nf fs c p r hnin hr hdel]
        exact tombstoneFold_mono m nf t _ _ _
          (List.mem_append.mpr (Or.inr (List.mem_singleton.mpr rfl)))
      · intro hdel
        rw [tombstoneFold_cons, tombstoneStep_dead m nf fs c p r hnin hr hdel]
        exact tombstoneFold_mono m nf t _ _ _
          (List.mem_append.mpr (Or.inr (List.mem_singleton.mpr rfl)))
    · rw [tombstoneFold_cons]
      exact ih _ _ p r hpt hnin hr

/-- C6: when `ReplaceWithDelete(id, fs)` performs its in-memory mutation
it hands the internal replace the tombstone loop's output, and that
output contains, for every entry of the local peer's map whose name is
absent from the new list's name-set: the record's file with the Deleted
flag set, no blocks, zero size and a version obtained by ticking the old
version (hence strictly greater), when the record was not yet deleted;
and the record's file unchanged when it already was. -/
theorem c6_tombstone_synthesis (id : Fin 64) (m : FSet) (fs : List File) (c : Clock)
    (p : String × Key) (r : FileRecord)
    (hp : p ∈ (m.remoteKey LocalID).getD [])
    (hnin : p.2.name ∉ fs.map File.name)
    (hr : ffind m.files p.2 = some r) :
    ((fs.length = 0 ∨ ¬ equalsGo m id fs) →
      (ReplaceWithDelete id m fs c).1
        = replaceInternal id
            { m with changes := Function.update m.changes id (m.changes id + 1) }
            (tombstoneFold m (fs.map File.name)
              ((m.remoteKey LocalID).getD []) fs c).1) ∧
    (¬ IsDeleted r.file.flags →
      ∃ v, r.file.version < v ∧ (∃ c' : Clock, v = (c'.tick r.file.version).1) ∧
        { r.file with
           flags := r.file.flags ||| FlagDeleted
           blocks := []
           size := 0
           version := v }
          ∈ (tombstoneFold m (fs.map File.name)
              ((m.remoteKey LocalID).getD []) fs c).1) ∧
    (IsDeleted r.file.flags →
      r.file ∈ (tombstoneFold m (fs.map File.name)
        ((m.remoteKey LocalID).getD []) fs c).1) := by
  refine ⟨?_, (tombstoneFold_mem m _ _ fs c p r hp hnin hr).1,
    (tombstoneFold_mem m _ _ fs c p r hp hnin hr).2⟩
  intro hcond
  unfold ReplaceWithDelete
  dsimp only
  rw [if_pos hcond]
  rfl

/-- C6, witness: `ReplaceWithDelete(LocalID, [])` after `Replace(LocalID,
[b@3])` synthesises a tombstone for `b`: Deleted flag, empty blocks, zero
size, ticked version strictly above 3. -/
theorem c6_tombstone_synthesis_witness :
    ∃ v, fileB3.version < v ∧ (∃ c' : Clock, v = (c'.tick fileB3.version).1) ∧
      { fileB3 with
         flags := fileB3.flags ||| FlagDeleted
         blocks := []
         size := 0
         version := v }
        ∈ (tombstoneFold stB3 (([] : List File).map File.name)
            ((stB3.remoteKey LocalID).getD []) [] ⟨3⟩).1 :=
  (c6_tombstone_synthesis 0 stB3 [] ⟨3⟩ ("b", keyFor fileB3)
      { file := fileB3, usage := 1, global := true }
      (by decide) (by decide) (by decide)).2.1 (by decide)

/-- C7: `NewNodeID` returns the all-zero NodeID for every certificate
whose digest is 32 bytes — `hf.Sum(n[:])` has no room in the slice, so
the digest goes to a freshly allocated array that is thrown away, and
the zeroed `n` is returned; in particular the result differs from the
digest whenever the digest is not all zero. -/
theorem c7_newNodeID_zero (digest : List Nat) (hlen : digest.length = 32)
    (hne : digest ≠ List.replicate 32 0) :
    NewNodeID digest = List.replicate 32 0 ∧ NewNodeID digest ≠ digest := by
  have h : NewNodeID digest = List.replicate 32 0 := by
    unfold NewNodeID appendEffect
    rw [if_neg (by omega)]
  refine ⟨h, ?_⟩
  rw [h]
  exact fun hc => hne hc.symm

/-- C7, witness: a digest starting with a one byte is returned as all
zeros. -/
theorem c7_newNodeID_zero_witness :
    NewNodeID (1 :: List.replicate 31 0) = List.replicate 32 0 ∧
    NewNodeID (1 :: List.replicate 31 0) ≠ 1 :: List.replicate 31 0 :=
  c7_newNodeID_zero (1 :: List.replicate 31 0) (by decide) (by decide)

/-- Every symbol the encoder can emit is in the alphabet. -/
theorem b32char_mem (v : Nat) : b32char v ∈ b32Alphabet := by
  unfold b32char
  by_cases hv : v < b32Alphabet.length
  · rw [List.getD_eq_getElem b32Alphabet 'A' hv]
    exact List.getElem_mem hv
  · rw [List.getD_eq_default b32Alphabet 'A' (Nat.le_of_not_lt hv)]
    decide

/-- Alphabet symbols are uppercase letters and digits: `ToUpper`, the
separator stripping and the padding trim do not touch them. -/
theorem alpha_toUpper : ∀ ch ∈ b32Alphabet, Char.toUpper ch = ch := by decide

theorem alpha_ne_pad : ∀ ch ∈ b32Alphabet, ch ∉ ['='] := by decide

theorem alpha_ne_dash : ∀ ch ∈ b32Alphabet, ch ≠ '-' := by decide

theorem alpha_ne_space : ∀ ch ∈ b32Alphabet, ch ≠ ' ' := by decide

/-- Shape of the encoding of a `5*k+2`-byte input: `8*k+4` alphabet
symbols and four `=` of padding. -/
theorem b32Encode_shape : ∀ (k : Nat) (bs : List Nat), bs.length = 5 * k + 2 →
    ∃ data : List Char, b32Encode bs = data ++ ['=', '=', '=', '='] ∧
      data.length = 8 * k + 4 ∧ ∀ ch ∈ data, ch ∈ b32Alphabet := by
  intro k
  induction k with
  | zero =>
    intro bs h
    rcases bs with _ | ⟨b0, bs⟩
    · simp at h
    rcases bs with _ | ⟨b1, bs⟩
    · simp at h
    rcases bs with _ | ⟨b2, bs⟩
    · refine ⟨((quintets b0 b1 0 0 0).map b32char).take 4, rfl, rfl, ?_⟩
      intro ch hch
      obtain ⟨v, _, hv⟩ := List.mem_map.mp (List.take_subset 4 _ hch)
      exact hv ▸ b32char_mem v
    · simp at h
  | succ k ih =>
    intro bs h
    rcases bs with _ | ⟨b0, bs⟩
    · simp at h
    rcases bs with _ | ⟨b1, bs⟩
    · simp at h
    rcases bs with _ | ⟨b2, bs⟩
    · simp at h
    rcases bs with _ | ⟨b3, bs⟩
    · simp at h
    rcases bs with _ | ⟨b4, rest⟩
    · simp at h; omega
    have hr : rest.length = 5 * k + 2 := by
      simp at h
      omega
    obtain ⟨data, he, hl, hm⟩ := ih rest hr
    refine ⟨(quintets b0 b1 b2 b3 b4).map b32char ++ data, ?_, ?_, ?_⟩
    · show (quintets b0 b1 b2 b3 b4).map b32char ++ b32Encode rest = _
      rw [he, List.append_assoc]
    · rw [List.length_append, List.length_map, hl]
      show 8 + (8 * k + 4) = _
      omega
    · intro ch hch
      rcases List.mem_append.mp hch with h' | h'
      · obtain ⟨v, _, hv⟩ := List.mem_map.mp h'
        exact hv ▸ b32char_mem v
      · exact hm ch h'

/-- `dropWhile` jumps over a prefix it accepts entirely. -/
theorem dropWhile_append_all (p : Char → Bool) :
    ∀ (xs ys : List Char), (∀ x ∈ xs, p x = true) →
      List.dropWhile p (xs ++ ys) = List.dropWhile p ys := by
  intro xs
  induction xs with
  | nil => exact fun ys _ => rfl
  | cons a t iht =>
    intro ys h
    rw [List.cons_append, List.dropWhile_cons_of_pos (h a (List.mem_cons_self a t))]
    exact iht ys (fun x hx => h x (List.mem_cons_of_mem a hx))

/-- `dropWhile` keeps a list it rejects entirely. -/
theorem dropWhile_all_neg (p : Char → Bool) :
    ∀ (l : List Char), (∀ x ∈ l, ¬ p x = true) → List.dropWhile p l = l := by
  intro l h
  cases l with
  | nil => rfl
  | cons a t => exact List.dropWhile_cons_of_neg (h a (List.mem_cons_self a t))

/-- `strings.Trim` is the identity when no character is in the cutset. -/
theorem goTrim_noop (cutset : List Char) (s : List Char)
    (h : ∀ ch ∈ s, ch ∉ cutset) : goTrim cutset s = s := by
  unfold goTrim
  rw [dropWhile_all_neg _ s (fun x hx => by simpa using h x hx),
      dropWhile_all_neg _ s.reverse
        (fun x hx => by simpa using h x (List.mem_reverse.mp hx)),
      List.reverse_reverse]

/-- `strings.Trim` removes exactly a trailing run of cutset characters
after a nonempty block of others. -/
theorem goTrim_strip (cutset : List Char) (data eqs : List Char)
    (hd : ∀ ch ∈ data, ch ∉ cutset) (he : ∀ ch ∈ eqs, ch ∈ cutset)
    (hne : data ≠ []) : goTrim cutset (data ++ eqs) = data := by
  rcases data with _ | ⟨d0, dt⟩
  · exact absurd rfl hne
  unfold goTrim
  rw [List.cons_append,
      List.dropWhile_cons_of_neg
        (by simpa using hd d0 (List.mem_cons_self d0 dt)),
      ← List.cons_append, List.reverse_append,
      dropWhile_append_all _ _ _
        (fun x hx => by simpa using he x (List.mem_reverse.mp hx)),
      dropWhile_all_neg _ (d0 :: dt).reverse
        (fun x hx => by simpa using hd x (List.mem_reverse.mp hx)),
      List.reverse_reverse]

/-- `strings.ToUpper` is the identity on a string it fixes pointwise. -/
theorem goToUpper_noop (s : List Char) (h : ∀ ch ∈ s, Char.toUpper ch = ch) :
    goToUpper s = s := by
  unfold goToUpper
  rw [List.map_congr_left h]
  exact List.map_id' s

/-- Removing a character absent from the string is the identity. -/
theorem removeChar_noop (c : Char) (s : List Char) (h : ∀ ch ∈ s, ch ≠ c) :
    removeChar c s = s := by
  unfold removeChar
  rw [List.filter_eq_self]
  intro a ha
  simpa using h a ha

/-- Removing `c` ignores a `dropWhile`-stripped run of `c`. -/
theorem filter_dropWhile_single (c : Char) :
    ∀ l : List Char,
      (List.dropWhile (· ∈ [c]) l).filter (· ≠ c) = l.filter (· ≠ c) := by
  intro l
  induction l with
  | nil => rfl
  | cons a t ih =>
    by_cases hac : a = c
    · subst hac
      rw [List.dropWhile_cons_of_pos (by simp), ih,
          List.filter_cons_of_neg (by simp)]
    · rw [List.dropWhile_cons_of_neg (by simpa using hac)]

/-- Removing `c` after trimming `c` from the ends equals removing `c`. -/
theorem removeChar_goTrim (c : Char) (s : List Char) :
    removeChar c (goTrim [c] s) = removeChar c s := by
  unfold removeChar goTrim
  rw [List.filter_reverse, filter_dropWhile_single, List.filter_reverse,
      List.reverse_reverse, filter_dropWhile_single]

/-- Hyphenation only inserts hyphens: removing them recovers the input
(up to its own hyphens). -/
theorem removeChar_hyphenate_aux :
    ∀ (n : Nat) (s : List Char), s.length ≤ n →
      removeChar '-' (hyphenate s) = removeChar '-' s := by
  intro n
  induction n with
  | zero =>
    intro s hle
    unfold hyphenate
    rw [dif_neg (by omega)]
  | succ n ih =>
    intro s hle
    unfold hyphenate
    by_cases h9 : 9 ≤ s.length
    · rw [dif_pos h9]
      unfold removeChar
      rw [List.filter_append, List.filter_cons_of_neg (by simp)]
      have := ih (s.drop 9) (by rw [List.length_drop]; omega)
      unfold removeChar at this
      rw [this, ← List.filter_append, List.take_append_drop]
    · rw [dif_neg h9]

/-- Every character of a hyphenated string is a hyphen or from the
input. -/
theorem hyphenate_chars_aux :
    ∀ (n : Nat) (s : List Char), s.length ≤ n →
      ∀ ch ∈ hyphenate s, ch ∈ s ∨ ch = '-' := by
  intro n
  induction n with
  | zero =>
    intro s hle ch hch
    unfold hyphenate at hch
    rw [dif_neg (by omega)] at hch
    exact Or.inl hch
  | succ n ih =>
    intro s hle ch hch
    unfold hyphenate at hch
    by_cases h9 : 9 ≤ s.length
    · rw [dif_pos h9] at hch
      rcases List.mem_append.mp hch with h | h
      · exact Or.inl (List.take_subset 9 s h)
      · rcases List.mem_cons.mp h with h | h
        · exact Or.inr h
        · rcases ih (s.drop 9) (by rw [List.length_drop]; omega) ch h with h' | h'
          · exact Or.inl (List.drop_subset 9 s h')
          · exact Or.inr h'
    · rw [dif_neg h9] at hch
      exact Or.inl hch

/-- Members survive `dropWhile` membership-wise. -/
theorem mem_of_mem_dropWhile (p : Char → Bool) :
    ∀ (l : List Char) (a : Char), a ∈ List.dropWhile p l → a ∈ l := by
  intro l
  induction l with
  | nil => exact fun a h => h
  | cons x t ih =>
    intro a h
    rw [List.dropWhile_cons] at h
    split at h
    · exact List.mem_cons_of_mem x (ih a h)
    · exact h

/-- Members of a trimmed string come from the string. -/
theorem mem_of_mem_goTrim (cutset : List Char) (s : List Char) (a : Char)
    (h : a ∈ goTrim cutset s) : a ∈ s := by
  unfold goTrim at h
  rw [List.mem_reverse] at h
  have h1 := mem_of_mem_dropWhile _ _ _ h
  rw [List.mem_reverse] at h1
  exact mem_of_mem_dropWhile _ _ _ h1

/-- A padding-free input whose length is not a multiple of eight is a
corrupt-input error for the decoder. -/
theorem b32DecodeGroups_none_aux :
    ∀ (n : Nat) (s : List Char), s.length ≤ n → s.length % 8 ≠ 0 →
      b32DecodeGroups s = none := by
  intro n
  induction n with
  | zero =>
    intro s hle h
    interval_cases hs : s.length
    · exact absurd rfl h
  | succ n ih =>
    intro s hle h
    rcases s with _ | ⟨c0, s⟩
    · exact absurd rfl h
    rcases s with _ | ⟨c1, s⟩
    · rfl
    rcases s with _ | ⟨c2, s⟩
    · rfl
    rcases s with _ | ⟨c3, s⟩
    · rfl
    rcases s with _ | ⟨c4, s⟩
    · rfl
    rcases s with _ | ⟨c5, s⟩
    · rfl
    rcases s with _ | ⟨c6, s⟩
    · rfl
    rcases s with _ | ⟨c7, rest⟩
    · rfl
    show (match [c0, c1, c2, c3, c4, c5, c6, c7].mapM b32val with
      | none => none
      | some vs =>
        match b32DecodeGroups rest with
        | none => none
        | some bs => some (b32bytes vs ++ bs)) = none
    have hrest : b32DecodeGroups rest = none := by
      refine ih rest ?_ ?_
      · simp at hle
        omega
      · simp at h
        omega
    rcases [c0, c1, c2, c3, c4, c5, c6, c7].mapM b32val with _ | vs
    · rfl
    · rw [hrest]

/-- C8: the textual round trip always fails.  `String` produces 54
alphabet characters (52 data + 2 check) in hyphen groups; `UnmarshalText`
strips the separators and feeds the 54 characters to
`base32.StdEncoding.DecodeString`, which requires a padded multiple of
eight symbols — 54 is not one, so decoding errors and `UnmarshalText`
returns that error before ever reaching the length switch. -/
theorem c8_roundtrip_fails (gen : List Char → Char) (n : List Nat)
    (hlen : n.length = 32) (hgen : ∀ s, gen s ∈ b32Alphabet) :
    UnmarshalTextGo gen (NodeIDString gen n) = none := by
  obtain ⟨data, he, hl, hm⟩ := b32Encode_shape 6 n (by omega)
  have hdata_ne : data ≠ [] := by
    intro hc
    rw [hc] at hl
    simp at hl
  have h1 : goTrim ['='] (b32Encode n) = data := by
    rw [he]
    refine goTrim_strip _ data _ (fun ch hch => alpha_ne_pad ch (hm ch hch))
      (fun ch hch => ?_) hdata_ne
    simp at hch
    simp [hch]
  have h2 : goToUpper data = data :=
    goToUpper_noop data (fun ch hch => alpha_toUpper ch (hm ch hch))
  have h3 : removeChar '-' data = data :=
    removeChar_noop '-' data (fun ch hch => alpha_ne_dash ch (hm ch hch))
  have h4 : removeChar ' ' data = data :=
    removeChar_noop ' ' data (fun ch hch => alpha_ne_space ch (hm ch hch))
  have h5 : ¬ (data.length = 54) := by omega
  have hNS : NodeIDString gen n = goTrim ['-'] (hyphenate (data.take 26 ++ gen (data.take 26) :: data.drop 26 ++ [gen (data.drop 26)])) := by
    unfold NodeIDString
    dsimp only
    rw [h1, h2, h3, h4, if_neg h5]
  have hid54c : ∀ ch ∈ (data.take 26 ++ gen (data.take 26) :: data.drop 26 ++ [gen (data.drop 26)]), ch ∈ b32Alphabet := by
    intro ch hch
    rcases List.mem_append.mp hch with h | h
    · rcases List.mem_append.mp h with h' | h'
      · exact hm ch (List.take_subset _ _ h')
      · rcases List.mem_cons.mp h' with rfl | h''
        · exact hgen _
        · exact hm ch (List.drop_subset _ _ h'')
    · rw [List.mem_singleton.mp h]
      exact hgen _
  have hid54l : ((data.take 26 ++ gen (data.take 26) :: data.drop 26 ++ [gen (data.drop 26)]) : List Char).length = 54 := by
    simp only [List.length_append, List.length_cons, List.length_take,
      List.length_drop, List.length_nil, hl]
    omega
  have hFchars : ∀ ch ∈ goTrim ['-'] (hyphenate (data.take 26 ++ gen (data.take 26) :: data.drop 26 ++ [gen (data.drop 26)])),
      ch ∈ b32Alphabet ∨ ch = '-' := by
    intro ch hch
    have h' := mem_of_mem_goTrim _ _ _ hch
    rcases hyphenate_chars_aux (List.length (data.take 26 ++ gen (data.take 26) :: data.drop 26 ++ [gen (data.drop 26)])) (data.take 26 ++ gen (data.take 26) :: data.drop 26 ++ [gen (data.drop 26)]) (Nat.le_refl _) ch h'
      with h'' | h''
    · exact Or.inl (hid54c ch h'')
    · exact Or.inr h''
  have u1 : goTrim ['='] (goTrim ['-'] (hyphenate (data.take 26 ++ gen (data.take 26) :: data.drop 26 ++ [gen (data.drop 26)])))
      = goTrim ['-'] (hyphenate (data.take 26 ++ gen (data.take 26) :: data.drop 26 ++ [gen (data.drop 26)])) := by
    refine goTrim_noop _ _ (fun ch hch => ?_)
    rcases hFchars ch hch with h | h
    · exact alpha_ne_pad ch h
    · rw [h]
      decide
  have u2 : goToUpper (goTrim ['-'] (hyphenate (data.take 26 ++ gen (data.take 26) :: data.drop 26 ++ [gen (data.drop 26)])))
      = goTrim ['-'] (hyphenate (data.take 26 ++ gen (data.take 26) :: data.drop 26 ++ [gen (data.drop 26)])) := by
    refine goToUpper_noop _ (fun ch hch => ?_)
    rcases hFchars ch hch with h | h
    · exact alpha_toUpper ch h
    · rw [h]
      decide
  have u3 : removeChar '-' (goTrim ['-'] (hyphenate (data.take 26 ++ gen (data.take 26) :: data.drop 26 ++ [gen (data.drop 26)]))) = (data.take 26 ++ gen (data.take 26) :: data.drop 26 ++ [gen (data.drop 26)]) := by
    rw [removeChar_goTrim,
        removeChar_hyphenate_aux (List.length (data.take 26 ++ gen (data.take 26) :: data.drop 26 ++ [gen (data.drop 26)])) (data.take 26 ++ gen (data.take 26) :: data.drop 26 ++ [gen (data.drop 26)]) (Nat.le_refl _),
        removeChar_noop '-' (data.take 26 ++ gen (data.take 26) :: data.drop 26 ++ [gen (data.drop 26)]) (fun ch hch => alpha_ne_dash ch (hid54c ch hch))]
  have u4 : removeChar ' ' ((data.take 26 ++ gen (data.take 26) :: data.drop 26 ++ [gen (data.drop 26)]) : List Char) = (data.take 26 ++ gen (data.take 26) :: data.drop 26 ++ [gen (data.drop 26)]) :=
    removeChar_noop ' ' (data.take 26 ++ gen (data.take 26) :: data.drop 26 ++ [gen (data.drop 26)]) (fun ch hch => alpha_ne_space ch (hid54c ch hch))
  have hdec : b32DecodeGroups (data.take 26 ++ gen (data.take 26) :: data.drop 26 ++ [gen (data.drop 26)]) = none := by
    refine b32DecodeGroups_none_aux (List.length (data.take 26 ++ gen (data.take 26) :: data.drop 26 ++ [gen (data.drop 26)])) (data.take 26 ++ gen (data.take 26) :: data.drop 26 ++ [gen (data.drop 26)]) (Nat.le_refl _) ?_
    rw [hid54l]
    decide
  rw [hNS]
  unfold UnmarshalTextGo
  dsimp only
  rw [u1, u2, u3, u4, hdec]

/-- C8, witness: parsing the formatted all-zero NodeID fails. -/
theorem c8_roundtrip_fails_witness :
    UnmarshalTextGo (fun _ => 'A')
      (NodeIDString (fun _ => 'A') (List.replicate 32 0)) = none :=
  c8_roundtrip_fails (fun _ => 'A') (List.replicate 32 0) (by decide)
    (by intro s; show 'A' ∈ b32Alphabet; decide)

/-- C9, counterexample: the base directory is fine at the first check and
gone at the second — `Walk` returns a non-nil error TOGETHER with the
file list the passes collected, because the named return `files` is not
reset on the post-pass `checkDir` failure. -/
theorem c9_partial_result_counterexample :
    ((Walk (some ⟨true⟩) [fileA5] none).2.isSome = true) ∧
    (Walk (some ⟨true⟩) [fileA5] none).1 = [fileA5] := by
  constructor
  · decide
  · decide

/-- C9, amended: a failing pre-pass check returns the error and an empty
list; a failing post-pass check returns the error together with the
collected files (the partial result escapes); an error-free return means
both checks passed and the collected files are returned. -/
theorem c9_walk_checkdir (pre post : Option DirInfo) (walked : List File) :
    (∀ e, checkDir pre = some e → Walk pre walked post = ([], some e)) ∧
    (checkDir pre = none → ∀ e, checkDir post = some e →
        Walk pre walked post = (walked, some e)) ∧
    ((Walk pre walked post).2 = none →
        checkDir pre = none ∧ checkDir post = none ∧
        (Walk pre walked post).1 = walked) := by
  refine ⟨?_, ?_, ?_⟩
  · intro e he
    unfold Walk
    rw [he]
  · intro hpre e hpost
    unfold Walk
    rw [hpre]
    dsimp only
    rw [hpost]
  · intro h
    rcases h1 : checkDir pre with _ | e
    · rcases h2 : checkDir post with _ | e
      · refine ⟨rfl, rfl, ?_⟩
        unfold Walk
        rw [h1]
        dsimp only
        rw [h2]
      · unfold Walk at h
        rw [h1] at h
        dsimp only at h
        rw [h2] at h
        simp at h
    · unfold Walk at h
      rw [h1] at h
      simp at h

/-- C9, witness: all three branches at concrete observations. -/
theorem c9_walk_checkdir_witness :
    Walk none [fileA5] (some ⟨true⟩) = ([], some "lstat error") ∧
    Walk (some ⟨true⟩) [fileA5] none = ([fileA5], some "lstat error") ∧
    (checkDir (some ⟨true⟩) = none ∧ checkDir (some ⟨true⟩) = none ∧
      (Walk (some ⟨true⟩) [fileA5] (some ⟨true⟩)).1 = [fileA5]) :=
  ⟨(c9_walk_checkdir none (some ⟨true⟩) [fileA5]).1 "lstat error" rfl,
   (c9_walk_checkdir (some ⟨true⟩) none [fileA5]).2.1 rfl "lstat error" rfl,
   (c9_walk_checkdir (some ⟨true⟩) (some ⟨true⟩) [fileA5]).2.2 rfl⟩

/-- C1, amended: the usage-counting invariant (no orphan or dangling
records, usages equal to reference counts) holds after `Replace` and
`ReplaceWithDelete` on any invariant state for a list with pairwise
distinct names and positive versions, and after a successful `Update`
whose file names are all new to the peer's map; a version-changing
`Update` of an existing name orphans the overwritten key's record. -/
theorem c1_usage_amended (id : Fin 64) (m : FSet) (fs : List File) (c : Clock)
    (hInv : Inv m) (hv : ∀ f ∈ fs, 1 ≤ f.version)
    (hnd : (fs.map File.name).Nodup) :
    UsageClaim (Replace id m fs) ∧
    UsageClaim (ReplaceWithDelete id m fs c).1 ∧
    (∀ m', (∀ f ∈ fs, ffind ((m.remoteKey id).getD []) f.name = none) →
        Update id m fs = some m' → UsageClaim m') :=
  ⟨(claims_of_Inv _ (Replace_inv id m fs hInv hv hnd)).1,
   (claims_of_Inv _ (ReplaceWithDelete_inv id m fs c hInv hv hnd)).1,
   fun m' habs hup => (claims_of_Inv _ (Update_inv id m fs m' hInv hv hnd habs hup)).1⟩

/-- C1, witness for the amended theorem: concrete runs of all three
mutations from invariant states. -/
theorem c1_usage_amended_witness :
    UsageClaim (Replace 0 NewSet [fileA5]) ∧
    UsageClaim (ReplaceWithDelete 0 NewSet [fileA5] ⟨0⟩).1 ∧
    UsageClaim ((Update 0 stA5 [fileB3]).getD NewSet) :=
  ⟨(c1_usage_amended 0 NewSet [fileA5] ⟨0⟩ (by decide) (by decide) (by decide)).1,
   (c1_usage_amended 0 NewSet [fileA5] ⟨0⟩ (by decide) (by decide) (by decide)).2.1,
   (c1_usage_amended 0 stA5 [fileB3] ⟨0⟩ (by decide) (by decide) (by decide)).2.2
     ((Update 0 stA5 [fileB3]).getD NewSet) (by decide) rfl⟩

/-- C2, amended: the global-view invariant (for every peer-reported name,
`globalKey` holds a maximal held key and `globalAvailability` has exactly
the bits of the peers holding it) holds after `Replace` and
`ReplaceWithDelete` on any invariant state for a list with pairwise
distinct names and positive versions, and after a successful `Update`
whose file names are all new to the peer's map; a version-regressing
`Update` of an existing name leaves a stale global entry. -/
theorem c2_global_amended (id : Fin 64) (m : FSet) (fs : List File) (c : Clock)
    (hInv : Inv m) (hv : ∀ f ∈ fs, 1 ≤ f.version)
    (hnd : (fs.map File.name).Nodup) :
    GlobalClaim (Replace id m fs) ∧
    GlobalClaim (ReplaceWithDelete id m fs c).1 ∧
    (∀ m', (∀ f ∈ fs, ffind ((m.remoteKey id).getD []) f.name = none) →
        Update id m fs = some m' → GlobalClaim m') :=
  ⟨(claims_of_Inv _ (Replace_inv id m fs hInv hv hnd)).2,
   (claims_of_Inv _ (ReplaceWithDelete_inv id m fs c hInv hv hnd)).2,
   fun m' habs hup => (claims_of_Inv _ (Update_inv id m fs m' hInv hv hnd habs hup)).2⟩

/-- C2, witness for the amended theorem: concrete runs of all three
mutations from invariant states. -/
theorem c2_global_amended_witness :
    GlobalClaim (Replace 0 NewSet [fileA5]) ∧
    GlobalClaim (ReplaceWithDelete 0 NewSet [fileA5] ⟨0⟩).1 ∧
    GlobalClaim ((Update 0 stA5 [fileB3]).getD NewSet) :=
  ⟨(c2_global_amended 0 NewSet [fileA5] ⟨0⟩ (by decide) (by decide) (by decide)).1,
   (c2_global_amended 0 NewSet [fileA5] ⟨0⟩ (by decide) (by decide) (by decide)).2.1,
   (c2_global_amended 0 stA5 [fileB3] ⟨0⟩ (by decide) (by decide) (by decide)).2.2
     ((Update 0 stA5 [fileB3]).getD NewSet) (by decide) rfl⟩

/-- C1, counterexample: after the public calls `Replace(0, [a@5])` then
`Update(0, [a@3])` (which succeeds), the record for key `a@5` still has
usage 1 although no peer map contains it any more — the internal `update`
overwrites `remFiles[n]` without decrementing the usage of the old key —
so the usage-counting invariant does not hold after every public
mutation. -/
theorem c1_usage_counterexample :
    (Update 0 stA5 [fileA3]).isSome = true ∧ ¬ UsageClaim stA5A3 := by
  constructor
  · decide
  · decide

/-- C2, counterexample: in the same state, `globalKey["a"]` is still `a@5`
although peer 0 (the only peer with an entry for "a") now reports `a@3`,
and availability bit 0 is still set; the global view is stale after a
public `Update` that regressed a version. -/
theorem c2_global_counterexample :
    (Update 0 stA5 [fileA3]).isSome = true ∧ ¬ GlobalClaim stA5A3 := by
  constructor
  · decide
  · decide

/-- C3, counterexample: after the single public call `Replace(0, [a@5])`,
"a" is present in `globalKey` but `globalVersion` is still the empty map
— nothing in `files/set.go` ever writes `globalVersion`. -/
theorem c3_globalVersion_counterexample :
    (ffind stA5.globalKey "a").isSome = true ∧ ¬ GlobalVersionClaim stA5 := by
  constructor
  · decide
  · decide

/-- C3, amended: `globalVersion` is never written by any public mutation —
`Replace`, `ReplaceWithDelete` and `Update` all return it exactly as it
was (so it stays the empty map of `NewSet`, and the claimed equality
`globalVersion[name] = globalKey[name].version` fails whenever
`globalKey` is non-empty). -/
theorem c3_globalVersion_never_written (id : Fin 64) (m : FSet) (fs : List File)
    (c : Clock) :
    (Replace id m fs).globalVersion = m.globalVersion ∧
    (ReplaceWithDelete id m fs c).1.globalVersion = m.globalVersion ∧
    ((Update id m fs).getD m).globalVersion = m.globalVersion := by
  refine ⟨?_, ?_, ?_⟩
  · unfold Replace
    split
    · exact replaceInternal_globalVersion id _ fs
    · rfl
  · unfold ReplaceWithDelete
    dsimp only
    split
    · exact replaceInternal_globalVersion id _ _
    · rfl
  · unfold Update updateInternal
    rcases hk : m.remoteKey id with _ | rem
    · rfl
    · simp only [Option.getD_some]
      exact foldl_pres (fun s => s.globalVersion) (updateOne id)
        (updateOne_globalVersion id) fs m

/-- C10: a mutation on behalf of peer `i` leaves every other peer's
name-to-key map and change counter untouched: `Replace`,
`ReplaceWithDelete` and `Update` on `i` preserve `remoteKey j` and
`changes j` for every `j ≠ i`. -/
theorem c10_frame_other_peers (i j : Fin 64) (h : j ≠ i) (m : FSet) (fs : List File)
    (c : Clock) :
    (Replace i m fs).remoteKey j = m.remoteKey j ∧
    (Replace i m fs).changes j = m.changes j ∧
    (ReplaceWithDelete i m fs c).1.remoteKey j = m.remoteKey j ∧
    (ReplaceWithDelete i m fs c).1.changes j = m.changes j ∧
    ((Update i m fs).getD m).remoteKey j = m.remoteKey j ∧
    ((Update i m fs).getD m).changes j = m.changes j := by
  refine ⟨?_, ?_, ?_, ?_, ?_, ?_⟩
  · unfold Replace
    split
    · exact replaceInternal_remoteKey_ne i j h _ fs
    · rfl
  · unfold Replace
    split
    · rw [replaceInternal_changes]
      exact Function.update_noteq h _ _
    · rfl
  · unfold ReplaceWithDelete
    dsimp only
    split
    · exact replaceInternal_remoteKey_ne i j h _ _
    · rfl
  · unfold ReplaceWithDelete
    dsimp only
    split
    · rw [replaceInternal_changes]
      exact Function.update_noteq h _ _
    · rfl
  · unfold Update updateInternal
    rcases hk : m.remoteKey i with _ | rem
    · rfl
    · simp only [Option.getD_some]
      exact foldl_pres (fun s => s.remoteKey j) (updateOne i)
        (updateOne_remoteKey_ne i j h) fs m
  · unfold Update updateInternal
    rcases hk : m.remoteKey i with _ | rem
    · rfl
    · simp only [Option.getD_some]
      rw [Function.update_noteq h]
      exact congrFun (foldl_pres (fun s => s.changes) (updateOne i)
        (updateOne_changes i) fs m) j

/-- C10, witness: the frame property applied at `i = 0`, `j = 1`, the
`Replace(0, [a@5])` state, the list `[a@3]` and a fresh clock. -/
theorem c10_frame_other_peers_witness :
    (1 : Fin 64) ≠ 0 ∧
    ((Replace 0 stA5 [fileA3]).remoteKey 1 = stA5.remoteKey 1 ∧
     (Replace 0 stA5 [fileA3]).changes 1 = stA5.changes 1 ∧
     (ReplaceWithDelete 0 stA5 [fileA3] ⟨0⟩).1.remoteKey 1 = stA5.remoteKey 1 ∧
     (ReplaceWithDelete 0 stA5 [fileA3] ⟨0⟩).1.changes 1 = stA5.changes 1 ∧
     ((Update 0 stA5 [fileA3]).getD stA5).remoteKey 1 = stA5.remoteKey 1 ∧
     ((Update 0 stA5 [fileA3]).getD stA5).changes 1 = stA5.changes 1) :=
  ⟨by decide, c10_frame_other_peers 0 1 (by decide) stA5 [fileA3] ⟨0⟩⟩

end Syncthing
